import Mathlib

/-!
Verification development for the `voronoi_diagrams` repository.

The Python source is shallowly embedded in Lean:
  * `Point` coordinates are exact rationals (`ℚ`) where the code only
    compares, adds, multiplies and divides, and real numbers (`ℝ`) where
    the code takes square roots;
  * numpy's `±inf` is modelled by `WithBot (WithTop ℚ)` where it can
    actually occur (the `AABB` constructor);
  * mutable tree nodes are replaced by inductive trees, object references
    by root-to-node paths, and Python's `heapq` by a faithful functional
    translation of its list-based binary heap;
  * loops are translated as fuel-indexed recursions; every wrapper
    instantiates the fuel with a bound proved (or easily seen) to be
    sufficient, and all lemmas that need full execution carry an explicit
    fuel hypothesis.
-/

namespace VD

/-- Absolute tolerance of `np.isclose` (numpy default `atol = 1e-8`). -/
def atol : ℚ := 1 / 10 ^ 8

/-- Relative tolerance of `np.isclose` (numpy default `rtol = 1e-5`). -/
def rtol : ℚ := 1 / 10 ^ 5

/-- The positive skin width `SKIN = 1e-12` of `aabb.py`. -/
def skin : ℚ := 1 / 10 ^ 12

/-- Embedding of `np.isclose(a, b)` over exact rationals:
`abs(a - b) <= atol + rtol * abs(b)` (numpy's documented formula). -/
def iscloseQ (a b : ℚ) : Bool := |a - b| ≤ atol + rtol * |b|

/-- A point of `point.py` : an n-dimensional tuple of coordinates.
Coordinates are exact rationals. -/
abbrev Pt := List ℚ

namespace Point

/-- Embedding of `Point.__eq__`: `zip` the coordinate lists and demand
equality of every aligned pair (the Python loop returns `False` at the
first unequal pair). -/
def eqB (p q : Pt) : Bool := (p.zip q).all fun ab => ab.1 = ab.2

/-- Embedding of `Point.__lt__`: the Python loop returns `False` at the
first pair with `a >= b`, hence it returns `True` iff every aligned pair
satisfies `a < b`. -/
def ltB (p q : Pt) : Bool := (p.zip q).all fun ab => ab.1 < ab.2

/-- Embedding of `Point.__le__`: `True` iff every aligned pair satisfies
`a <= b`. -/
def leB (p q : Pt) : Bool := (p.zip q).all fun ab => ab.1 ≤ ab.2

/-- Embedding of `Point.distance` squared: the squared Euclidean norm of
the coordinatewise difference.  `Point.distance` itself is
`Real.sqrt` of this quantity (see `dist`). -/
def dist2 (p q : Pt) : ℚ := ((p.zip q).map fun ab => (ab.1 - ab.2) ^ 2).sum

/-- Embedding of `Point.distance` (`np.linalg.norm` of the difference). -/
noncomputable def dist (p q : Pt) : ℝ := Real.sqrt (dist2 p q)

end Point

/-! ### The `AABB` constructor with numpy infinities (for the empty box)

`AABB.__init__` stores `pmin = Point(*[-np.inf]*ndim)` and
`pmax = Point(*[np.inf]*ndim)`, and only when initial points are supplied
does `_set` overwrite these with `+inf` / `-inf` before folding in the
points.  To capture the infinities exactly we use
`XQ := WithBot (WithTop ℚ)`: `⊥` is `-inf` and `⊤` is `+inf`. -/

abbrev XQ := WithBot (WithTop ℚ)

/-- Coordinates of a rational point viewed inside `XQ`. -/
def Pt.toX (p : Pt) : List XQ := p.map fun a => ((a : WithTop ℚ) : XQ)

/-- The `pmin`/`pmax` pair of an `AABB` (surface-area cache omitted:
it is recomputed from `pmin`/`pmax` by `_update_surface_area`, and the
finite-box embedding below computes it on demand). -/
structure AABBX where
  pmin : List XQ
  pmax : List XQ
deriving DecidableEq, Repr

/-- Embedding of the loop body of `AABB._update` for one point:
`pmin[i] = min(pmin[i], x[i])`, `pmax[i] = max(pmax[i], x[i])`. -/
def aabbUpd (b : AABBX) (p : List XQ) : AABBX :=
  { pmin := List.zipWith min b.pmin p
    pmax := List.zipWith max b.pmax p }

/-- Embedding of `AABB._set`: reset `pmin` to `+inf`, `pmax` to `-inf`,
then `_update` with all the points. -/
def aabbSet (ndim : ℕ) (pts : List (List XQ)) : AABBX :=
  pts.foldl aabbUpd { pmin := List.replicate ndim ⊤, pmax := List.replicate ndim ⊥ }

/-- Embedding of `AABB.__init__`: `pmin` starts at `-inf` and `pmax` at
`+inf`; when initial points are given, `_set` overwrites them. -/
def aabbInit (ndim : ℕ) (pts : List (List XQ)) : AABBX :=
  if pts.isEmpty then
    { pmin := List.replicate ndim ⊥, pmax := List.replicate ndim ⊤ }
  else
    aabbSet ndim pts

/-! ### Python's `heapq` (list-based binary heap)

A faithful functional translation of CPython's `heapq.heappush` and
`heapq.heappop` with their helpers `_siftdown` and `_siftup`.  The
comparison is a parameter `lt` (Python dispatches to `__lt__`).  The
recursions are fuel-indexed; the wrappers supply fuel that dominates the
number of iterations (`_siftdown` strictly decreases `pos`, `_siftup`
strictly increases `pos` below `len`), so the fuel-exhausted fallbacks
are never reached at the call sites. -/

namespace PyHeap

variable {α : Type*}

/-- Embedding of `heapq._siftdown(heap, startpos, pos)` where `x` is the
`newitem` initially read from `heap[pos]` (slot `pos` is treated as a
hole: the loop only reads parent slots and finally writes `x`). -/
def siftdown (lt : α → α → Bool) : ℕ → List α → ℕ → ℕ → α → List α
  | 0, h, _, p, x => h.set p x
  | fuel + 1, h, s, p, x =>
      if s < p then
        let pp := (p - 1) / 2
        let parent := h.getD pp x
        if lt x parent then siftdown lt fuel (h.set p parent) s pp x
        else h.set p x
      else h.set p x

/-- Embedding of `heapq._siftup(heap, pos)` where `x` is the `newitem`
initially read from `heap[pos]`; the final `heap[pos] = newitem` together
with the trailing `_siftdown(heap, startpos, pos)` is the `siftdown`
call in the base cases. -/
def siftup (lt : α → α → Bool) : ℕ → List α → ℕ → ℕ → α → List α
  | 0, h, s, p, x => siftdown lt p h s p x
  | fuel + 1, h, s, p, x =>
      let c := 2 * p + 1
      if c < h.length then
        let c' := if c + 1 < h.length ∧ ¬ lt (h.getD c x) (h.getD (c + 1) x) then c + 1 else c
        siftup lt fuel (h.set p (h.getD c' x)) s c' x
      else siftdown lt p h s p x

/-- Embedding of `heapq.heappush`: append the item and sift it down. -/
def heappush (lt : α → α → Bool) (heap : List α) (item : α) : List α :=
  siftdown lt heap.length (heap ++ [item]) 0 heap.length item

/-- Embedding of `heapq.heappop`: pop the last element; if the heap is
still nonempty, the root is returned and the last element is sifted up
from the root position. -/
def heappop (lt : α → α → Bool) (heap : List α) : Option (α × List α) :=
  match heap.getLast? with
  | none => none
  | some last =>
      let rest := heap.dropLast
      if rest.isEmpty then some (last, [])
      else some (rest.getD 0 last, siftup lt rest.length (rest.set 0 last) 0 0 last)

end PyHeap

/-! ### Finite bounding boxes and BVH trees (`aabb.py`, `tree_bvh.py`)

Inside the BVH every `AABB` is built from at least one finite point
(`LeafBVH.__init__` passes the point; `InternalBVH.set_box` overwrites the
fresh box before it is ever read), so the boxes of the BVH embedding carry
plain rational coordinate lists.  Object references become root-to-node
paths (`false` = left child, `true` = right child).  The element type `α`
is abstract with a coordinate projection `pt : α → Pt`, so that the same
embedding serves both `TreeBVH[Point]` (with `α = Pt`, `pt = id`) and the
DCEL's vertex tree (whose leaves are `PointDCEL` objects, modelled as
arena indices). -/

/-- A finite axis-aligned box. -/
structure Box where
  pmin : Pt
  pmax : Pt
deriving DecidableEq, Repr

namespace Box

/-- Embedding of `AABB(point)`: the degenerate box of a single point
(after `_set`, `pmin = pmax = point`). -/
def ofPoint (p : Pt) : Box := ⟨p, p⟩

/-- One step of `AABB._update`: fold one point into the box
(`pmin[i] = min(pmin[i], x[i])`, `pmax[i] = max(pmax[i], x[i])`). -/
def upd (b : Box) (p : Pt) : Box :=
  ⟨List.zipWith min b.pmin p, List.zipWith max b.pmax p⟩

/-- Embedding of `AABB.union(box)`: `_update(box._pmin, box._pmax)`. -/
def union (b c : Box) : Box := (b.upd c.pmin).upd c.pmax

/-- Embedding of `InternalBVH.set_box`: `_set` with the four corner points
of the two child boxes; after the `±inf` reset the first folded point
leaves the degenerate box of itself, and the remaining three are folded
by `_update`. -/
def setBox (l r : Box) : Box := (((ofPoint l.pmin).upd l.pmax).upd r.pmin).upd r.pmax

/-- Helper computing simultaneously `Σ_i Π_{j ≠ i} (d_j + 2·SKIN)` (first
component) and `Π_j (d_j + 2·SKIN)` (second component) over a list of
extents; this is the double loop of `AABB._update_surface_area` written
as one recursion. -/
def saPair : List ℚ → ℚ × ℚ
  | [] => (0, 1)
  | d :: t =>
      let sp := saPair t
      ((d + 2 * skin) * sp.1 + sp.2, (d + 2 * skin) * sp.2)

/-- Embedding of `AABB.surface_area` (recomputed on demand instead of
cached): `2 · Σ_i Π_{j ≠ i} (pmax[j] - pmin[j] + 2·SKIN)`. -/
def sa (b : Box) : ℚ := 2 * (saPair (List.zipWith (fun mn mx => mx - mn) b.pmin b.pmax)).1

/-- Embedding of `AABB.proposed_surface_area(point)`: the same sum with
`dx[j] = max(pmax[j], x[j]) - min(pmin[j], x[j])`, i.e. the surface area
of the box with the point folded in. -/
def proposedSA (b : Box) (p : Pt) : ℚ := sa (b.upd p)

/-- Embedding of `AABB.intersect`: `pmin <= box.pmax and box.pmin <= pmax`
via the componentwise `Point.__le__`. -/
def intersectB (a b : Box) : Bool := Point.leB a.pmin b.pmax && Point.leB b.pmin a.pmax

/-- Embedding of `AABB.contains`: `pmin <= point and point <= pmax`. -/
def containsB (b : Box) (p : Pt) : Bool := Point.leB b.pmin p && Point.leB p b.pmax

/-- Embedding of `AABB.__lt__`: compare `pmin`, tie-break on `pmax`. -/
def ltB (a b : Box) : Bool :=
  if Point.eqB a.pmin b.pmin then Point.ltB a.pmax b.pmax else Point.ltB a.pmin b.pmin

end Box

/-- A BVH tree node: either a `LeafBVH` holding its value or an
`InternalBVH` with its stored box, `count` and `height` caches and two
children. -/
inductive BVH (α : Type) where
  | leaf (v : α)
  | node (box : Box) (cnt : ℕ) (hgt : ℕ) (l : BVH α) (r : BVH α)
deriving DecidableEq, Repr

namespace BVH

variable {α : Type} (pt : α → Pt)

/-- The box of a node (`LeafBVH.box` is the degenerate box of its point,
`InternalBVH.box` is the stored box). -/
def boxOf : BVH α → Box
  | leaf v => Box.ofPoint (pt v)
  | node b _ _ _ _ => b

/-- The stored `count` (`LeafBVH._count = 1`). -/
def count : BVH α → ℕ
  | leaf _ => 1
  | node _ c _ _ _ => c

/-- The stored `height` (`Leaf.height = 0`). -/
def hgt : BVH α → ℕ
  | leaf _ => 0
  | node _ _ h _ _ => h

/-- Number of nodes of the tree (used only as loop fuel / measures). -/
def size : BVH α → ℕ
  | leaf _ => 1
  | node _ _ _ l r => 1 + size l + size r

/-- The stored points of the tree, in leaf order. -/
def leaves : BVH α → List α
  | leaf v => [v]
  | node _ _ _ l r => leaves l ++ leaves r

/-- Building a fresh internal above two children: `set_box`,
`update_count` (`1 + left.count + right.count`) and `update_height`
(`1 + max(left.height, right.height)`). -/
def mkInternal (l r : BVH α) : BVH α :=
  node (Box.setBox (boxOf pt l) (boxOf pt r)) (1 + count l + count r)
    (1 + max (hgt l) (hgt r)) l r

/-- Embedding of `LeafBVH.__lt__` / `InternalBVH.__lt__` (the node
comparison Python's `heapq` falls back to when the costs tie). -/
def nodeLt : BVH α → BVH α → Bool
  | leaf v, leaf w => Point.ltB (pt v) (pt w)
  | leaf v, node b _ _ _ _ => Point.ltB (pt v) b.pmin
  | node b _ _ _ _, leaf w => Point.ltB b.pmin (pt w)
  | node b _ _ _ _, node c _ _ _ _ => Box.ltB b c

/-- A priority-queue entry of `TreeBVH._insert`: the Python tuple
`(inherited_cost, node)`, with the node's identity materialized as its
root-to-node path. -/
structure SEntry (α : Type) where
  cost : ℚ
  path : List Bool
  t : BVH α
deriving DecidableEq, Repr

/-- Python's tuple comparison on `(inherited_cost, node)`: lexicographic,
with the node comparison `__lt__` as tie-break (paths are bookkeeping and
are not compared). -/
def entryLt (a b : SEntry α) : Bool :=
  decide (a.cost < b.cost) || (decide (a.cost = b.cost) && nodeLt pt a.t b.t)

/-- The node cost `surface_area(node) + inherited_cost` of an entry. -/
def entryCost (e : SEntry α) : ℚ := Box.sa (boxOf pt e.t) + e.cost

/-- One iteration of the best-first loop of `TreeBVH._insert` applied to
a popped entry `e`: update the running best (`node_cost <= best_cost`;
the comment in the source notes this gives priority to nodes deeper in
the tree), then push both children keyed by the lower bound
`inherited_cost + (proposed_surface_area - surface_area)` when that lower
bound is strictly below the updated best cost. -/
def searchStep (point : Pt) (e : SEntry α) (best : WithTop ℚ) (bestN : Option (SEntry α))
    (q : List (SEntry α)) :
    WithTop ℚ × Option (SEntry α) × List (SEntry α) :=
  let sav := Box.sa (boxOf pt e.t)
  let psa := Box.proposedSA (boxOf pt e.t) point
  let nodeCost := sav + e.cost
  let best' := if (nodeCost : WithTop ℚ) ≤ best then ((nodeCost : WithTop ℚ)) else best
  let bestN' := if (nodeCost : WithTop ℚ) ≤ best then some e else bestN
  let low := e.cost + (psa - sav)
  let q' :=
    if (low : WithTop ℚ) < best' then
      match e.t with
      | leaf _ => q
      | node _ _ _ l r =>
          PyHeap.heappush (entryLt pt)
            (PyHeap.heappush (entryLt pt) q ⟨low, e.path ++ [false], l⟩)
            ⟨low, e.path ++ [true], r⟩
    else q
  (best', bestN', q')

/-- The best-first search loop of `TreeBVH._insert` (fuel-indexed; the
total subtree size carried by the queue strictly decreases each
iteration).  Returns the final best cost, the best entry, and the list of
popped entries in pop order. -/
def searchGo (point : Pt) : ℕ → List (SEntry α) → WithTop ℚ → Option (SEntry α) →
    WithTop ℚ × Option (SEntry α) × List (SEntry α)
  | 0, _, best, bestN => (best, bestN, [])
  | fuel + 1, queue, best, bestN =>
      match PyHeap.heappop (entryLt pt) queue with
      | none => (best, bestN, [])
      | some (e, q') =>
          let s := searchStep pt point e best bestN q'
          let rec' := searchGo point fuel s.2.2 s.1 s.2.1
          (rec'.1, rec'.2.1, e :: rec'.2.2)

/-- The sibling search of `TreeBVH._insert`: start from
`queue = [(0, root)]`, `best_cost = inf`, `best_node = None`. -/
def insertSearch (t : BVH α) (point : Pt) :
    WithTop ℚ × Option (SEntry α) × List (SEntry α) :=
  searchGo pt point (size t) [⟨0, [], t⟩] ⊤ none

/-- Splicing of `TreeBVH._insert` and the `_update_internals` walk in one
recursion: replace the subtree at `path` by a fresh internal with it and
the new leaf as children, and on the way back update every ancestor with
`box.union(child.box)`, `update_count` and `update_height`.  An invalid
path leaves the tree unchanged (the search always returns a valid one). -/
def insertLeafAt (x : α) : BVH α → List Bool → BVH α
  | t, [] => mkInternal pt t (leaf x)
  | node b _ _ l r, false :: π =>
      let l' := insertLeafAt x l π
      node (Box.union b (boxOf pt l')) (1 + count l' + count r) (1 + max (hgt l') (hgt r)) l' r
  | node b _ _ l r, true :: π =>
      let r' := insertLeafAt x r π
      node (Box.union b (boxOf pt r')) (1 + count l + count r') (1 + max (hgt l) (hgt r')) l r'
  | leaf v, _ :: _ => leaf v

/-- Embedding of `TreeBVH.insert`: an empty tree gets the leaf as root,
otherwise `_insert` (search + splice + update walk). -/
def insertT (x : α) : Option (BVH α) → Option (BVH α)
  | none => some (leaf x)
  | some t =>
      match (insertSearch pt t (pt x)).2.1 with
      | none => some t
      | some e => some (insertLeafAt pt x t e.path)

/-- Embedding of `BalancedTreeBVH._rebalance.calculate_cost(node)` where
`c` is the node's stored `count` and `l`, `r` are its current children:
`Σ (child.count/node.count)·surface_area(child.box)`, scaled by
`max(1, |imbalance|)`. -/
def calcCost (c : ℕ) (l r : BVH α) : ℚ :=
  let cost := ((count l : ℚ) / (c : ℚ)) * Box.sa (boxOf pt l)
    + ((count r : ℚ) / (c : ℚ)) * Box.sa (boxOf pt r)
  let dc : ℤ := (hgt l : ℤ) - (hgt r : ℤ)
  cost * ((max 1 |dc| : ℤ) : ℚ)

/-- The no-swap baseline cost of `BalancedTreeBVH._rebalance`: `+inf`
when `|imbalance| >= 2` (to force a swap), else `calculate_cost`. -/
def baseCost (c : ℕ) (l r : BVH α) : WithTop ℚ :=
  if 2 ≤ |(hgt l : ℤ) - (hgt r : ℤ)| then ⊤ else ((calcCost pt c l r : ℚ) : WithTop ℚ)

/-- Trial cost `cost_ll_r` ("swap right and left.left"); `+inf` when the
left child is a leaf (the source only tries the swap for internals). -/
def trialLL (c : ℕ) (l r : BVH α) : WithTop ℚ :=
  match l with
  | leaf _ => ⊤
  | node _ _ _ ll lr => ((calcCost pt c (mkInternal pt r lr) ll : ℚ) : WithTop ℚ)

/-- Trial cost `cost_lr_r` ("swap right and left.right"). -/
def trialLR (c : ℕ) (l r : BVH α) : WithTop ℚ :=
  match l with
  | leaf _ => ⊤
  | node _ _ _ ll lr => ((calcCost pt c (mkInternal pt ll r) lr : ℚ) : WithTop ℚ)

/-- Trial cost `cost_rl_l` ("swap left and right.left"). -/
def trialRL (c : ℕ) (l r : BVH α) : WithTop ℚ :=
  match r with
  | leaf _ => ⊤
  | node _ _ _ rl rr => ((calcCost pt c rl (mkInternal pt l rr) : ℚ) : WithTop ℚ)

/-- Trial cost `cost_rr_l` ("swap left and right.right"). -/
def trialRR (c : ℕ) (l r : BVH α) : WithTop ℚ :=
  match r with
  | leaf _ => ⊤
  | node _ _ _ rl rr => ((calcCost pt c rr (mkInternal pt rl l) : ℚ) : WithTop ℚ)

/-- Applying the `cost_ll_r` swap: the left child becomes
`(right, left.right)` (rebuilt by `set_box`/`update`), the right child
becomes `left.left`; the node keeps its stored box and count and gets
`update_height`.  (The leaf fallback is unreachable: the branch is taken
only when the trial cost is finite.) -/
def applyLL (b : Box) (c : ℕ) (l r : BVH α) : BVH α :=
  match l with
  | leaf v => leaf v
  | node _ _ _ ll lr =>
      node b c (1 + max (hgt (mkInternal pt r lr)) (hgt ll)) (mkInternal pt r lr) ll

/-- Applying the `cost_lr_r` swap. -/
def applyLR (b : Box) (c : ℕ) (l r : BVH α) : BVH α :=
  match l with
  | leaf v => leaf v
  | node _ _ _ ll lr =>
      node b c (1 + max (hgt (mkInternal pt ll r)) (hgt lr)) (mkInternal pt ll r) lr

/-- Applying the `cost_rl_l` swap. -/
def applyRL (b : Box) (c : ℕ) (l r : BVH α) : BVH α :=
  match r with
  | leaf v => leaf v
  | node _ _ _ rl rr =>
      node b c (1 + max (hgt rl) (hgt (mkInternal pt l rr))) rl (mkInternal pt l rr)

/-- Applying the `cost_rr_l` swap. -/
def applyRR (b : Box) (c : ℕ) (l r : BVH α) : BVH α :=
  match r with
  | leaf v => leaf v
  | node _ _ _ rl rr =>
      node b c (1 + max (hgt rr) (hgt (mkInternal pt rl l))) rr (mkInternal pt rl l)

/-- One position of the `BalancedTreeBVH._rebalance` walk: compute the
baseline and the four trial costs, take the minimum, and apply the first
alternative attaining it in the source's `if/elif` order
(`cost`, `cost_ll_r`, `cost_lr_r`, `cost_rl_l`, `cost_rr_l`),
finishing with `update_height`. -/
def posStepB (t : BVH α) : BVH α :=
  match t with
  | leaf v => leaf v
  | node b c _ l r =>
      let mc := min (baseCost pt c l r) (min (trialLL pt c l r)
        (min (trialLR pt c l r) (min (trialRL pt c l r) (trialRR pt c l r))))
      if mc = baseCost pt c l r then node b c (1 + max (hgt l) (hgt r)) l r
      else if mc = trialLL pt c l r then applyLL pt b c l r
      else if mc = trialLR pt c l r then applyLR pt b c l r
      else if mc = trialRL pt c l r then applyRL pt b c l r
      else applyRR pt b c l r

/-- The `BalancedTreeBVH._rebalance` walk from the new leaf's parent (at
`path`) up to the root, processing each position bottom-up. -/
def rebalanceWalkB : BVH α → List Bool → BVH α
  | t, [] => posStepB pt t
  | node b c h l r, false :: π => posStepB pt (node b c h (rebalanceWalkB l π) r)
  | node b c h l r, true :: π => posStepB pt (node b c h l (rebalanceWalkB r π))
  | leaf v, _ :: _ => leaf v

/-- Embedding of `BalancedTreeBVH.insert`: plain insert, then rebalance
from the new leaf (no-op when the new leaf is the root). -/
def insertBalancedT (x : α) : Option (BVH α) → Option (BVH α)
  | none => some (leaf x)
  | some t =>
      match (insertSearch pt t (pt x)).2.1 with
      | none => some t
      | some e => some (rebalanceWalkB pt (insertLeafAt pt x t e.path) e.path)

/-- The depth-first loop of `TreeBVH.query` (head of the list is the top
of the Python stack; `left` is appended before `right`, so `right` is
popped first).  The distance test `point.distance(leaf.value) <= radius`
is embedded by the equivalent exact test `0 ≤ r ∧ dist2 ≤ r²`
(theorem `Point.dist_le_iff`). -/
def queryLoop (point : Pt) (box : Box) (r : ℚ) : ℕ → List (BVH α) → Option α
  | 0, _ => none
  | _ + 1, [] => none
  | fuel + 1, t :: rest =>
      match t with
      | leaf v =>
          if 0 ≤ r ∧ Point.dist2 point (pt v) ≤ r ^ 2 then some v
          else queryLoop point box r fuel rest
      | node nb _ _ l rr =>
          if Box.intersectB box nb then queryLoop point box r fuel (rr :: l :: rest)
          else queryLoop point box r fuel rest

/-- The expanded query box of `TreeBVH.query`: the degenerate box of the
point when `radius == 0`, else the box `[point - r, point + r]`. -/
def queryBox (point : Pt) (r : ℚ) : Box :=
  if r = 0 then Box.ofPoint point
  else ⟨point.map (fun a => a - r), point.map (fun a => a + r)⟩

/-- Embedding of `TreeBVH.query(point, radius)`. -/
def query (t : Option (BVH α)) (point : Pt) (r : ℚ) : Option α :=
  match t with
  | none => none
  | some t => queryLoop pt point (queryBox point r) r (size t) [t]

/-- The depth-first loop of `TreeBVH.contains` (the identity test
`node.value is point` becomes equality of `α`; the instantiations use
arena indices, for which equality is identity). -/
def containsLoop [DecidableEq α] (x : α) : ℕ → List (BVH α) → Bool
  | 0, _ => false
  | _ + 1, [] => false
  | fuel + 1, t :: rest =>
      match t with
      | leaf v => if v = x then true else containsLoop x fuel rest
      | node nb _ _ l r =>
          if Box.containsB nb (pt x) then containsLoop x fuel (r :: l :: rest)
          else containsLoop x fuel rest

/-- Embedding of `TreeBVH.contains(point)`. -/
def containsT [DecidableEq α] (t : Option (BVH α)) (x : α) : Bool :=
  match t with
  | none => false
  | some t => containsLoop pt x (size t) [t]

/-- A whole tree built by a sequence of `insert` calls on an initially
empty tree (`balanced` selects `BalancedTreeBVH`). -/
def buildT (balanced : Bool) (xs : List α) : Option (BVH α) :=
  xs.foldl (fun acc x => if balanced then insertBalancedT pt x acc else insertT pt x acc) none

/-- The finite version of the `wfB` box invariant: coordinate lists of
length `n` with `pmin ≤ pmax` componentwise. -/
def boxWf (n : ℕ) (b : Box) : Prop :=
  b.pmin.length = n ∧ b.pmax.length = n ∧ List.Forall₂ (· ≤ ·) b.pmin b.pmax

/-- A box contains a point, componentwise. -/
def containsPt (b : Box) (p : Pt) : Prop :=
  List.Forall₂ (· ≤ ·) b.pmin p ∧ List.Forall₂ (· ≤ ·) p b.pmax

/-- Structural invariant of BVH trees as built by insertion: all points
have dimension `n`, every internal box is well-formed and contains every
point stored beneath it. -/
def wfB (n : ℕ) : BVH α → Prop
  | leaf v => (pt v).length = n
  | node b _ _ l r =>
      boxWf n b ∧ (∀ q ∈ leaves l ++ leaves r, containsPt b (pt q)) ∧ wfB n l ∧ wfB n r

/-- The invariant for an optional root (`Tree._root`). -/
def wfO (n : ℕ) : Option (BVH α) → Prop
  | none => True
  | some t => wfB pt n t

/-- The stored points of an optional root. -/
def storedO : Option (BVH α) → List α
  | none => []
  | some t => leaves t

/-- All nodes of the tree paired with the inherited cost the best-first
search would charge them (each child inherits
`inherited + (proposed_surface_area(parent) - surface_area(parent))`),
together with their paths. -/
def nodesInh (point : Pt) : ℚ → List Bool → BVH α → List (SEntry α)
  | inh, path, leaf v => [⟨inh, path, leaf v⟩]
  | inh, path, node b c h l r =>
      let t := node b c h l r
      let low := inh + (Box.proposedSA (boxOf pt t) point - Box.sa (boxOf pt t))
      ⟨inh, path, t⟩ :: (nodesInh point low (path ++ [false]) l
        ++ nodesInh point low (path ++ [true]) r)

/-- The lower bound `inherited_cost + (proposed_surface_area -
surface_area)` attached to an entry's children when the search descends. -/
def lowOf (point : Pt) (e : SEntry α) : ℚ :=
  e.cost + (Box.proposedSA (boxOf pt e.t) point - Box.sa (boxOf pt e.t))

/-- Total subtree size carried by a search queue (the loop measure:
each iteration pops one node and pushes at most its two children). -/
def qsize (queue : List (SEntry α)) : ℕ := (queue.map fun e => size e.t).sum

/-- Specification device for the running best of the search loop: the
`node_cost <= best_cost` fold over a list of popped entries. -/
def foldBest (tr : List (SEntry α)) (st : WithTop ℚ × Option (SEntry α)) :
    WithTop ℚ × Option (SEntry α) :=
  tr.foldl (fun st e =>
    if ((entryCost pt e : ℚ) : WithTop ℚ) ≤ st.1 then (((entryCost pt e : ℚ) : WithTop ℚ), some e)
    else st) st

end BVH

/-- A 2-dimensional point of `point.py` (`Point2D`), with exact real
coordinates standing for the floats of `math_voronoi.py`. -/
structure Point2D where
  x : ℝ
  y : ℝ

namespace MathV

/-- `np.isclose(a, b)` over the reals: `abs(a - b) <= atol + rtol * abs(b)`
with numpy's default tolerances `atol = 1e-8`, `rtol = 1e-5`. -/
def iscloseR (a b : ℝ) : Prop := |a - b| ≤ 1 / 10 ^ 8 + (1 / 10 ^ 5) * |b|

/-- Embedding of `line_parameters(p, q)`: `(-dy, dx, -dy*p.x + dx*p.y)`. -/
def line_parameters (p q : Point2D) : ℝ × ℝ × ℝ :=
  let dx := q.x - p.x
  let dy := q.y - p.y
  (-dy, dx, -dy * p.x + dx * p.y)

/-- Embedding of `perpendicular_line_parameters(p, q)`:
`(-dx, -dy, -dx*xm - dy*ym)` with `(xm, ym)` the midpoint. -/
noncomputable def perpendicular_line_parameters (p q : Point2D) : ℝ × ℝ × ℝ :=
  let dx := q.x - p.x
  let dy := q.y - p.y
  let xm := (p.x + q.x) / 2
  let ym := (p.y + q.y) / 2
  (-dx, -dy, -dx * xm - dy * ym)

open Classical in
/-- Embedding of `circle_parameters(p, q, r)`: build the two perpendicular
bisector lines, return `None` when their determinant is `isclose` to zero,
else solve the 2×2 system (`np.linalg.solve` returns the exact solution by
Cramer's rule) and return the center with the radius `sqrt(dx²+dy²)`. -/
noncomputable def circle_parameters (p q r : Point2D) : Option (Point2D × ℝ) :=
  let l0 := perpendicular_line_parameters p q
  let l1 := perpendicular_line_parameters p r
  let dt := l0.1 * l1.2.1 - l1.1 * l0.2.1
  if iscloseR dt 0 then none
  else
    let x := (l0.2.2 * l1.2.1 - l1.2.2 * l0.2.1) / dt
    let y := (l0.1 * l1.2.2 - l1.1 * l0.2.2) / dt
    let dx := p.x - x
    let dy := p.y - y
    some (⟨x, y⟩, Real.sqrt (dx * dx + dy * dy))

open Classical in
/-- Embedding of `parabola_y(focus, directrix, x)`: `np.inf` when the
focus is `isclose` to the directrix, else `(b - dx*dx/dy) / 2`. -/
noncomputable def parabola_y (focus : Point2D) (directrix x : ℝ) : WithTop ℝ :=
  if iscloseR focus.y directrix then ⊤
  else
    (((directrix + focus.y - (x - focus.x) * (x - focus.x) / (directrix - focus.y)) / 2 : ℝ) :
      WithTop ℝ)

/-- The local `A = Y1d - Y0d` of `get_parabola_intersection` (leading
coefficient of the breakpoint quadratic). -/
def coefA (f0 f1 : Point2D) (d : ℝ) : ℝ := (f1.y - d) - (f0.y - d)

/-- The local `B = 2 * (f1.x*Y0d - f0.x*Y1d)` of
`get_parabola_intersection`. -/
def coefB (f0 f1 : Point2D) (d : ℝ) : ℝ :=
  2 * (f1.x * (f0.y - d) - f0.x * (f1.y - d))

/-- The local `C = f0.x*f0.x*Y1d - f1.x*f1.x*Y0d - A*Y0d*Y1d` of
`get_parabola_intersection`. -/
def coefC (f0 f1 : Point2D) (d : ℝ) : ℝ :=
  f0.x * f0.x * (f1.y - d) - f1.x * f1.x * (f0.y - d) -
    coefA f0 f1 d * (f0.y - d) * (f1.y - d)

/-- The local `discriminant = B*B - 4*A*C` before the negative clamp. -/
def discriminant (f0 f1 : Point2D) (d : ℝ) : ℝ :=
  coefB f0 f1 d * coefB f0 f1 d - 4 * coefA f0 f1 d * coefC f0 f1 d

open Classical in
/-- The discriminant after the `if discriminant < 0: discriminant = 0`
clamp (the code asserts `isclose(B*B, 4*A*C)` there). -/
noncomputable def discClamped (f0 f1 : Point2D) (d : ℝ) : ℝ :=
  if discriminant f0 f1 d < 0 then 0 else discriminant f0 f1 d

/-- The local `d_minus = (-B - sqrt(discriminant)) / 2 / A`. -/
noncomputable def dMinus (f0 f1 : Point2D) (d : ℝ) : ℝ :=
  (-coefB f0 f1 d - Real.sqrt (discClamped f0 f1 d)) / 2 / coefA f0 f1 d

/-- The local `d_plus = (-B + sqrt(discriminant)) / 2 / A`. -/
noncomputable def dPlus (f0 f1 : Point2D) (d : ℝ) : ℝ :=
  (-coefB f0 f1 d + Real.sqrt (discClamped f0 f1 d)) / 2 / coefA f0 f1 d

open Classical in
/-- The selected root: `max(d_minus, d_plus)` when `f0.y > f1.y`, else
`min(d_minus, d_plus)`. -/
noncomputable def xSel (f0 f1 : Point2D) (d : ℝ) : ℝ :=
  if f0.y > f1.y then max (dMinus f0 f1 d) (dPlus f0 f1 d)
  else min (dMinus f0 f1 d) (dPlus f0 f1 d)

open Classical in
/-- Embedding of `get_parabola_intersection(f0, f1, directrix)`: `(inf,
inf)` when both foci are `isclose` to the directrix; the unique linear
solution `-C/B` when `A` is `isclose` to zero; else the selected root of
the quadratic, with `y` from the parabola of `f0` unless `f0` lies on
the directrix (then `f1`). -/
noncomputable def get_parabola_intersection (f0 f1 : Point2D) (d : ℝ) :
    WithTop ℝ × WithTop ℝ :=
  if iscloseR f0.y d ∧ iscloseR f1.y d then (⊤, ⊤)
  else if iscloseR (coefA f0 f1 d) 0 then
    ((((-coefC f0 f1 d / coefB f0 f1 d : ℝ)) : WithTop ℝ),
      parabola_y f0 d (-coefC f0 f1 d / coefB f0 f1 d))
  else
    (((xSel f0 f1 d : ℝ) : WithTop ℝ),
      if iscloseR f0.y d then parabola_y f1 d (xSel f0 f1 d)
      else parabola_y f0 d (xSel f0 f1 d))

/-- Embedding of `det(p, q, r)`:
`(p.x - r.x)*(q.y - r.y) - (p.y - r.y)*(q.x - r.x)`. -/
def det (p q r : Point2D) : ℝ :=
  (p.x - r.x) * (q.y - r.y) - (p.y - r.y) * (q.x - r.x)

/-- Embedding of `is_right(p, q, r)`: `d < 0 and not isclose(d, 0)`. -/
def is_right (p q r : Point2D) : Prop :=
  det p q r < 0 ∧ ¬ iscloseR (det p q r) 0

/-- Embedding of `is_left(p, q, r)`: `d > 0 and not isclose(d, 0)`. -/
def is_left (p q r : Point2D) : Prop :=
  det p q r > 0 ∧ ¬ iscloseR (det p q r) 0

end MathV

namespace Events

/-- A circle event of `events.py`: a circle center and radius, the
`_active` flag (the `_node` back-reference is carried by the beachline
state, here by arena index). -/
structure CircleEvent where
  center : Point2D
  radius : ℝ
  active : Bool

/-- The sort key of a circle event, set by `CircleEvent.__init__` through
`Event.__init__`: `Point2D(center.x, center.y + radius)`. -/
def CircleEvent.point (e : CircleEvent) : Point2D :=
  ⟨e.center.x, e.center.y + e.radius⟩

open Classical in
/-- `Event.__lt__`: compare points by `y`, tie-break on `x`. -/
noncomputable def eventPtLt (p q : Point2D) : Prop :=
  if p.y = q.y then p.x < q.x else p.y < q.y

/-- Embedding of `make_circle_event(p, q, r)`: `None` if the points are
collinear (per `circle_parameters`), else an active event for the
circumcircle. -/
noncomputable def make_circle_event (p q r : Point2D) : Option CircleEvent :=
  (MathV.circle_parameters p q r).map fun cr => ⟨cr.1, cr.2, true⟩

/-- The state touched by the tail of `_add_circle_event`: the event arena
(indices are object identity), the heap of queued event indices, and the
middle leaf's `_circle` reference. -/
structure EvState where
  events : List CircleEvent
  queue : List ℕ
  nodeCircle : Option ℕ

/-- `CircleEvent.deactivate` on the arena entry at index `i`. -/
def deactivateAt : List CircleEvent → ℕ → List CircleEvent
  | [], _ => []
  | e :: t, 0 => ⟨e.center, e.radius, false⟩ :: t
  | e :: t, n + 1 => e :: deactivateAt t n

open Classical in
/-- `Event.__lt__` on arena indices, as used by `heapq` on the event
queue. -/
noncomputable def evLtB (events : List CircleEvent) (i j : ℕ) : Bool :=
  decide (eventPtLt (((events.get? i).getD ⟨⟨0, 0⟩, 0, true⟩).point)
    (((events.get? j).getD ⟨⟨0, 0⟩, 0, true⟩).point))

open Classical in
/-- The tail of `VoronoiDiagram._add_circle_event`, entered with the
freshly built `circle`: if the middle leaf already references a circle
event, the new one replaces it only when its key `y` is strictly
smaller (`circle._point.y < node.circle._point.y`), deactivating the
old; on replacement (or when no old event exists) the new event is
heap-pushed and adopted by the leaf; otherwise the method returns with
nothing changed. -/
noncomputable def add_circle_event (st : EvState) (circle : CircleEvent) : EvState :=
  match st.nodeCircle with
  | some i =>
      if circle.point.y < (((st.events.get? i).getD ⟨⟨0, 0⟩, 0, true⟩).point).y then
        ⟨deactivateAt st.events i ++ [circle],
          PyHeap.heappush (evLtB (deactivateAt st.events i ++ [circle])) st.queue
            (deactivateAt st.events i).length,
          some (deactivateAt st.events i).length⟩
      else st
  | none =>
      ⟨st.events ++ [circle],
        PyHeap.heappush (evLtB (st.events ++ [circle])) st.queue st.events.length,
        some st.events.length⟩

end Events

namespace Run

/-- The loop state of `VoronoiDiagram.run` relevant to site handling:
the beachline-and-DCEL world (abstract), the last handled site, the
unique-site counter and the number of duplicate warnings printed. -/
structure RunState (σ : Type) where
  world : σ
  prevSite : Option Point2D
  nSites : ℕ
  warnings : ℕ

open Classical in
/-- One site-event iteration of the `run` loop (`event` popped, not a
circle event): if `prev_site` is set and `prev_site == event._point`
(`Point.__eq__`, coordinatewise), print the duplicate warning and do
nothing else; otherwise run `_handle_site_event`, record the point as
`prev_site` and increment `_n_sites`. -/
noncomputable def runSiteStep {σ : Type} (handler : Point2D → σ → σ)
    (st : RunState σ) (p : Point2D) : RunState σ :=
  match st.prevSite with
  | some q =>
      if q.x = p.x ∧ q.y = p.y then ⟨st.world, st.prevSite, st.nSites, st.warnings + 1⟩
      else ⟨handler p st.world, some p, st.nSites + 1, st.warnings⟩
  | none => ⟨handler p st.world, some p, st.nSites + 1, st.warnings⟩

end Run

namespace DCEL

/-- A `PointDCEL`: a vertex with its `edge` back-pointer (an index into
the half-edge arena). -/
structure VertexD where
  coords : Pt
  edge : Option ℕ

/-- An `EdgeDCEL`: source and destination vertex indices, the `_twin`
and `_next` references (edge-arena indices; `_prev` stays unset in
`create_edge`). -/
structure EdgeD where
  src : ℕ
  dest : ℕ
  twin : Option ℕ
  nxt : Option ℕ

/-- The `DoublyConnectedEdgeList` state: the vertex BVH (storing vertex
indices), the vertex and half-edge arenas, and the edge-length
statistics (`_shortest_edge_length` starts at `np.inf`). -/
structure DCELState where
  tree : Option (BVH ℕ)
  vertices : List VertexD
  edges : List EdgeD
  shortest : WithTop ℝ
  longest : ℝ

/-- Coordinate projection of a vertex index (for the vertex BVH). -/
def vertexPt (vs : List VertexD) (i : ℕ) : Pt :=
  ((vs.get? i).map VertexD.coords).getD []

/-- Overwrite the `edge` back-pointer of the vertex at index `i`. -/
def setVertexEdge : List VertexD → ℕ → Option ℕ → List VertexD
  | [], _, _ => []
  | v :: t, 0, e => ⟨v.coords, e⟩ :: t
  | v :: t, n + 1, e => v :: setVertexEdge t n e

/-- Embedding of `DoublyConnectedEdgeList.create_edge(src, dest)`
(vertices are arena indices, `is` is index equality): `None` and no
mutation when `src is dest`; otherwise build the twin pair `e01`/`e10`
(threading each vertex's previous `edge` pointer into `_next`), append
both to the edge list, and fold the endpoint distance into the
shortest/longest statistics. -/
noncomputable def create_edge (st : DCELState) (src dest : ℕ) :
    Option ℕ × DCELState :=
  if src = dest then (none, st)
  else
    let e01 : EdgeD := ⟨src, dest, some (st.edges.length + 1),
      (st.vertices.get? src).bind VertexD.edge⟩
    let vs1 := setVertexEdge st.vertices src (some st.edges.length)
    let e10 : EdgeD := ⟨dest, src, some st.edges.length,
      (vs1.get? dest).bind VertexD.edge⟩
    let vs2 := setVertexEdge vs1 dest (some (st.edges.length + 1))
    let dst := Point.dist (vertexPt st.vertices src) (vertexPt st.vertices dest)
    (some st.edges.length,
      ⟨st.tree, vs2, st.edges ++ [e01, e10],
        min st.shortest ((dst : ℝ) : WithTop ℝ), max st.longest dst⟩)

end DCEL

namespace AVL

/-- A beachline tree of `tree_vd.py` (`LeafVD` / `InternalVD`): a leaf
stores a site, an internal node stores its pair `_internal = [p0, p1]`
and its mutable `_height` attribute (initialised to `0` by the
constructor and maintained by `update_height`). -/
inductive VDT (α : Type) where
  | leaf (v : α)
  | node (p0 p1 : α) (h : ℕ) (l r : VDT α)

variable {α : Type}

/-- `Node.height`: the stored `_height` of an internal, `0` for a leaf. -/
def height : VDT α → ℕ
  | .leaf _ => 0
  | .node _ _ h _ _ => h

/-- The true height of the tree (the value `_height` holds once
`update_height` has run with correct child heights). -/
def realHeight : VDT α → ℕ
  | .leaf _ => 0
  | .node _ _ _ l r => 1 + max (realHeight l) (realHeight r)

/-- `Internal.imbalance = left.height - right.height` on stored heights
(`0` for a leaf). -/
def imbalance : VDT α → ℤ
  | .leaf _ => 0
  | .node _ _ _ l r => (height l : ℤ) - height r

/-- `Internal.update_height`: `_height = 1 + max(left.height,
right.height)` (a no-op on leaves). -/
def update_height : VDT α → VDT α
  | .leaf v => .leaf v
  | .node a b _ l r => .node a b (1 + max (height l) (height r)) l r

/-- `TreeAVL._rotate_ll(node)`: the left child is promoted;
`node.left = left.right`, `node.update_height()`, `left.right = node`,
`left.update_height()`.  (The source asserts `node.left` is internal;
other shapes are returned unchanged.) -/
def rotate_ll : VDT α → VDT α
  | .node a b _ (.node la lb _ ll lr) r =>
      update_height (.node la lb 0 ll (update_height (.node a b 0 lr r)))
  | t => t

/-- `TreeAVL._rotate_rr(node)`: mirror image of `_rotate_ll`. -/
def rotate_rr : VDT α → VDT α
  | .node a b _ l (.node ra rb _ rl rr) =>
      update_height (.node ra rb 0 (update_height (.node a b 0 l rl)) rr)
  | t => t

/-- One iteration of the `_rebalance` while-loop body at the current
node: on imbalance `2` pre-rotate the left child with `_rotate_rr` when
its imbalance is `-1` then `_rotate_ll`; mirror for `-2`; else only
`update_height`.  The flag records whether a rotation happened (after a
rotation the loop variable steps from the demoted node back to this
position, revisiting it). -/
def stepOnce : VDT α → VDT α × Bool
  | .leaf v => (.leaf v, false)
  | .node a b h l r =>
      if imbalance (.node a b h l r) = 2 then
        (rotate_ll (.node a b h (if imbalance l = -1 then rotate_rr l else l) r), true)
      else if imbalance (.node a b h l r) = -2 then
        (rotate_rr (.node a b h l (if imbalance r = 1 then rotate_ll r else r)), true)
      else (update_height (.node a b h l r), false)

/-- The full processing of one tree position by the `_rebalance` loop:
after a rotation the loop revisits the position (now holding the
promoted node) once more — the rotation's own `update_height` calls make
the extra `node.update_height()` a no-op, and on AVL states the revisit
never rotates again, so two iterations are exact. -/
def stepFix (t : VDT α) : VDT α :=
  let s := stepOnce t
  if s.2 then (stepOnce s.1).1 else s.1

/-- The `_rebalance` walk along the root-to-node path `π` (`false` =
left): the loop runs from the deepest position to the root, so the
recursion first processes the subtree along the tail of the path, then
applies `stepFix` at this position. -/
def rebalancePath : VDT α → List Bool → VDT α
  | t, [] => stepFix t
  | .node a b h l r, false :: π => stepFix (.node a b h (rebalancePath l π) r)
  | .node a b h l r, true :: π => stepFix (.node a b h l (rebalancePath r π))
  | .leaf v, _ :: _ => .leaf v

/-- `TreeAVL._rebalance(leaf)`: the walk starts at `leaf.parent`, i.e.
at the position `leafPath.dropLast`. -/
def rebalance (t : VDT α) (leafPath : List Bool) : VDT α :=
  rebalancePath t leafPath.dropLast

/-- The subtree at a root-to-node path, if the path is valid. -/
def getAt : VDT α → List Bool → Option (VDT α)
  | t, [] => some t
  | .node _ _ _ l _, false :: π => getAt l π
  | .node _ _ _ _ r, true :: π => getAt r π
  | .leaf _, _ :: _ => none

/-- Replace the subtree at a path (invalid paths leave the tree
unchanged). -/
def replaceAt : VDT α → List Bool → VDT α → VDT α
  | _, [], s => s
  | .node a b h l r, false :: π, s => .node a b h (replaceAt l π s) r
  | .node a b h l r, true :: π, s => .node a b h l (replaceAt r π s)
  | .leaf v, _ :: _, _ => .leaf v

/-- Overwrite the internal pair and stored height of the node at a path,
keeping its children (models building `internal_new` in place of the
deleted internal: a fresh `InternalVD` starts with `_height = 0`). -/
def setNodeAt : VDT α → List Bool → α → α → ℕ → VDT α
  | .node _ _ _ l r, [], a, b, h => .node a b h l r
  | .leaf v, [], _, _, _ => .leaf v
  | .node a0 b0 h0 l r, false :: π, a, b, h => .node a0 b0 h0 (setNodeAt l π a b h) r
  | .node a0 b0 h0 l r, true :: π, a, b, h => .node a0 b0 h0 l (setNodeAt r π a b h)
  | .leaf v, _ :: _, _, _, _ => .leaf v

/-- Depth of the leftmost leaf (the path `get_successor` descends). -/
def leftDepth : VDT α → ℕ
  | .leaf _ => 0
  | .node _ _ _ l _ => 1 + leftDepth l

/-- Depth of the rightmost leaf. -/
def rightDepth : VDT α → ℕ
  | .leaf _ => 0
  | .node _ _ _ _ r => 1 + rightDepth r

/-- The value of the leftmost leaf (`get_successor`'s result for a
left-child leaf is the leftmost leaf of the right sibling subtree). -/
def leftmostVal : VDT α → α
  | .leaf v => v
  | .node _ _ _ l _ => leftmostVal l

/-- The value of the rightmost leaf. -/
def rightmostVal : VDT α → α
  | .leaf v => v
  | .node _ _ _ _ r => rightmostVal r

/-- The ancestor search of `delete_node` (left-child case): from the
spliced-in sibling the code walks up while the current node is a left
child; stripping the trailing `false` steps of the position leaves a
position ending in `true` (empty iff the walk would run past the root,
which the source asserts against); `internal_left` is its parent. -/
def stripF (q : List Bool) : List Bool :=
  (q.reverse.dropWhile (fun b => !b)).reverse

/-- Mirror of `stripF` for the right-child case of `delete_node`. -/
def stripT (q : List Bool) : List Bool :=
  (q.reverse.dropWhile (fun b => b)).reverse

/-- `TreeVD._insert`, degenerate colinear regime (`sibling.value.y ==
point.y`): the sibling leaf `pj` at path `p` is replaced by
`InternalVD(pj, pi)` (fresh `_height = 0`) with leaves `pj`, `pi`;
`_rebalance` then runs from the returned leaf `internal.right`.  An
invalid path is returned unchanged. -/
def insert_colinear (t : VDT α) (p : List Bool) (pi : α) : VDT α :=
  match getAt t p with
  | some (.leaf pj) =>
      rebalance (replaceAt t p (.node pj pi 0 (.leaf pj) (.leaf pi))) (p ++ [true])
  | _ => t

/-- `TreeVD._insert`, normal regime: the sibling leaf `pj` at path `p`
is replaced by the five-node split `internal_right = InternalVD(pi, pj)`
over `internal_left = InternalVD(pj, pi)` (both fresh, `_height = 0`)
with leaves `pj`, `pi`, `pj`; `_rebalance` runs from the returned middle
leaf `node_center`. -/
def insert_normal (t : VDT α) (p : List Bool) (pi : α) : VDT α :=
  match getAt t p with
  | some (.leaf pj) =>
      rebalance
        (replaceAt t p
          (.node pi pj 0 (.node pj pi 0 (.leaf pj) (.leaf pi)) (.leaf pj)))
        (p ++ [false, true])
  | _ => t

/-- `TreeVD.delete_node(node)` for the leaf at path `p`.  Left-child
case: the parent `internal_right` (asserted not the root) is replaced by
its right child `R`; walking up from `R` while a left child locates
`internal_left` (asserted before the root); `internal_new` (a fresh
`InternalVD` with `internal_left._internal[0]`, the successor's value
and `_height = 0`) takes `internal_left`'s children and place;
`_rebalance` runs from the successor leaf — the leftmost leaf of `R`.
Right-child case mirrors with the predecessor.  States violating the
asserted preconditions are returned unchanged. -/
def delete_node (t : VDT α) (p : List Bool) : VDT α :=
  match p.getLast? with
  | some false =>
      let q := p.dropLast
      if q = [] then t
      else
        match getAt t (q ++ [true]) with
        | some R =>
            let s := stripF q
            if s = [] then t
            else
              match getAt t s.dropLast with
              | some (.node aL _ _ _ _) =>
                  rebalance
                    (setNodeAt (replaceAt t q R) s.dropLast aL (leftmostVal R) 0)
                    (q ++ List.replicate (leftDepth R) false)
              | _ => t
        | none => t
  | some true =>
      let q := p.dropLast
      if q = [] then t
      else
        match getAt t (q ++ [false]) with
        | some L =>
            let s := stripT q
            if s = [] then t
            else
              match getAt t s.dropLast with
              | some (.node _ bR _ _ _) =>
                  rebalance
                    (setNodeAt (replaceAt t q L) s.dropLast (rightmostVal L) bR 0)
                    (q ++ List.replicate (rightDepth L) true)
              | _ => t
        | none => t
  | none => t

/-- Specification device: the part of the `_rebalance` walk over the
proper prefixes of a path (the loop from a node's parent up to the
root); `rebalancePath t π` equals `rebalanceProper` after the subtree
at `π` has been processed, and `rebalance t lp = rebalanceProper t lp`
for a nonempty leaf path. -/
def rebalanceProper : VDT α → List Bool → VDT α
  | t, [] => t
  | .node a b h l r, false :: π => stepFix (.node a b h (rebalanceProper l π) r)
  | .node a b h l r, true :: π => stepFix (.node a b h l (rebalanceProper r π))
  | .leaf v, _ :: _ => .leaf v

/-- Stored heights agree with true heights everywhere (`_height` is
up to date). -/
def wfH : VDT α → Prop
  | .leaf _ => True
  | .node _ _ h l r => h = 1 + max (realHeight l) (realHeight r) ∧ wfH l ∧ wfH r

/-- The AVL balance invariant of the spec: every internal satisfies
`|left.height - right.height| <= 1` (on true heights). -/
def balanced : VDT α → Prop
  | .leaf _ => True
  | .node _ _ _ l r =>
      |(realHeight l : ℤ) - realHeight r| ≤ 1 ∧ balanced l ∧ balanced r

/-- Specification device for the upward `_rebalance` walk after an
insertion: `UI π H t` says the subtree `t` is the post-splice state
along the walk path `π`, every off-path part is intact and
AVL-invariant, and the deepest processed position already holds a
repaired subtree of height `H` or `H + 1` (`H` the pre-insertion
reference height); the walk then repairs each position bottom-up. -/
inductive UI : List Bool → ℕ → VDT α → Prop
  | nil {H : ℕ} {t : VDT α} :
      wfH t → balanced t → (realHeight t = H ∨ realHeight t = H + 1) → UI [] H t
  | consF {π : List Bool} {Hl : ℕ} {a b : α} {h : ℕ} {tl r : VDT α} :
      UI π Hl tl → wfH r → balanced r →
      ((Hl : ℤ) - realHeight r ≤ 1) → ((realHeight r : ℤ) - Hl ≤ 1) →
      UI (false :: π) (1 + max Hl (realHeight r)) (.node a b h tl r)
  | consT {π : List Bool} {Hr : ℕ} {a b : α} {h : ℕ} {l tr : VDT α} :
      UI π Hr tr → wfH l → balanced l →
      ((Hr : ℤ) - realHeight l ≤ 1) → ((realHeight l : ℤ) - Hr ≤ 1) →
      UI (true :: π) (1 + max (realHeight l) Hr) (.node a b h l tr)

/-- Specification device for the upward `_rebalance` walk after a
deletion: as `UI`, but the deepest processed position holds a subtree of
height `H - 1` or `H`. -/
inductive DW : List Bool → ℕ → VDT α → Prop
  | nil {H : ℕ} {t : VDT α} :
      wfH t → balanced t → (realHeight t + 1 = H ∨ realHeight t = H) → DW [] H t
  | consF {π : List Bool} {Hl : ℕ} {a b : α} {h : ℕ} {tl r : VDT α} :
      DW π Hl tl → wfH r → balanced r →
      ((Hl : ℤ) - realHeight r ≤ 1) → ((realHeight r : ℤ) - Hl ≤ 1) →
      DW (false :: π) (1 + max Hl (realHeight r)) (.node a b h tl r)
  | consT {π : List Bool} {Hr : ℕ} {a b : α} {h : ℕ} {l tr : VDT α} :
      DW π Hr tr → wfH l → balanced l →
      ((Hr : ℤ) - realHeight l ≤ 1) → ((realHeight l : ℤ) - Hr ≤ 1) →
      DW (true :: π) (1 + max (realHeight l) Hr) (.node a b h l tr)

end AVL

end VD

-- ========================== THEOREMS ==========================

namespace VD

namespace Point

theorem dist2_nonneg (p q : Pt) : 0 ≤ dist2 p q := by
  unfold dist2
  induction p.zip q with
  | nil => simp
  | cons a l ih => simpa using add_nonneg (sq_nonneg _) ih

/-- Comparing `Point.distance p q ≤ r` is the same as `0 ≤ r` together
with the squared comparison `dist2 p q ≤ r ^ 2`; this justifies the
executable test used in the embedding of `TreeBVH.query`. -/
theorem dist_le_iff (p q : Pt) (r : ℚ) :
    dist p q ≤ (r : ℝ) ↔ (0 ≤ r ∧ dist2 p q ≤ r ^ 2) := by
  unfold dist
  constructor
  · intro h
    have h0 : (0 : ℝ) ≤ Real.sqrt (dist2 p q) := Real.sqrt_nonneg _
    have hr : (0 : ℝ) ≤ (r : ℝ) := le_trans h0 h
    refine ⟨by exact_mod_cast hr, ?_⟩
    have := Real.sq_sqrt (show (0 : ℝ) ≤ ((dist2 p q : ℚ) : ℝ) by exact_mod_cast dist2_nonneg p q)
    have h2 : (Real.sqrt (dist2 p q)) ^ 2 ≤ (r : ℝ) ^ 2 := by
      exact pow_le_pow_left₀ h0 h 2
    rw [this] at h2
    exact_mod_cast h2
  · rintro ⟨hr, h2⟩
    have : Real.sqrt ((dist2 p q : ℚ) : ℝ) ≤ Real.sqrt ((r : ℝ) ^ 2) := by
      apply Real.sqrt_le_sqrt
      exact_mod_cast h2
    rwa [Real.sqrt_sq (by exact_mod_cast hr)] at this

end Point

theorem zipWith_minmax_le {a b : List XQ} (h : List.Forall₂ (· ≤ ·) a b) (p : List XQ) :
    List.Forall₂ (· ≤ ·) (List.zipWith min a p) (List.zipWith max b p) := by
  induction h generalizing p with
  | nil => cases p <;> simp
  | cons hab _ ih =>
      cases p with
      | nil => simp
      | cons x xs =>
          refine List.Forall₂.cons ?_ (ih xs)
          exact le_trans (min_le_left _ _) (le_trans hab (le_max_left _ _))

theorem aabbUpd_le {b : AABBX} {p : List XQ}
    (h : List.Forall₂ (· ≤ ·) b.pmin b.pmax) :
    List.Forall₂ (· ≤ ·) (aabbUpd b p).pmin (aabbUpd b p).pmax :=
  zipWith_minmax_le h p

namespace PyHeap

variable {α : Type*}

theorem get_cons_set_perm :
    ∀ (l : List α) (i : ℕ) (hi : i < l.length) (x : α),
      List.Perm (l.get ⟨i, hi⟩ :: l.set i x) (x :: l)
  | a :: t, 0, _, x => List.Perm.swap x a t
  | a :: t, i + 1, hi, x => by
      have hi' : i < t.length := by simpa using Nat.lt_of_succ_lt_succ hi
      have ih := get_cons_set_perm t i hi' x
      have step1 : List.Perm (t.get ⟨i, hi'⟩ :: a :: t.set i x)
          (a :: t.get ⟨i, hi'⟩ :: t.set i x) := List.Perm.swap a _ _
      have step2 : List.Perm (a :: t.get ⟨i, hi'⟩ :: t.set i x) (a :: x :: t) := ih.cons a
      have step3 : List.Perm (a :: x :: t) (x :: a :: t) := List.Perm.swap x a t
      have : List.Perm (t.get ⟨i, hi'⟩ :: a :: t.set i x) (x :: a :: t) :=
        (step1.trans step2).trans step3
      simpa using this

theorem set_get_set_perm (l : List α) (p pp : ℕ) (hp : p < l.length) (hpp : pp < l.length)
    (hne : pp ≠ p) (x : α) :
    List.Perm ((l.set p (l.get ⟨pp, hpp⟩)).set pp x) (l.set p x) := by
  have hpp' : pp < (l.set p (l.get ⟨pp, hpp⟩)).length := by simpa using hpp
  have hget : (l.set p (l.get ⟨pp, hpp⟩)).get ⟨pp, hpp'⟩ = l.get ⟨pp, hpp⟩ := by
    simp only [List.get_eq_getElem, List.getElem_set]
    rw [if_neg (Ne.symm hne)]
  have h1 : List.Perm (l.get ⟨pp, hpp⟩ :: (l.set p (l.get ⟨pp, hpp⟩)).set pp x)
      (x :: l.set p (l.get ⟨pp, hpp⟩)) := by
    have := get_cons_set_perm (l.set p (l.get ⟨pp, hpp⟩)) pp hpp' x
    rwa [hget] at this
  have h2 : List.Perm (l.get ⟨p, hp⟩ :: l.set p (l.get ⟨pp, hpp⟩)) (l.get ⟨pp, hpp⟩ :: l) :=
    get_cons_set_perm l p hp _
  have h3 : List.Perm (l.get ⟨p, hp⟩ :: l.set p x) (x :: l) := get_cons_set_perm l p hp x
  have k1 : List.Perm
      (l.get ⟨pp, hpp⟩ :: l.get ⟨p, hp⟩ :: (l.set p (l.get ⟨pp, hpp⟩)).set pp x)
      (l.get ⟨p, hp⟩ :: l.get ⟨pp, hpp⟩ :: (l.set p (l.get ⟨pp, hpp⟩)).set pp x) :=
    List.Perm.swap _ _ _
  have k2 := h1.cons (l.get ⟨p, hp⟩)
  have k3 : List.Perm (l.get ⟨p, hp⟩ :: x :: l.set p (l.get ⟨pp, hpp⟩))
      (x :: l.get ⟨p, hp⟩ :: l.set p (l.get ⟨pp, hpp⟩)) := List.Perm.swap _ _ _
  have k4 := h2.cons x
  have k5 : List.Perm (x :: l.get ⟨pp, hpp⟩ :: l) (l.get ⟨pp, hpp⟩ :: x :: l) :=
    List.Perm.swap _ _ _
  have k6 := (h3.symm).cons (l.get ⟨pp, hpp⟩)
  have key := ((((k1.trans k2).trans k3).trans k4).trans k5).trans k6
  exact (key.cons_inv).cons_inv

theorem siftdown_perm (lt : α → α → Bool) :
    ∀ (fuel : ℕ) (h : List α) (s p : ℕ) (x : α), p < h.length →
      List.Perm (siftdown lt fuel h s p x) (h.set p x)
  | 0, h, s, p, x, _ => by simp [siftdown]
  | fuel + 1, h, s, p, x, hp => by
      by_cases hsp : s < p
      · simp only [siftdown, if_pos hsp]
        set pp := (p - 1) / 2 with hppdef
        have hpplt : pp < p := by
          have : p - 1 < p := by omega
          calc pp ≤ p - 1 := Nat.div_le_self _ _
            _ < p := this
        have hpplen : pp < h.length := lt_trans hpplt hp
        have hparent : h.getD pp x = h.get ⟨pp, hpplen⟩ := by
          simp [List.getD_eq_getElem?_getD, List.getElem?_eq_getElem hpplen]
        by_cases hlt : lt x (h.getD pp x)
        · simp only [if_pos hlt]
          have ih := siftdown_perm lt fuel (h.set p (h.getD pp x)) s pp x
            (by simpa using hpplen)
          refine ih.trans ?_
          rw [hparent]
          exact set_get_set_perm h p pp hp hpplen (Nat.ne_of_lt hpplt) x
        · simp only [if_neg hlt]
          exact List.Perm.refl _
      · simp only [siftdown, if_neg hsp]
        exact List.Perm.refl _

theorem siftup_perm (lt : α → α → Bool) :
    ∀ (fuel : ℕ) (h : List α) (s p : ℕ) (x : α), p < h.length →
      List.Perm (siftup lt fuel h s p x) (h.set p x)
  | 0, h, s, p, x, hp => siftdown_perm lt p h s p x hp
  | fuel + 1, h, s, p, x, hp => by
      simp only [siftup]
      by_cases hc : 2 * p + 1 < h.length
      · simp only [if_pos hc]
        set c' := if 2 * p + 1 + 1 < h.length ∧
            ¬ lt (h.getD (2 * p + 1) x) (h.getD (2 * p + 1 + 1) x) then 2 * p + 1 + 1
          else 2 * p + 1 with hcd
        have hc'lt : c' < h.length := by
          rw [hcd]
          split
          · next hcond => exact hcond.1
          · exact hc
        have hpc' : p ≠ c' := by
          have : p < c' := by
            rw [hcd]; split <;> omega
          omega
        have hchild : h.getD c' x = h.get ⟨c', hc'lt⟩ := by
          simp [List.getD_eq_getElem?_getD, List.getElem?_eq_getElem hc'lt]
        have ih := siftup_perm lt fuel (h.set p (h.getD c' x)) s c' x (by simpa using hc'lt)
        refine ih.trans ?_
        rw [hchild]
        exact set_get_set_perm h p c' hp hc'lt (Ne.symm hpc') x
      · simp only [if_neg hc]
        exact siftdown_perm lt p h s p x hp

theorem heappush_perm (lt : α → α → Bool) (heap : List α) (item : α) :
    List.Perm (heappush lt heap item) (item :: heap) := by
  unfold heappush
  have hlen : heap.length < (heap ++ [item]).length := by simp
  refine (siftdown_perm lt heap.length (heap ++ [item]) 0 heap.length item hlen).trans ?_
  have : (heap ++ [item]).set heap.length item = heap ++ [item] := by
    apply List.ext_getElem
    · simp
    · intro i h1 h2
      simp only [List.getElem_set]
      split
      · next he => simp [← he]
      · rfl
  rw [this]
  exact (List.perm_append_singleton _ _)

theorem heappop_perm (lt : α → α → Bool) (heap : List α) (e : α) (rest : List α)
    (h : heappop lt heap = some (e, rest)) : List.Perm heap (e :: rest) := by
  unfold heappop at h
  cases hlast : heap.getLast? with
  | none => rw [hlast] at h; exact absurd h (by simp)
  | some last =>
      rw [hlast] at h
      simp only at h
      have hheap : heap = heap.dropLast ++ [last] := by
        have := List.getLast?_eq_some_iff.mp hlast
        obtain ⟨ys, hys⟩ := this
        rw [hys]; simp
      by_cases hemp : heap.dropLast.isEmpty
      · rw [if_pos hemp] at h
        obtain ⟨he, hrest⟩ := Prod.mk.injEq .. ▸ Option.some.injEq .. ▸ h
        have : heap.dropLast = [] := List.isEmpty_iff.mp hemp
        rw [hheap, this, ← he, ← hrest]
        simp
      · rw [if_neg hemp] at h
        have hne : heap.dropLast ≠ [] := fun hh => hemp (by simp [hh])
        have hlen0 : 0 < heap.dropLast.length := List.length_pos.mpr hne
        obtain ⟨he, hrest⟩ := Prod.mk.injEq .. ▸ Option.some.injEq .. ▸ h
        have hperm := siftup_perm lt heap.dropLast.length (heap.dropLast.set 0 last) 0 0 last
          (by simpa using hlen0)
        rw [hrest] at hperm
        have hset : (heap.dropLast.set 0 last).set 0 last = heap.dropLast.set 0 last := by
          simp [List.set_set]
        rw [hset] at hperm
        have hget : heap.dropLast.getD 0 last = heap.dropLast.get ⟨0, hlen0⟩ := by
          simp [List.getD_eq_getElem?_getD, List.getElem?_eq_getElem hlen0]
        have hkey : List.Perm (heap.dropLast.get ⟨0, hlen0⟩ :: heap.dropLast.set 0 last)
            (last :: heap.dropLast) := get_cons_set_perm heap.dropLast 0 hlen0 last
        have pA : List.Perm heap (last :: heap.dropLast) := by
          conv_lhs => rw [hheap]
          exact List.perm_append_singleton _ _
        have pB : List.Perm (last :: heap.dropLast)
            (heap.dropLast.get ⟨0, hlen0⟩ :: heap.dropLast.set 0 last) := hkey.symm
        have pC : List.Perm (e :: rest) (e :: heap.dropLast.set 0 last) := hperm.cons e
        have he' : e = heap.dropLast.get ⟨0, hlen0⟩ := by rw [← he, hget]
        subst he'
        exact (pA.trans pB).trans pC.symm

end PyHeap

/-! ### Componentwise order lemmas -/

theorem fa2_le_refl {β : Type*} [Preorder β] (p : List β) : List.Forall₂ (· ≤ ·) p p :=
  List.forall₂_same.mpr fun _ _ => le_refl _

theorem fa2_le_trans {β : Type*} [Preorder β] : ∀ {a b c : List β},
    List.Forall₂ (· ≤ ·) a b → List.Forall₂ (· ≤ ·) b c → List.Forall₂ (· ≤ ·) a c
  | [], [], [], _, _ => List.Forall₂.nil
  | _ :: _, _ :: _, _ :: _, List.Forall₂.cons h1 t1, List.Forall₂.cons h2 t2 =>
      List.Forall₂.cons (le_trans h1 h2) (fa2_le_trans t1 t2)

theorem fa2_zipWith_min_left : ∀ (a b : Pt), a.length = b.length →
    List.Forall₂ (· ≤ ·) (List.zipWith min a b) a
  | [], [], _ => List.Forall₂.nil
  | x :: xs, y :: ys, h =>
      List.Forall₂.cons (min_le_left x y)
        (fa2_zipWith_min_left xs ys (by simpa using h))
  | [], _ :: _, h => by simp at h
  | _ :: _, [], h => by simp at h

theorem fa2_zipWith_min_right : ∀ (a b : Pt), a.length = b.length →
    List.Forall₂ (· ≤ ·) (List.zipWith min a b) b
  | [], [], _ => List.Forall₂.nil
  | x :: xs, y :: ys, h =>
      List.Forall₂.cons (min_le_right x y)
        (fa2_zipWith_min_right xs ys (by simpa using h))
  | [], _ :: _, h => by simp at h
  | _ :: _, [], h => by simp at h

theorem fa2_le_zipWith_max_left : ∀ (a b : Pt), a.length = b.length →
    List.Forall₂ (· ≤ ·) a (List.zipWith max a b)
  | [], [], _ => List.Forall₂.nil
  | x :: xs, y :: ys, h =>
      List.Forall₂.cons (le_max_left x y)
        (fa2_le_zipWith_max_left xs ys (by simpa using h))
  | [], _ :: _, h => by simp at h
  | _ :: _, [], h => by simp at h

theorem fa2_le_zipWith_max_right : ∀ (a b : Pt), a.length = b.length →
    List.Forall₂ (· ≤ ·) b (List.zipWith max a b)
  | [], [], _ => List.Forall₂.nil
  | x :: xs, y :: ys, h =>
      List.Forall₂.cons (le_max_right x y)
        (fa2_le_zipWith_max_right xs ys (by simpa using h))
  | [], _ :: _, h => by simp at h
  | _ :: _, [], h => by simp at h

theorem leB_iff_fa2 : ∀ {p q : Pt}, p.length = q.length →
    (Point.leB p q = true ↔ List.Forall₂ (· ≤ ·) p q)
  | [], [], _ => by simp [Point.leB]
  | x :: xs, y :: ys, h => by
      have ih := leB_iff_fa2 (p := xs) (q := ys) (by simpa using h)
      unfold Point.leB at ih ⊢
      rw [List.zip_cons_cons, List.all_cons, Bool.and_eq_true]
      constructor
      · rintro ⟨h1, h2⟩
        exact List.Forall₂.cons (by exact_mod_cast of_decide_eq_true h1) (ih.mp h2)
      · intro hf
        cases hf with
        | cons h1 h2 => exact ⟨decide_eq_true h1, ih.mpr h2⟩
  | [], _ :: _, h => by simp at h
  | _ :: _, [], h => by simp at h

theorem ltB_iff_fa2 : ∀ {p q : Pt}, p.length = q.length →
    (Point.ltB p q = true ↔ List.Forall₂ (· < ·) p q)
  | [], [], _ => by simp [Point.ltB]
  | x :: xs, y :: ys, h => by
      have ih := ltB_iff_fa2 (p := xs) (q := ys) (by simpa using h)
      unfold Point.ltB at ih ⊢
      rw [List.zip_cons_cons, List.all_cons, Bool.and_eq_true]
      constructor
      · rintro ⟨h1, h2⟩
        exact List.Forall₂.cons (by exact_mod_cast of_decide_eq_true h1) (ih.mp h2)
      · intro hf
        cases hf with
        | cons h1 h2 => exact ⟨decide_eq_true h1, ih.mpr h2⟩
  | [], _ :: _, h => by simp at h
  | _ :: _, [], h => by simp at h

theorem fa2_le_replicate_bot_top (n : ℕ) :
    List.Forall₂ (· ≤ ·) (List.replicate n (⊥ : XQ)) (List.replicate n (⊤ : XQ)) := by
  induction n with
  | zero => exact List.Forall₂.nil
  | succ n ih => exact List.Forall₂.cons bot_le ih

theorem zipWith_min_replicate_top : ∀ (p : List XQ),
    List.zipWith min (List.replicate p.length (⊤ : XQ)) p = p
  | [] => rfl
  | x :: xs => by
      simp only [List.length_cons, List.replicate_succ, List.zipWith_cons_cons]
      rw [min_eq_right le_top, zipWith_min_replicate_top xs]

theorem zipWith_max_replicate_bot : ∀ (p : List XQ),
    List.zipWith max (List.replicate p.length (⊥ : XQ)) p = p
  | [] => rfl
  | x :: xs => by
      simp only [List.length_cons, List.replicate_succ, List.zipWith_cons_cons]
      rw [max_eq_right bot_le, zipWith_max_replicate_bot xs]

theorem foldl_aabbUpd_le {b : AABBX} (h : List.Forall₂ (· ≤ ·) b.pmin b.pmax) :
    ∀ (pts : List (List XQ)),
      List.Forall₂ (· ≤ ·) (pts.foldl aabbUpd b).pmin (pts.foldl aabbUpd b).pmax := by
  intro pts
  induction pts generalizing b with
  | nil => exact h
  | cons p rest ih => exact ih (aabbUpd_le h)

theorem aabbInit_le {ndim : ℕ} {pts : List (List XQ)} (hpts : ∀ p ∈ pts, p.length = ndim) :
    List.Forall₂ (· ≤ ·) (aabbInit ndim pts).pmin (aabbInit ndim pts).pmax := by
  cases pts with
  | nil => exact fa2_le_replicate_bot_top ndim
  | cons p rest =>
      have hp : p.length = ndim := hpts p (List.mem_cons_self _ _)
      have hfirst : aabbUpd
          (AABBX.mk (List.replicate ndim (⊤ : XQ)) (List.replicate ndim (⊥ : XQ))) p
          = AABBX.mk p p := by
        unfold aabbUpd
        rw [← hp]
        rw [zipWith_min_replicate_top p, zipWith_max_replicate_bot p]
      show List.Forall₂ (· ≤ ·) (aabbSet ndim (p :: rest)).pmin (aabbSet ndim (p :: rest)).pmax
      unfold aabbSet
      rw [List.foldl_cons, hfirst]
      exact foldl_aabbUpd_le (fa2_le_refl p) rest

namespace BVH

variable {α : Type} {pt : α → Pt}

theorem boxWf_ofPoint {n : ℕ} {p : Pt} (h : p.length = n) : boxWf n (Box.ofPoint p) :=
  ⟨h, h, fa2_le_refl p⟩

theorem containsPt_ofPoint (p : Pt) : containsPt (Box.ofPoint p) p :=
  ⟨fa2_le_refl p, fa2_le_refl p⟩

theorem zipWith_minmax_leQ {a b : Pt} (h : List.Forall₂ (· ≤ ·) a b) (p : Pt) :
    List.Forall₂ (· ≤ ·) (List.zipWith min a p) (List.zipWith max b p) := by
  induction h generalizing p with
  | nil => cases p <;> simp
  | cons hab _ ih =>
      cases p with
      | nil => simp
      | cons x xs =>
          refine List.Forall₂.cons ?_ (ih xs)
          exact le_trans (min_le_left _ _) (le_trans hab (le_max_left _ _))

theorem boxWf_upd {n : ℕ} {b : Box} {p : Pt} (hb : boxWf n b) (hp : p.length = n) :
    boxWf n (Box.upd b p) := by
  obtain ⟨h1, h2, h3⟩ := hb
  refine ⟨?_, ?_, zipWith_minmax_leQ h3 p⟩
  · simp [Box.upd, h1, hp]
  · simp [Box.upd, h2, hp]

theorem containsPt_upd_self {n : ℕ} {b : Box} {p : Pt} (hb : boxWf n b) (hp : p.length = n) :
    containsPt (Box.upd b p) p := by
  obtain ⟨h1, h2, _⟩ := hb
  exact ⟨fa2_zipWith_min_right b.pmin p (by rw [h1, hp]),
    fa2_le_zipWith_max_right b.pmax p (by rw [h2, hp])⟩

theorem containsPt_upd_mono {n : ℕ} {b : Box} {p q : Pt} (hb : boxWf n b) (hp : p.length = n)
    (h : containsPt b q) : containsPt (Box.upd b p) q := by
  obtain ⟨h1, h2, _⟩ := hb
  exact ⟨fa2_le_trans (fa2_zipWith_min_left b.pmin p (by rw [h1, hp])) h.1,
    fa2_le_trans h.2 (fa2_le_zipWith_max_left b.pmax p (by rw [h2, hp]))⟩

theorem boxWf_union {n : ℕ} {b c : Box} (hb : boxWf n b) (hc : boxWf n c) :
    boxWf n (Box.union b c) :=
  boxWf_upd (boxWf_upd hb hc.1) hc.2.1

theorem containsPt_union_left {n : ℕ} {b c : Box} (hb : boxWf n b) (hc : boxWf n c)
    {q : Pt} (h : containsPt b q) : containsPt (Box.union b c) q :=
  containsPt_upd_mono (boxWf_upd hb hc.1) hc.2.1 (containsPt_upd_mono hb hc.1 h)

theorem containsPt_union_right {n : ℕ} {b c : Box} (hb : boxWf n b) (hc : boxWf n c)
    {q : Pt} (h : containsPt c q) : containsPt (Box.union b c) q := by
  refine ⟨?_, ?_⟩
  · have s1 : List.Forall₂ (· ≤ ·) (List.zipWith min b.pmin c.pmin) c.pmin :=
      fa2_zipWith_min_right b.pmin c.pmin (by rw [hb.1, hc.1])
    have s2 : List.Forall₂ (· ≤ ·)
        (List.zipWith min (List.zipWith min b.pmin c.pmin) c.pmax)
        (List.zipWith min b.pmin c.pmin) := by
      apply fa2_zipWith_min_left
      have : (List.zipWith min b.pmin c.pmin).length = n := by
        simp [List.length_zipWith, hb.1, hc.1]
      rw [this, hc.2.1]
    exact fa2_le_trans s2 (fa2_le_trans s1 h.1)
  · have s1 : List.Forall₂ (· ≤ ·) c.pmax
        (List.zipWith max (List.zipWith max b.pmax c.pmin) c.pmax) := by
      apply fa2_le_zipWith_max_right
      simp [List.length_zipWith, hb.2.1, hc.1, hc.2.1]
    exact fa2_le_trans h.2 s1

theorem boxWf_setBox {n : ℕ} {b c : Box} (hb : boxWf n b) (hc : boxWf n c) :
    boxWf n (Box.setBox b c) :=
  boxWf_upd (boxWf_upd (boxWf_upd (boxWf_ofPoint hb.1) hb.2.1) hc.1) hc.2.1

theorem containsPt_setBox_left {n : ℕ} {b c : Box} (hb : boxWf n b) (hc : boxWf n c)
    {q : Pt} (h : containsPt b q) : containsPt (Box.setBox b c) q := by
  have h1 : containsPt ((Box.ofPoint b.pmin).upd b.pmax) q := by
    refine ⟨?_, ?_⟩
    · exact fa2_le_trans (fa2_zipWith_min_left b.pmin b.pmax (hb.1.trans hb.2.1.symm)) h.1
    · exact fa2_le_trans h.2 (fa2_le_zipWith_max_right b.pmin b.pmax (hb.1.trans hb.2.1.symm))
  have hw1 : boxWf n ((Box.ofPoint b.pmin).upd b.pmax) := boxWf_upd (boxWf_ofPoint hb.1) hb.2.1
  exact containsPt_upd_mono (boxWf_upd hw1 hc.1) hc.2.1 (containsPt_upd_mono hw1 hc.1 h1)

theorem containsPt_setBox_right {n : ℕ} {b c : Box} (hb : boxWf n b) (hc : boxWf n c)
    {q : Pt} (h : containsPt c q) : containsPt (Box.setBox b c) q := by
  have hw1 : boxWf n ((Box.ofPoint b.pmin).upd b.pmax) := boxWf_upd (boxWf_ofPoint hb.1) hb.2.1
  have hw2 : boxWf n (((Box.ofPoint b.pmin).upd b.pmax).upd c.pmin) := boxWf_upd hw1 hc.1
  refine ⟨?_, ?_⟩
  · have s1 : List.Forall₂ (· ≤ ·) (Box.setBox b c).pmin
        ((((Box.ofPoint b.pmin).upd b.pmax).upd c.pmin).pmin) :=
      fa2_zipWith_min_left _ c.pmax (by rw [hw2.1, hc.2.1])
    exact fa2_le_trans s1
      (fa2_le_trans (fa2_zipWith_min_right _ c.pmin (by rw [hw1.1, hc.1])) h.1)
  · exact fa2_le_trans h.2 (fa2_le_zipWith_max_right _ c.pmax (by rw [hw2.2.1, hc.2.1]))

theorem boxWf_boxOf {n : ℕ} {t : BVH α} (h : wfB pt n t) : boxWf n (boxOf pt t) := by
  cases t with
  | leaf v => exact boxWf_ofPoint h
  | node b c hh l r => exact h.1

theorem containsPt_boxOf_leaves {n : ℕ} {t : BVH α} (h : wfB pt n t) :
    ∀ q ∈ leaves t, containsPt (boxOf pt t) (pt q) := by
  cases t with
  | leaf v =>
      intro q hq
      have : q = v := by simpa [leaves] using hq
      subst this
      exact containsPt_ofPoint (pt q)
  | node b c hh l r => exact h.2.1

theorem leaves_length {n : ℕ} : ∀ {t : BVH α}, wfB pt n t → ∀ q ∈ leaves t, (pt q).length = n
  | BVH.leaf v, h, q, hq => by
      have : q = v := by simpa [leaves] using hq
      subst this; exact h
  | BVH.node b c hh l r, h, q, hq => by
      rcases List.mem_append.mp (by simpa [leaves] using hq) with h1 | h1
      · exact leaves_length h.2.2.1 q h1
      · exact leaves_length h.2.2.2 q h1

theorem wfB_mkInternal {n : ℕ} {l r : BVH α} (hl : wfB pt n l) (hr : wfB pt n r) :
    wfB pt n (mkInternal pt l r) := by
  refine ⟨boxWf_setBox (boxWf_boxOf hl) (boxWf_boxOf hr), ?_, hl, hr⟩
  intro q hq
  rcases List.mem_append.mp hq with h1 | h1
  · exact containsPt_setBox_left (boxWf_boxOf hl) (boxWf_boxOf hr)
      (containsPt_boxOf_leaves hl q h1)
  · exact containsPt_setBox_right (boxWf_boxOf hl) (boxWf_boxOf hr)
      (containsPt_boxOf_leaves hr q h1)

theorem wfB_insertLeafAt {n : ℕ} {x : α} (hx : (pt x).length = n) :
    ∀ (t : BVH α) (π : List Bool), wfB pt n t → wfB pt n (insertLeafAt pt x t π)
  | t, [], h => by
      have he : insertLeafAt pt x t [] = mkInternal pt t (BVH.leaf x) := by cases t <;> rfl
      rw [he]
      exact wfB_mkInternal h (show wfB pt n (BVH.leaf x) from hx)
  | BVH.node b c hh l r, false :: π, h => by
      have hl' := wfB_insertLeafAt hx l π h.2.2.1
      refine ⟨boxWf_union h.1 (boxWf_boxOf hl'), ?_, hl', h.2.2.2⟩
      intro q hq
      rcases List.mem_append.mp hq with h1 | h1
      · exact containsPt_union_right h.1 (boxWf_boxOf hl')
          (containsPt_boxOf_leaves hl' q h1)
      · exact containsPt_union_left h.1 (boxWf_boxOf hl')
          (h.2.1 q (List.mem_append.mpr (Or.inr h1)))
  | BVH.node b c hh l r, true :: π, h => by
      have hr' := wfB_insertLeafAt hx r π h.2.2.2
      refine ⟨boxWf_union h.1 (boxWf_boxOf hr'), ?_, h.2.2.1, hr'⟩
      intro q hq
      rcases List.mem_append.mp hq with h1 | h1
      · exact containsPt_union_left h.1 (boxWf_boxOf hr')
          (h.2.1 q (List.mem_append.mpr (Or.inl h1)))
      · exact containsPt_union_right h.1 (boxWf_boxOf hr')
          (containsPt_boxOf_leaves hr' q h1)
  | BVH.leaf v, _ :: _, h => h

theorem leaves_mkInternal (l r : BVH α) :
    leaves (mkInternal pt l r) = leaves l ++ leaves r := rfl

theorem applyLL_spec {n : ℕ} {b : Box} {c : ℕ} {l r : BVH α} (hbox : boxWf n b)
    (hcont : ∀ q ∈ leaves l ++ leaves r, containsPt b (pt q))
    (hl : wfB pt n l) (hr : wfB pt n r) :
    wfB pt n (applyLL pt b c l r) ∧
      ∀ q ∈ leaves (applyLL pt b c l r), q ∈ leaves l ++ leaves r := by
  cases l with
  | leaf v =>
      refine ⟨hl, ?_⟩
      intro q hq
      simp only [applyLL, leaves] at hq
      simp only [leaves, List.mem_append, List.mem_singleton] at hq ⊢
      exact Or.inl hq
  | node bl cl hbl ll lr =>
      obtain ⟨hbl', hcl', hll, hlr⟩ := hl
      refine ⟨⟨hbox, ?_, wfB_mkInternal hr hlr, hll⟩, ?_⟩
      · intro q hq
        apply hcont
        simp only [applyLL, leaves_mkInternal, leaves, List.mem_append] at hq ⊢
        tauto
      · intro q hq
        simp only [applyLL, leaves_mkInternal, leaves, List.mem_append] at hq ⊢
        tauto

theorem applyLR_spec {n : ℕ} {b : Box} {c : ℕ} {l r : BVH α} (hbox : boxWf n b)
    (hcont : ∀ q ∈ leaves l ++ leaves r, containsPt b (pt q))
    (hl : wfB pt n l) (hr : wfB pt n r) :
    wfB pt n (applyLR pt b c l r) ∧
      ∀ q ∈ leaves (applyLR pt b c l r), q ∈ leaves l ++ leaves r := by
  cases l with
  | leaf v =>
      refine ⟨hl, ?_⟩
      intro q hq
      simp only [applyLR, leaves] at hq
      simp only [leaves, List.mem_append, List.mem_singleton] at hq ⊢
      exact Or.inl hq
  | node bl cl hbl ll lr =>
      obtain ⟨hbl', hcl', hll, hlr⟩ := hl
      refine ⟨⟨hbox, ?_, wfB_mkInternal hll hr, hlr⟩, ?_⟩
      · intro q hq
        apply hcont
        simp only [applyLR, leaves_mkInternal, leaves, List.mem_append] at hq ⊢
        tauto
      · intro q hq
        simp only [applyLR, leaves_mkInternal, leaves, List.mem_append] at hq ⊢
        tauto

theorem applyRL_spec {n : ℕ} {b : Box} {c : ℕ} {l r : BVH α} (hbox : boxWf n b)
    (hcont : ∀ q ∈ leaves l ++ leaves r, containsPt b (pt q))
    (hl : wfB pt n l) (hr : wfB pt n r) :
    wfB pt n (applyRL pt b c l r) ∧
      ∀ q ∈ leaves (applyRL pt b c l r), q ∈ leaves l ++ leaves r := by
  cases r with
  | leaf v =>
      refine ⟨hr, ?_⟩
      intro q hq
      simp only [applyRL, leaves] at hq
      simp only [leaves, List.mem_append, List.mem_singleton] at hq ⊢
      exact Or.inr hq
  | node br cr hbr rl rr =>
      obtain ⟨hbr', hcr', hrl, hrr⟩ := hr
      refine ⟨⟨hbox, ?_, hrl, wfB_mkInternal hl hrr⟩, ?_⟩
      · intro q hq
        apply hcont
        simp only [applyRL, leaves_mkInternal, leaves, List.mem_append] at hq ⊢
        tauto
      · intro q hq
        simp only [applyRL, leaves_mkInternal, leaves, List.mem_append] at hq ⊢
        tauto

theorem applyRR_spec {n : ℕ} {b : Box} {c : ℕ} {l r : BVH α} (hbox : boxWf n b)
    (hcont : ∀ q ∈ leaves l ++ leaves r, containsPt b (pt q))
    (hl : wfB pt n l) (hr : wfB pt n r) :
    wfB pt n (applyRR pt b c l r) ∧
      ∀ q ∈ leaves (applyRR pt b c l r), q ∈ leaves l ++ leaves r := by
  cases r with
  | leaf v =>
      refine ⟨hr, ?_⟩
      intro q hq
      simp only [applyRR, leaves] at hq
      simp only [leaves, List.mem_append, List.mem_singleton] at hq ⊢
      exact Or.inr hq
  | node br cr hbr rl rr =>
      obtain ⟨hbr', hcr', hrl, hrr⟩ := hr
      refine ⟨⟨hbox, ?_, hrr, wfB_mkInternal hrl hl⟩, ?_⟩
      · intro q hq
        apply hcont
        simp only [applyRR, leaves_mkInternal, leaves, List.mem_append] at hq ⊢
        tauto
      · intro q hq
        simp only [applyRR, leaves_mkInternal, leaves, List.mem_append] at hq ⊢
        tauto

theorem posStepB_spec {n : ℕ} {t : BVH α} (h : wfB pt n t) :
    wfB pt n (posStepB pt t) ∧ ∀ q ∈ leaves (posStepB pt t), q ∈ leaves t := by
  cases t with
  | leaf v => exact ⟨h, fun _ hq => hq⟩
  | node b c hh l r =>
      obtain ⟨hbox, hcont, hl, hr⟩ := h
      show wfB pt n (posStepB pt (BVH.node b c hh l r)) ∧ _
      simp only [posStepB]
      split_ifs
      · exact ⟨⟨hbox, hcont, hl, hr⟩, fun _ hq => hq⟩
      · exact applyLL_spec hbox hcont hl hr
      · exact applyLR_spec hbox hcont hl hr
      · exact applyRL_spec hbox hcont hl hr
      · exact applyRR_spec hbox hcont hl hr

theorem rebalanceWalkB_spec {n : ℕ} :
    ∀ (t : BVH α) (π : List Bool), wfB pt n t →
      wfB pt n (rebalanceWalkB pt t π) ∧
        ∀ q ∈ leaves (rebalanceWalkB pt t π), q ∈ leaves t
  | t, [], h => by
      have he : rebalanceWalkB pt t [] = posStepB pt t := by cases t <;> rfl
      rw [he]
      exact posStepB_spec h
  | BVH.node b c hh l r, false :: π, h => by
      obtain ⟨hbox, hcont, hl, hr⟩ := h
      obtain ⟨hwl, hsub⟩ := rebalanceWalkB_spec l π hl
      have hmid : wfB pt n (BVH.node b c hh (rebalanceWalkB pt l π) r) := by
        refine ⟨hbox, ?_, hwl, hr⟩
        intro q hq
        apply hcont
        simp only [leaves, List.mem_append] at hq ⊢
        rcases hq with h1 | h1
        · exact Or.inl (hsub q h1)
        · exact Or.inr h1
      obtain ⟨hw2, hsub2⟩ := posStepB_spec hmid
      refine ⟨by simpa [rebalanceWalkB] using hw2, ?_⟩
      intro q hq
      have := hsub2 q (by simpa [rebalanceWalkB] using hq)
      simp only [leaves, List.mem_append] at this ⊢
      rcases this with h1 | h1
      · exact Or.inl (hsub q h1)
      · exact Or.inr h1
  | BVH.node b c hh l r, true :: π, h => by
      obtain ⟨hbox, hcont, hl, hr⟩ := h
      obtain ⟨hwr, hsub⟩ := rebalanceWalkB_spec r π hr
      have hmid : wfB pt n (BVH.node b c hh l (rebalanceWalkB pt r π)) := by
        refine ⟨hbox, ?_, hl, hwr⟩
        intro q hq
        apply hcont
        simp only [leaves, List.mem_append] at hq ⊢
        rcases hq with h1 | h1
        · exact Or.inl h1
        · exact Or.inr (hsub q h1)
      obtain ⟨hw2, hsub2⟩ := posStepB_spec hmid
      refine ⟨by simpa [rebalanceWalkB] using hw2, ?_⟩
      intro q hq
      have := hsub2 q (by simpa [rebalanceWalkB] using hq)
      simp only [leaves, List.mem_append] at this ⊢
      rcases this with h1 | h1
      · exact Or.inl h1
      · exact Or.inr (hsub q h1)
  | BVH.leaf v, _ :: _, h => ⟨h, fun _ hq => hq⟩

theorem wfO_insertT {n : ℕ} {x : α} (hx : (pt x).length = n) (t? : Option (BVH α))
    (h : wfO pt n t?) : wfO pt n (insertT pt x t?) := by
  cases t? with
  | none => exact hx
  | some t =>
      simp only [insertT]
      cases (insertSearch pt t (pt x)).2.1 with
      | none => exact h
      | some e => exact wfB_insertLeafAt hx t e.path h

theorem wfO_insertBalancedT {n : ℕ} {x : α} (hx : (pt x).length = n) (t? : Option (BVH α))
    (h : wfO pt n t?) : wfO pt n (insertBalancedT pt x t?) := by
  cases t? with
  | none => exact hx
  | some t =>
      simp only [insertBalancedT]
      cases (insertSearch pt t (pt x)).2.1 with
      | none => exact h
      | some e =>
          exact (rebalanceWalkB_spec _ e.path (wfB_insertLeafAt hx t e.path h)).1

theorem wfO_buildT {n : ℕ} (balanced : Bool) (xs : List α)
    (hxs : ∀ x ∈ xs, (pt x).length = n) : wfO pt n (buildT pt balanced xs) := by
  suffices h : ∀ acc : Option (BVH α), wfO pt n acc →
      wfO pt n (xs.foldl
        (fun acc x => if balanced then insertBalancedT pt x acc else insertT pt x acc) acc) by
    exact h none trivial
  induction xs with
  | nil => intro acc hacc; exact hacc
  | cons x xs ih =>
      intro acc hacc
      simp only [List.foldl_cons]
      refine ih (fun y hy => hxs y (List.mem_cons.mpr (Or.inr hy))) _ ?_
      by_cases hb : balanced
      · simpa [hb] using wfO_insertBalancedT (hxs x (List.mem_cons_self x xs)) acc hacc
      · simpa [hb] using wfO_insertT (hxs x (List.mem_cons_self x xs)) acc hacc

theorem size_pos (t : BVH α) : 1 ≤ size t := by
  cases t <;> simp [size] <;> omega

end BVH

theorem Point.dist2_cons (a b : ℚ) (p q : Pt) :
    Point.dist2 (a :: p) (b :: q) = (a - b) ^ 2 + Point.dist2 p q := by
  simp [Point.dist2]

theorem Point.dist2_bounds : ∀ {p q : Pt} {r : ℚ}, p.length = q.length → 0 ≤ r →
    Point.dist2 p q ≤ r ^ 2 → List.Forall₂ (fun a b => a - r ≤ b ∧ b ≤ a + r) p q
  | [], [], r, _, _, _ => List.Forall₂.nil
  | a :: p', b :: q', r, h, hr, hd => by
      rw [Point.dist2_cons] at hd
      have h2 : Point.dist2 p' q' ≤ r ^ 2 := by nlinarith [sq_nonneg (a - b)]
      have h1 : (a - b) ^ 2 ≤ r ^ 2 := by nlinarith [Point.dist2_nonneg p' q']
      refine List.Forall₂.cons ⟨by nlinarith, by nlinarith⟩
        (Point.dist2_bounds (by simpa using h) hr h2)
  | [], _ :: _, _, h, _, _ => by simp at h
  | _ :: _, [], _, h, _, _ => by simp at h

namespace BVH

variable {α : Type} {pt : α → Pt}

theorem boxWf_queryBox {n : ℕ} {point : Pt} (hp : point.length = n) {r : ℚ} (hr : 0 ≤ r) :
    boxWf n (queryBox point r) := by
  unfold queryBox
  split_ifs with h0
  · exact boxWf_ofPoint hp
  · refine ⟨by simpa using hp, by simpa using hp, ?_⟩
    rw [List.forall₂_map_left_iff, List.forall₂_map_right_iff]
    exact List.forall₂_same.mpr fun a _ => by linarith

theorem fa2_swap {R : ℚ → ℚ → Prop} : ∀ {p q : Pt},
    List.Forall₂ R p q → List.Forall₂ (fun x y => R y x) q p
  | [], [], _ => List.Forall₂.nil
  | _ :: _, _ :: _, List.Forall₂.cons h t => List.Forall₂.cons h (fa2_swap t)

theorem queryBox_contains {n : ℕ} {point q : Pt} (hp : point.length = n) (hq : q.length = n)
    {r : ℚ} (hr : 0 ≤ r) (hd : Point.dist2 point q ≤ r ^ 2) :
    containsPt (queryBox point r) q := by
  have hb := Point.dist2_bounds (hp.trans hq.symm) hr hd
  unfold queryBox
  split_ifs with h0
  · subst h0
    refine ⟨?_, ?_⟩
    · exact hb.imp (fun a b h => by linarith [h.1])
    · exact (fa2_swap hb).imp (fun a b h => by linarith [h.2])
  · refine ⟨?_, ?_⟩
    · rw [List.forall₂_map_left_iff]
      exact hb.imp fun a b h => h.1
    · rw [List.forall₂_map_right_iff]
      exact (fa2_swap hb).imp fun a b h => h.2

theorem intersectB_of_common {n : ℕ} {a b : Box} {q : Pt} (ha : boxWf n a) (hb : boxWf n b)
    (h1 : containsPt a q) (h2 : containsPt b q) : Box.intersectB a b = true := by
  unfold Box.intersectB
  rw [Bool.and_eq_true]
  constructor
  · exact (leB_iff_fa2 (ha.1.trans hb.2.1.symm)).mpr (fa2_le_trans h1.1 h2.2)
  · exact (leB_iff_fa2 (hb.1.trans ha.2.1.symm)).mpr (fa2_le_trans h2.1 h1.2)

theorem queryLoop_some {point : Pt} {box : Box} {r : ℚ} :
    ∀ (fuel : ℕ) {stack : List (BVH α)} {v : α},
      queryLoop pt point box r fuel stack = some v →
        (∃ t ∈ stack, v ∈ leaves t) ∧ 0 ≤ r ∧ Point.dist2 point (pt v) ≤ r ^ 2
  | 0, _, _, h => by simp [queryLoop] at h
  | fuel + 1, [], _, h => by simp [queryLoop] at h
  | fuel + 1, t :: rest, v, h => by
      cases t with
      | leaf w =>
          by_cases hcond : 0 ≤ r ∧ Point.dist2 point (pt w) ≤ r ^ 2
          · rw [queryLoop, if_pos hcond] at h
            obtain rfl : w = v := by simpa using h
            exact ⟨⟨BVH.leaf w, by simp, by simp [leaves]⟩, hcond⟩
          · rw [queryLoop, if_neg hcond] at h
            obtain ⟨⟨t', ht', hv⟩, hc⟩ := queryLoop_some fuel h
            exact ⟨⟨t', by simp [ht'], hv⟩, hc⟩
      | node nb cc hh l rr =>
          by_cases hcond : Box.intersectB box nb = true
          · rw [queryLoop, if_pos hcond] at h
            obtain ⟨⟨t', ht', hv⟩, hc⟩ := queryLoop_some fuel h
            rcases List.mem_cons.mp ht' with heq | ht''
            · exact ⟨⟨BVH.node nb cc hh l rr, by simp,
                by simp only [leaves, List.mem_append]; exact Or.inr (heq ▸ hv)⟩, hc⟩
            rcases List.mem_cons.mp ht'' with heq | ht3
            · exact ⟨⟨BVH.node nb cc hh l rr, by simp,
                by simp only [leaves, List.mem_append]; exact Or.inl (heq ▸ hv)⟩, hc⟩
            · exact ⟨⟨t', by simp [ht3], hv⟩, hc⟩
          · rw [queryLoop, if_neg hcond] at h
            obtain ⟨⟨t', ht', hv⟩, hc⟩ := queryLoop_some fuel h
            exact ⟨⟨t', by simp [ht'], hv⟩, hc⟩

theorem queryLoop_none {n : ℕ} {point : Pt} {box : Box} {r : ℚ}
    (hboxwf : boxWf n box)
    (hbox : ∀ q : Pt, q.length = n → 0 ≤ r → Point.dist2 point q ≤ r ^ 2 → containsPt box q) :
    ∀ (fuel : ℕ) (stack : List (BVH α)),
      (stack.map size).sum ≤ fuel → (∀ t ∈ stack, wfB pt n t) →
      queryLoop pt point box r fuel stack = none →
      ∀ t ∈ stack, ∀ q ∈ leaves t, ¬(0 ≤ r ∧ Point.dist2 point (pt q) ≤ r ^ 2)
  | fuel, [], _, _, _ => by simp
  | 0, t :: rest, hfuel, _, _ => by
      exfalso
      have := size_pos t
      simp only [List.map_cons, List.sum_cons] at hfuel
      omega
  | fuel + 1, t :: rest, hfuel, hwf, hnone => by
      simp only [List.map_cons, List.sum_cons] at hfuel
      cases t with
      | leaf w =>
          by_cases hcond : 0 ≤ r ∧ Point.dist2 point (pt w) ≤ r ^ 2
          · rw [queryLoop, if_pos hcond] at hnone
            simp at hnone
          · rw [queryLoop, if_neg hcond] at hnone
            have hrest := queryLoop_none hboxwf hbox fuel rest
              (by have := size_pos (BVH.leaf w : BVH α); omega)
              (fun t' ht' => hwf t' (by simp [ht'])) hnone
            intro t' ht' q hq
            rcases List.mem_cons.mp ht' with rfl | ht''
            · have : q = w := by simpa [leaves] using hq
              subst this
              exact hcond
            · exact hrest t' ht'' q hq
      | node nb cc hh l rr =>
          have hwfn := hwf _ (List.mem_cons_self _ _)
          by_cases hcond : Box.intersectB box nb = true
          · rw [queryLoop, if_pos hcond] at hnone
            have hsz : ((rr :: l :: rest).map size).sum ≤ fuel := by
              simp only [List.map_cons, List.sum_cons, size] at hfuel ⊢
              omega
            have hrest := queryLoop_none hboxwf hbox fuel (rr :: l :: rest) hsz
              (by
                intro t' ht'
                rcases List.mem_cons.mp ht' with rfl | ht''
                · exact hwfn.2.2.2
                rcases List.mem_cons.mp ht'' with rfl | ht3
                · exact hwfn.2.2.1
                · exact hwf t' (by simp [ht3])) hnone
            intro t' ht' q hq
            rcases List.mem_cons.mp ht' with rfl | ht''
            · rcases List.mem_append.mp (by simpa [leaves] using hq) with h1 | h1
              · exact hrest l (by simp) q h1
              · exact hrest rr (by simp) q h1
            · exact hrest t' (by simp [ht'']) q hq
          · rw [queryLoop, if_neg hcond] at hnone
            have hrest := queryLoop_none hboxwf hbox fuel rest
              (by have := size_pos (BVH.node nb cc hh l rr : BVH α); omega)
              (fun t' ht' => hwf t' (by simp [ht'])) hnone
            intro t' ht' q hq
            rcases List.mem_cons.mp ht' with rfl | ht''
            · rintro ⟨hr, hd⟩
              have hqlen : (pt q).length = n := leaves_length hwfn q hq
              have hc1 : containsPt nb (pt q) := hwfn.2.1 q (by simpa [leaves] using hq)
              have hc2 : containsPt box (pt q) := hbox (pt q) hqlen hr hd
              exact absurd (intersectB_of_common hboxwf hwfn.1 hc2 hc1) hcond
            · exact hrest t' ht'' q hq

/-- Soundness and completeness of the radius query on any tree built by
`insert` calls (either variant), relative to the well-formedness
invariant established by `wfO_buildT`. -/
theorem query_spec {n : ℕ} {t? : Option (BVH α)} (hwf : wfO pt n t?) {p : Pt}
    (hp : p.length = n) {r : ℚ} (hr : 0 ≤ r) :
    (∀ v, query pt t? p r = some v →
      v ∈ storedO t? ∧ Point.dist2 p (pt v) ≤ r ^ 2) ∧
    (query pt t? p r = none →
      ∀ v ∈ storedO t?, ¬ Point.dist2 p (pt v) ≤ r ^ 2) := by
  cases t? with
  | none =>
      constructor
      · intro v hv; simp [query] at hv
      · intro _ v hv; simp [storedO] at hv
  | some t =>
      constructor
      · intro v hv
        simp only [query] at hv
        obtain ⟨⟨t', ht', hmem⟩, _, hd⟩ := @queryLoop_some α pt _ _ _ (size t) _ _ hv
        have : t' = t := by simpa using ht'
        subst this
        exact ⟨hmem, hd⟩
      · intro hnone v hv
        simp only [query] at hnone
        intro hd
        exact queryLoop_none (boxWf_queryBox hp hr)
          (fun q hq hr' hd' => queryBox_contains hp hq hr' hd')
          (size t) [t] (by simp) (by simpa using hwf) hnone t (by simp) v hv ⟨hr, hd⟩

theorem skin_pos : (0 : ℚ) < skin := by norm_num [skin]

theorem saPair_nonneg : ∀ {ds : List ℚ}, (∀ d ∈ ds, 0 ≤ d) →
    0 ≤ (Box.saPair ds).1 ∧ 0 ≤ (Box.saPair ds).2
  | [], _ => by simp [Box.saPair]
  | d :: t, h => by
      have ih := @saPair_nonneg t fun x hx => h x (List.mem_cons.mpr (Or.inr hx))
      have hd : 0 ≤ d := h d (List.mem_cons_self _ _)
      have hs := skin_pos
      simp only [Box.saPair]
      constructor
      · nlinarith [ih.1, ih.2]
      · nlinarith [ih.2]

theorem saPair_mono : ∀ {ds ds' : List ℚ}, List.Forall₂ (· ≤ ·) ds ds' →
    (∀ d ∈ ds, 0 ≤ d) →
    (Box.saPair ds).1 ≤ (Box.saPair ds').1 ∧ (Box.saPair ds).2 ≤ (Box.saPair ds').2
  | [], [], _, _ => by simp [Box.saPair]
  | d :: t, d' :: t', List.Forall₂.cons hd ht, h => by
      have ih := saPair_mono ht fun x hx => h x (List.mem_cons.mpr (Or.inr hx))
      have hd0 : 0 ≤ d := h d (List.mem_cons_self _ _)
      have ht0 := @saPair_nonneg t fun x hx => h x (List.mem_cons.mpr (Or.inr hx))
      have hs := skin_pos
      simp only [Box.saPair]
      constructor
      · nlinarith [ih.1, ih.2, ht0.1, ht0.2]
      · nlinarith [ih.2, ht0.2]

theorem diffs_nonneg : ∀ {a b : List ℚ}, List.Forall₂ (· ≤ ·) a b →
    ∀ d ∈ List.zipWith (fun mn mx => mx - mn) a b, 0 ≤ d
  | [], [], _, d, hd => by simp at hd
  | _ :: _, _ :: _, List.Forall₂.cons h ht, d, hd => by
      rcases List.mem_cons.mp (by simpa using hd) with h1 | h1
      · subst h1; linarith
      · exact diffs_nonneg ht d h1

theorem diffs_mono : ∀ (a b p : List ℚ), a.length = p.length → b.length = p.length →
    List.Forall₂ (· ≤ ·) (List.zipWith (fun mn mx => mx - mn) a b)
      (List.zipWith (fun mn mx => mx - mn) (List.zipWith min a p) (List.zipWith max b p))
  | [], [], [], _, _ => by simp
  | [], [], _ :: _, ha, _ => by simp at ha
  | [], _ :: _, _, ha, hb => by simp at ha hb; omega
  | _ :: _, [], _, ha, hb => by simp at ha hb; omega
  | _ :: _, _ :: _, [], ha, _ => by simp at ha
  | mn :: a, mx :: b, x :: p, ha, hb => by
      refine List.Forall₂.cons ?_ (diffs_mono a b p (by simpa using ha) (by simpa using hb))
      show mx - mn ≤ max mx x - min mn x
      have h1 : min mn x ≤ mn := min_le_left _ _
      have h2 : mx ≤ max mx x := le_max_left _ _
      linarith

theorem sa_nonneg {n : ℕ} {b : Box} (hb : boxWf n b) : 0 ≤ Box.sa b := by
  unfold Box.sa
  have := (saPair_nonneg (diffs_nonneg hb.2.2)).1
  linarith

theorem sa_le_proposedSA {n : ℕ} {b : Box} {p : Pt} (hb : boxWf n b) (hp : p.length = n) :
    Box.sa b ≤ Box.proposedSA b p := by
  unfold Box.proposedSA Box.sa Box.upd
  have hm := saPair_mono
    (diffs_mono b.pmin b.pmax p (hb.1.trans hp.symm) (hb.2.1.trans hp.symm))
    (diffs_nonneg hb.2.2)
  simpa using hm.1

theorem nodesInh_self (point : Pt) (inh : ℚ) (path : List Bool) (t : BVH α) :
    (⟨inh, path, t⟩ : SEntry α) ∈ nodesInh pt point inh path t := by
  cases t <;> simp [nodesInh]

theorem nodesInh_wf {n : ℕ} {point : Pt} :
    ∀ {t : BVH α} {inh : ℚ} {path : List Bool}, wfB pt n t →
      ∀ e ∈ nodesInh pt point inh path t, wfB pt n e.t
  | BVH.leaf v, inh, path, h, e, he => by
      have : e = ⟨inh, path, BVH.leaf v⟩ := by simpa [nodesInh] using he
      subst this; exact h
  | BVH.node b c hh l r, inh, path, h, e, he => by
      simp only [nodesInh, List.mem_cons, List.mem_append] at he
      rcases he with h1 | h1 | h1
      · subst h1; exact h
      · exact nodesInh_wf h.2.2.1 e h1
      · exact nodesInh_wf h.2.2.2 e h1

theorem nodesInh_cost_ge {n : ℕ} {point : Pt} (hp : point.length = n) :
    ∀ {t : BVH α} {inh : ℚ} {path : List Bool}, wfB pt n t →
      ∀ e ∈ nodesInh pt point inh path t, inh ≤ e.cost ∧ inh ≤ entryCost pt e
  | BVH.leaf v, inh, path, h, e, he => by
      have he' : e = ⟨inh, path, BVH.leaf v⟩ := by simpa [nodesInh] using he
      subst he'
      have hsa : 0 ≤ Box.sa (boxOf pt (BVH.leaf v : BVH α)) :=
        sa_nonneg (boxWf_boxOf (show wfB pt n (BVH.leaf v) from h))
      exact ⟨le_refl _, by simp only [entryCost]; linarith⟩
  | BVH.node b c hh l r, inh, path, h, e, he => by
      simp only [nodesInh, List.mem_cons, List.mem_append] at he
      rcases he with h1 | h1 | h1
      · subst h1
        have hsa : 0 ≤ Box.sa (boxOf pt (BVH.node b c hh l r : BVH α)) :=
          sa_nonneg (boxWf_boxOf h)
        exact ⟨le_refl _, by simp only [entryCost]; linarith⟩
      · have hdelta : 0 ≤ Box.proposedSA (boxOf pt (BVH.node b c hh l r : BVH α)) point -
            Box.sa (boxOf pt (BVH.node b c hh l r : BVH α)) := by
          have := sa_le_proposedSA (p := point) (boxWf_boxOf h) hp
          linarith
        have := nodesInh_cost_ge hp h.2.2.1 e h1
        exact ⟨by linarith [this.1], by linarith [this.2]⟩
      · have hdelta : 0 ≤ Box.proposedSA (boxOf pt (BVH.node b c hh l r : BVH α)) point -
            Box.sa (boxOf pt (BVH.node b c hh l r : BVH α)) := by
          have := sa_le_proposedSA (p := point) (boxWf_boxOf h) hp
          linarith
        have := nodesInh_cost_ge hp h.2.2.2 e h1
        exact ⟨by linarith [this.1], by linarith [this.2]⟩

theorem mem_heappush {lt : SEntry α → SEntry α → Bool} {q : List (SEntry α)}
    {x e : SEntry α} : e ∈ PyHeap.heappush lt q x ↔ e = x ∨ e ∈ q := by
  have hperm := PyHeap.heappush_perm lt q x
  constructor
  · intro h
    have := hperm.mem_iff.mp h
    simpa using this
  · intro h
    apply hperm.mem_iff.mpr
    simpa using h

theorem qsize_perm {q1 q2 : List (SEntry α)} (h : List.Perm q1 q2) : qsize q1 = qsize q2 :=
  List.Perm.sum_eq (h.map _)

theorem heappop_none_iff {lt : SEntry α → SEntry α → Bool} {q : List (SEntry α)} :
    PyHeap.heappop lt q = none ↔ q = [] := by
  constructor
  · intro h
    cases q with
    | nil => rfl
    | cons a t =>
        exfalso
        unfold PyHeap.heappop at h
        cases hq : (a :: t).getLast? with
        | none =>
            have hne : (a :: t) ≠ [] := by simp
            rw [List.getLast?_eq_getLast _ hne] at hq
            simp at hq
        | some last =>
            rw [hq] at h
            by_cases hemp : (a :: t).dropLast.isEmpty <;> simp [hemp] at h
  · intro h
    subst h
    rfl

theorem qsize_heappush (lt : SEntry α → SEntry α → Bool) (q : List (SEntry α)) (x : SEntry α) :
    qsize (PyHeap.heappush lt q x) = size x.t + qsize q := by
  have := qsize_perm (PyHeap.heappush_perm lt q x)
  simpa [qsize] using this

theorem searchStep_fst (point : Pt) (e : SEntry α) (best : WithTop ℚ)
    (bestN : Option (SEntry α)) (q : List (SEntry α)) :
    (searchStep pt point e best bestN q).1 =
      if ((entryCost pt e : ℚ) : WithTop ℚ) ≤ best then ((entryCost pt e : ℚ) : WithTop ℚ)
      else best := rfl

theorem searchStep_bestN (point : Pt) (e : SEntry α) (best : WithTop ℚ)
    (bestN : Option (SEntry α)) (q : List (SEntry α)) :
    (searchStep pt point e best bestN q).2.1 =
      if ((entryCost pt e : ℚ) : WithTop ℚ) ≤ best then some e else bestN := rfl

theorem searchStep_queue (point : Pt) (e : SEntry α) (best : WithTop ℚ)
    (bestN : Option (SEntry α)) (q : List (SEntry α)) :
    (searchStep pt point e best bestN q).2.2 =
      if ((lowOf pt point e : ℚ) : WithTop ℚ) < (searchStep pt point e best bestN q).1 then
        (match e.t with
          | BVH.leaf _ => q
          | BVH.node _ _ _ l r =>
              PyHeap.heappush (entryLt pt)
                (PyHeap.heappush (entryLt pt) q ⟨lowOf pt point e, e.path ++ [false], l⟩)
                ⟨lowOf pt point e, e.path ++ [true], r⟩)
      else q := rfl

theorem searchStep_fst_le_best (point : Pt) (e : SEntry α) (best : WithTop ℚ)
    (bestN : Option (SEntry α)) (q : List (SEntry α)) :
    (searchStep pt point e best bestN q).1 ≤ best := by
  rw [searchStep_fst]
  split
  · assumption
  · exact le_refl _

theorem searchStep_fst_le_cost (point : Pt) (e : SEntry α) (best : WithTop ℚ)
    (bestN : Option (SEntry α)) (q : List (SEntry α)) :
    (searchStep pt point e best bestN q).1 ≤ ((entryCost pt e : ℚ) : WithTop ℚ) := by
  rw [searchStep_fst]
  split
  · exact le_refl _
  · next h => exact le_of_lt (lt_of_not_le h)

theorem searchGo_le {n : ℕ} {point : Pt} (hp : point.length = n) :
    ∀ (fuel : ℕ) (queue : List (SEntry α)) (best : WithTop ℚ) (bestN : Option (SEntry α)),
      qsize queue ≤ fuel →
      (∀ e ∈ queue, wfB pt n e.t) →
      (searchGo pt point fuel queue best bestN).1 ≤ best ∧
      (∀ e ∈ queue, ∀ e' ∈ nodesInh pt point e.cost e.path e.t,
        (searchGo pt point fuel queue best bestN).1 ≤ ((entryCost pt e' : ℚ) : WithTop ℚ)) := by
  intro fuel
  induction fuel with
  | zero =>
      intro queue best bestN hfuel hwf
      constructor
      · simp [searchGo]
      · intro e he
        exfalso
        have h1 : size e.t ≤ qsize queue :=
          List.single_le_sum (fun x _ => Nat.zero_le x) _ (List.mem_map_of_mem _ he)
        have h2 := size_pos e.t
        omega
  | succ fuel ih =>
      intro queue best bestN hfuel hwf
      cases hpop : PyHeap.heappop (entryLt pt) queue with
      | none =>
          have hq : queue = [] := heappop_none_iff.mp hpop
          subst hq
          constructor
          · simp [searchGo, hpop]
          · intro e he; simp at he
      | some pair =>
          obtain ⟨e0, q'⟩ := pair
          have hperm : List.Perm queue (e0 :: q') := PyHeap.heappop_perm _ _ _ _ hpop
          have hwf0 : wfB pt n e0.t := hwf e0 (hperm.mem_iff.mpr (List.mem_cons_self _ _))
          have hwfq' : ∀ e ∈ q', wfB pt n e.t := fun e he =>
            hwf e (hperm.mem_iff.mpr (List.mem_cons.mpr (Or.inr he)))
          have hsz : size e0.t + qsize q' = qsize queue := by
            have := qsize_perm hperm
            simp [qsize] at this ⊢
            omega
          have hres : searchGo pt point (fuel + 1) queue best bestN =
              ((searchGo pt point fuel (searchStep pt point e0 best bestN q').2.2
                  (searchStep pt point e0 best bestN q').1
                  (searchStep pt point e0 best bestN q').2.1).1,
                (searchGo pt point fuel (searchStep pt point e0 best bestN q').2.2
                  (searchStep pt point e0 best bestN q').1
                  (searchStep pt point e0 best bestN q').2.1).2.1,
                e0 :: (searchGo pt point fuel (searchStep pt point e0 best bestN q').2.2
                  (searchStep pt point e0 best bestN q').1
                  (searchStep pt point e0 best bestN q').2.1).2.2) := by
            simp [searchGo, hpop]
          have hwfq2 : ∀ e ∈ (searchStep pt point e0 best bestN q').2.2, wfB pt n e.t := by
            intro e he
            rw [searchStep_queue] at he
            split at he
            · cases ht : e0.t with
              | leaf v => rw [ht] at he; exact hwfq' e he
              | node b c hh l r =>
                  rw [ht] at hwf0 he
                  rw [mem_heappush] at he
                  rcases he with rfl | he
                  · exact hwf0.2.2.2
                  rw [mem_heappush] at he
                  rcases he with rfl | he
                  · exact hwf0.2.2.1
                  · exact hwfq' e he
            · exact hwfq' e he
          have hq2sz : qsize (searchStep pt point e0 best bestN q').2.2 ≤ fuel := by
            rw [searchStep_queue]
            split
            · cases ht : e0.t with
              | leaf v =>
                  show qsize q' ≤ fuel
                  rw [ht] at hsz
                  simp only [size] at hsz
                  omega
              | node b c hh l r =>
                  show qsize (PyHeap.heappush (entryLt pt)
                    (PyHeap.heappush (entryLt pt) q' ⟨lowOf pt point e0, e0.path ++ [false], l⟩)
                    ⟨lowOf pt point e0, e0.path ++ [true], r⟩) ≤ fuel
                  rw [qsize_heappush, qsize_heappush]
                  show size r + (size l + qsize q') ≤ fuel
                  rw [ht] at hsz
                  simp only [size] at hsz
                  omega
            · have h1 := size_pos e0.t
              omega
          obtain ⟨ihA, ihB⟩ := ih (searchStep pt point e0 best bestN q').2.2
            (searchStep pt point e0 best bestN q').1
            (searchStep pt point e0 best bestN q').2.1 hq2sz hwfq2
          have hrecle : (searchGo pt point (fuel + 1) queue best bestN).1 ≤
              (searchStep pt point e0 best bestN q').1 := by
            rw [hres]; exact ihA
          constructor
          · exact le_trans hrecle (searchStep_fst_le_best _ _ _ _ _)
          · intro e he e' he'
            rcases List.mem_cons.mp (hperm.mem_iff.mp he) with rfl | heq'
            · -- e is the popped entry
              cases ht : e.t with
              | leaf v =>
                  rw [ht] at he'
                  simp only [nodesInh, List.mem_singleton] at he'
                  subst he'
                  refine le_trans (le_trans hrecle (searchStep_fst_le_cost _ _ _ _ _)) ?_
                  simp [entryCost, ht]
              | node b c hh l r =>
                  rw [ht] at he'
                  simp only [nodesInh, List.mem_cons, List.mem_append] at he'
                  have hlow : e.cost + (Box.proposedSA (boxOf pt (BVH.node b c hh l r)) point -
                      Box.sa (boxOf pt (BVH.node b c hh l r))) = lowOf pt point e := by
                    simp [lowOf, ht]
                  rcases he' with he' | he' | he'
                  · subst he'
                    refine le_trans (le_trans hrecle (searchStep_fst_le_cost _ _ _ _ _)) ?_
                    simp [entryCost, ht]
                  · -- the entry lies in the left child's node list
                    rw [hlow] at he'
                    by_cases hpush :
                      ((lowOf pt point e : ℚ) : WithTop ℚ) < (searchStep pt point e best bestN q').1
                    · have hmemL : (⟨lowOf pt point e, e.path ++ [false], l⟩ : SEntry α) ∈
                          (searchStep pt point e best bestN q').2.2 := by
                        rw [searchStep_queue, if_pos hpush, ht]
                        rw [mem_heappush]
                        right
                        rw [mem_heappush]
                        left; rfl
                      rw [hres]
                      exact ihB _ hmemL e' he'
                    · have hwfl : wfB pt n l := by rw [ht] at hwf0; exact hwf0.2.2.1
                      have hub : lowOf pt point e ≤ entryCost pt e' :=
                        (nodesInh_cost_ge hp hwfl e' he').2
                      have hle := not_lt.mp hpush
                      refine le_trans (le_trans hrecle hle) ?_
                      exact_mod_cast hub
                  · -- the entry lies in the right child's node list
                    rw [hlow] at he'
                    by_cases hpush :
                      ((lowOf pt point e : ℚ) : WithTop ℚ) < (searchStep pt point e best bestN q').1
                    · have hmemR : (⟨lowOf pt point e, e.path ++ [true], r⟩ : SEntry α) ∈
                          (searchStep pt point e best bestN q').2.2 := by
                        rw [searchStep_queue, if_pos hpush, ht]
                        rw [mem_heappush]
                        left; rfl
                      rw [hres]
                      exact ihB _ hmemR e' he'
                    · have hwfr : wfB pt n r := by rw [ht] at hwf0; exact hwf0.2.2.2
                      have hub : lowOf pt point e ≤ entryCost pt e' :=
                        (nodesInh_cost_ge hp hwfr e' he').2
                      have hle := not_lt.mp hpush
                      refine le_trans (le_trans hrecle hle) ?_
                      exact_mod_cast hub
            · -- e remained in the heap
              have he'' : e ∈ (searchStep pt point e0 best bestN q').2.2 := by
                rw [searchStep_queue]
                split
                · cases ht : e0.t with
                  | leaf v => exact heq'
                  | node b c hh l r =>
                      rw [mem_heappush]
                      right
                      rw [mem_heappush]
                      right
                      exact heq'
                · exact heq'
              rw [hres]
              exact ihB e he'' e' he'

theorem nodesInh_children_mem {point : Pt} :
    ∀ {t : BVH α} {inh : ℚ} {path : List Bool} {e : SEntry α},
      e ∈ nodesInh pt point inh path t →
      ∀ {b : Box} {c h : ℕ} {l r : BVH α}, e.t = BVH.node b c h l r →
        (⟨lowOf pt point e, e.path ++ [false], l⟩ : SEntry α) ∈ nodesInh pt point inh path t ∧
        (⟨lowOf pt point e, e.path ++ [true], r⟩ : SEntry α) ∈ nodesInh pt point inh path t
  | BVH.leaf v, inh, path, e, he, b, c, h, l, r, het => by
      have : e = ⟨inh, path, BVH.leaf v⟩ := by simpa [nodesInh] using he
      subst this
      simp at het
  | BVH.node b0 c0 h0 l0 r0, inh, path, e, he, b, c, h, l, r, het => by
      simp only [nodesInh, List.mem_cons, List.mem_append] at he
      rcases he with he | he | he
      · subst he
        simp only at het
        obtain ⟨-, -, -, hl', hr'⟩ := BVH.node.inj het
        subst hl'
        subst hr'
        constructor
        · simp only [nodesInh, List.mem_cons, List.mem_append]
          right; left
          exact nodesInh_self point _ _ _
        · simp only [nodesInh, List.mem_cons, List.mem_append]
          right; right
          exact nodesInh_self point _ _ _
      · obtain ⟨hL, hR⟩ := nodesInh_children_mem he het
        constructor
        · simp only [nodesInh, List.mem_cons, List.mem_append]
          right; left; exact hL
        · simp only [nodesInh, List.mem_cons, List.mem_append]
          right; left; exact hR
      · obtain ⟨hL, hR⟩ := nodesInh_children_mem he het
        constructor
        · simp only [nodesInh, List.mem_cons, List.mem_append]
          right; right; exact hL
        · simp only [nodesInh, List.mem_cons, List.mem_append]
          right; right; exact hR

theorem searchGo_trace_mem {point : Pt} {t : BVH α} :
    ∀ (fuel : ℕ) (queue : List (SEntry α)) (best : WithTop ℚ) (bestN : Option (SEntry α)),
      (∀ e ∈ queue, e ∈ nodesInh pt point 0 [] t) →
      ∀ e ∈ (searchGo pt point fuel queue best bestN).2.2, e ∈ nodesInh pt point 0 [] t := by
  intro fuel
  induction fuel with
  | zero =>
      intro queue best bestN hq e he
      simp [searchGo] at he
  | succ fuel ih =>
      intro queue best bestN hq e he
      cases hpop : PyHeap.heappop (entryLt pt) queue with
      | none =>
          rw [show (searchGo pt point (fuel + 1) queue best bestN) = (best, bestN, []) by
            simp [searchGo, hpop]] at he
          simp at he
      | some pair =>
          obtain ⟨e0, q'⟩ := pair
          have hperm : List.Perm queue (e0 :: q') := PyHeap.heappop_perm _ _ _ _ hpop
          have hmem0 : e0 ∈ nodesInh pt point 0 [] t :=
            hq e0 (hperm.mem_iff.mpr (List.mem_cons_self _ _))
          have hmemq' : ∀ x ∈ q', x ∈ nodesInh pt point 0 [] t := fun x hx =>
            hq x (hperm.mem_iff.mpr (List.mem_cons.mpr (Or.inr hx)))
          have hres : searchGo pt point (fuel + 1) queue best bestN =
              ((searchGo pt point fuel (searchStep pt point e0 best bestN q').2.2
                  (searchStep pt point e0 best bestN q').1
                  (searchStep pt point e0 best bestN q').2.1).1,
                (searchGo pt point fuel (searchStep pt point e0 best bestN q').2.2
                  (searchStep pt point e0 best bestN q').1
                  (searchStep pt point e0 best bestN q').2.1).2.1,
                e0 :: (searchGo pt point fuel (searchStep pt point e0 best bestN q').2.2
                  (searchStep pt point e0 best bestN q').1
                  (searchStep pt point e0 best bestN q').2.1).2.2) := by
            simp [searchGo, hpop]
          rw [hres] at he
          simp only [List.mem_cons] at he
          rcases he with rfl | he
          · exact hmem0
          · refine ih _ _ _ ?_ e he
            intro x hx
            rw [searchStep_queue] at hx
            split at hx
            · cases ht : e0.t with
              | leaf v =>
                  rw [ht] at hx
                  exact hmemq' x hx
              | node b c hh l r =>
                  rw [ht] at hx
                  rw [mem_heappush] at hx
                  rcases hx with rfl | hx
                  · exact (nodesInh_children_mem hmem0 ht).2
                  rw [mem_heappush] at hx
                  rcases hx with rfl | hx
                  · exact (nodesInh_children_mem hmem0 ht).1
                  · exact hmemq' x hx
            · exact hmemq' x hx

theorem foldBest_cons (e : SEntry α) (tr : List (SEntry α))
    (st : WithTop ℚ × Option (SEntry α)) :
    foldBest pt (e :: tr) st =
      foldBest pt tr (if ((entryCost pt e : ℚ) : WithTop ℚ) ≤ st.1
        then (((entryCost pt e : ℚ) : WithTop ℚ), some e) else st) := rfl

theorem searchGo_fold {point : Pt} :
    ∀ (fuel : ℕ) (queue : List (SEntry α)) (best : WithTop ℚ) (bestN : Option (SEntry α)),
      ((searchGo pt point fuel queue best bestN).1,
        (searchGo pt point fuel queue best bestN).2.1) =
        foldBest pt (searchGo pt point fuel queue best bestN).2.2 (best, bestN) := by
  intro fuel
  induction fuel with
  | zero => intro queue best bestN; simp [searchGo, foldBest]
  | succ fuel ih =>
      intro queue best bestN
      cases hpop : PyHeap.heappop (entryLt pt) queue with
      | none => simp [searchGo, hpop, foldBest]
      | some pair =>
          obtain ⟨e0, q'⟩ := pair
          have hres : searchGo pt point (fuel + 1) queue best bestN =
              ((searchGo pt point fuel (searchStep pt point e0 best bestN q').2.2
                  (searchStep pt point e0 best bestN q').1
                  (searchStep pt point e0 best bestN q').2.1).1,
                (searchGo pt point fuel (searchStep pt point e0 best bestN q').2.2
                  (searchStep pt point e0 best bestN q').1
                  (searchStep pt point e0 best bestN q').2.1).2.1,
                e0 :: (searchGo pt point fuel (searchStep pt point e0 best bestN q').2.2
                  (searchStep pt point e0 best bestN q').1
                  (searchStep pt point e0 best bestN q').2.1).2.2) := by
            simp [searchGo, hpop]
          rw [hres]
          rw [foldBest_cons]
          have hstep : (if ((entryCost pt e0 : ℚ) : WithTop ℚ) ≤
                (((best, bestN) : WithTop ℚ × Option (SEntry α))).1
              then (((entryCost pt e0 : ℚ) : WithTop ℚ), some e0)
              else ((best, bestN) : WithTop ℚ × Option (SEntry α))) =
              ((searchStep pt point e0 best bestN q').1,
                (searchStep pt point e0 best bestN q').2.1) := by
            rw [searchStep_fst, searchStep_bestN]
            by_cases hc : ((entryCost pt e0 : ℚ) : WithTop ℚ) ≤ best
            · simp [hc]
            · simp [hc]
          rw [hstep]
          exact ih _ _ _

theorem foldBest_spec :
    ∀ (tr : List (SEntry α)) (b : WithTop ℚ) (n0 : Option (SEntry α)),
      ((∀ e ∈ tr, ¬ ((entryCost pt e : ℚ) : WithTop ℚ) ≤ b) ∧ foldBest pt tr (b, n0) = (b, n0)) ∨
      (∃ tr1 e tr2, tr = tr1 ++ e :: tr2 ∧
        (foldBest pt tr (b, n0)).2 = some e ∧
        (foldBest pt tr (b, n0)).1 = ((entryCost pt e : ℚ) : WithTop ℚ) ∧
        ((entryCost pt e : ℚ) : WithTop ℚ) ≤ b ∧
        ∀ e' ∈ tr2, ¬ ((entryCost pt e' : ℚ) : WithTop ℚ) ≤ ((entryCost pt e : ℚ) : WithTop ℚ))
  | [], b, n0 => Or.inl ⟨by simp, rfl⟩
  | e :: tr, b, n0 => by
      by_cases hc : ((entryCost pt e : ℚ) : WithTop ℚ) ≤ b
      · have hstep : foldBest pt (e :: tr) (b, n0) =
            foldBest pt tr (((entryCost pt e : ℚ) : WithTop ℚ), some e) := by
          simp [foldBest, hc]
        rcases foldBest_spec tr ((entryCost pt e : ℚ) : WithTop ℚ) (some e) with ⟨hall, heq⟩ | hr
        · right
          exact ⟨[], e, tr, by simp, by rw [hstep, heq], by rw [hstep, heq], hc, hall⟩
        · obtain ⟨tr1, e1, tr2, htr, h2, h1, hle, hsuf⟩ := hr
          right
          exact ⟨e :: tr1, e1, tr2, by simp [htr], by rw [hstep]; exact h2,
            by rw [hstep]; exact h1, le_trans hle hc, hsuf⟩
      · have hstep : foldBest pt (e :: tr) (b, n0) = foldBest pt tr (b, n0) := by
          simp [foldBest, hc]
        rcases foldBest_spec tr b n0 with ⟨hall, heq⟩ | hr
        · left
          refine ⟨?_, by rw [hstep, heq]⟩
          intro e' he'
          rcases List.mem_cons.mp he' with rfl | he'
          · exact hc
          · exact hall e' he'
        · obtain ⟨tr1, e1, tr2, htr, h2, h1, hle, hsuf⟩ := hr
          right
          exact ⟨e :: tr1, e1, tr2, by simp [htr], by rw [hstep]; exact h2,
            by rw [hstep]; exact h1, hle, hsuf⟩

theorem heappop_singleton (lt : SEntry α → SEntry α → Bool) (e : SEntry α) :
    PyHeap.heappop lt [e] = some (e, []) := rfl

theorem insertSearch_spec {n : ℕ} {t : BVH α} {point : Pt} (hwf : wfB pt n t)
    (hp : point.length = n) :
    ∃ e : SEntry α,
      (insertSearch pt t point).2.1 = some e ∧
      e ∈ nodesInh pt point 0 [] t ∧
      (∀ e' ∈ nodesInh pt point 0 [] t, entryCost pt e ≤ entryCost pt e') ∧
      (insertSearch pt t point).1 = ((entryCost pt e : ℚ) : WithTop ℚ) ∧
      (∃ tr1 tr2, (insertSearch pt t point).2.2 = tr1 ++ e :: tr2 ∧
        ∀ e' ∈ tr2, ¬ (entryCost pt e' ≤ entryCost pt e)) := by
  have hfold := @searchGo_fold α pt point (size t) [⟨0, [], t⟩] ⊤ none
  have hne : ∃ e0 tr', (insertSearch pt t point).2.2 = e0 :: tr' := by
    obtain ⟨f, hf⟩ : ∃ f, size t = f + 1 := ⟨size t - 1, by have := size_pos t; omega⟩
    unfold insertSearch
    rw [hf]
    rw [show searchGo pt point (f + 1) [⟨0, [], t⟩] ⊤ none =
        ((searchGo pt point f (searchStep pt point ⟨0, [], t⟩ ⊤ none []).2.2
            (searchStep pt point ⟨0, [], t⟩ ⊤ none []).1
            (searchStep pt point ⟨0, [], t⟩ ⊤ none []).2.1).1,
          (searchGo pt point f (searchStep pt point ⟨0, [], t⟩ ⊤ none []).2.2
            (searchStep pt point ⟨0, [], t⟩ ⊤ none []).1
            (searchStep pt point ⟨0, [], t⟩ ⊤ none []).2.1).2.1,
          (⟨0, [], t⟩ : SEntry α) :: (searchGo pt point f
            (searchStep pt point ⟨0, [], t⟩ ⊤ none []).2.2
            (searchStep pt point ⟨0, [], t⟩ ⊤ none []).1
            (searchStep pt point ⟨0, [], t⟩ ⊤ none []).2.1).2.2) from by
      simp [searchGo, heappop_singleton]]
    exact ⟨_, _, rfl⟩
  obtain ⟨e0, tr', htr'⟩ := hne
  rcases @foldBest_spec α pt (insertSearch pt t point).2.2 ⊤ none with ⟨hall, _⟩ | hr
  · exfalso
    exact hall e0 (by rw [htr']; exact List.mem_cons_self _ _) le_top
  · obtain ⟨tr1, e, tr2, htr, h2, h1, _, hsuf⟩ := hr
    have hres2 : (insertSearch pt t point).2.1 = some e := by
      have := hfold
      unfold insertSearch at this ⊢
      rw [Prod.ext_iff] at this
      exact this.2.trans h2
    have hres1 : (insertSearch pt t point).1 = ((entryCost pt e : ℚ) : WithTop ℚ) := by
      have := hfold
      unfold insertSearch at this ⊢
      rw [Prod.ext_iff] at this
      exact this.1.trans h1
    have hmem : e ∈ nodesInh pt point 0 [] t := by
      refine searchGo_trace_mem (t := t) (size t) [⟨0, [], t⟩] ⊤ none ?_ e ?_
      · intro x hx
        have : x = ⟨0, [], t⟩ := by simpa using hx
        subst this
        exact nodesInh_self point 0 [] t
      · show e ∈ (insertSearch pt t point).2.2
        rw [htr]
        exact List.mem_append.mpr (Or.inr (List.mem_cons_self _ _))
    have hmin : ∀ e' ∈ nodesInh pt point 0 [] t, entryCost pt e ≤ entryCost pt e' := by
      intro e' he'
      have hwfq : ∀ x ∈ ([⟨0, [], t⟩] : List (SEntry α)), wfB pt n x.t := by
        intro x hx
        have hx' : x = ⟨0, [], t⟩ := by simpa using hx
        subst hx'
        exact hwf
      have hle := (@searchGo_le α pt n point hp (size t) [⟨0, [], t⟩] ⊤ none
        (by simp [qsize]) hwfq).2 ⟨0, [], t⟩ (List.mem_cons_self _ _) e' he'
      have : (insertSearch pt t point).1 ≤ ((entryCost pt e' : ℚ) : WithTop ℚ) := hle
      rw [hres1] at this
      exact_mod_cast this
    refine ⟨e, hres2, hmem, hmin, hres1, tr1, tr2, htr, ?_⟩
    intro e' he' hle
    exact hsuf e' he' (by exact_mod_cast hle)

end BVH

/-- C1: for every BVH vertex index (`TreeBVH` or `BalancedTreeBVH`) built
by a sequence of `insert` calls, every query point `p` of matching
dimension and every radius `r ≥ 0`, `query(p, r)` returns a leaf only if
that leaf's stored point is within Euclidean distance `r` of `p`, and
returns absent only if no stored point is within Euclidean distance `r`
of `p` (the AABB pruning by the box of side `2r` centred at `p` never
discards a qualifying leaf). -/
theorem claim_C1 (balanced : Bool) (n : ℕ) (pts : List Pt) (hpts : ∀ p ∈ pts, p.length = n)
    (p : Pt) (hp : p.length = n) (r : ℚ) (hr : 0 ≤ r) :
    (∀ v, BVH.query id (BVH.buildT id balanced pts) p r = some v →
      v ∈ BVH.storedO (BVH.buildT id balanced pts) ∧ Point.dist p v ≤ (r : ℝ)) ∧
    (BVH.query id (BVH.buildT id balanced pts) p r = none →
      ∀ v ∈ BVH.storedO (BVH.buildT id balanced pts), ¬ Point.dist p v ≤ (r : ℝ)) := by
  have hwf := @BVH.wfO_buildT Pt id n balanced pts (by simpa using hpts)
  obtain ⟨h1, h2⟩ := @BVH.query_spec Pt id n _ hwf _ hp _ hr
  constructor
  · intro v hv
    obtain ⟨hm, hd⟩ := h1 v hv
    exact ⟨hm, (Point.dist_le_iff p v r).mpr ⟨hr, hd⟩⟩
  · intro hnone v hv hdist
    exact h2 hnone v hv ((Point.dist_le_iff p v r).mp hdist).2

/-- Witness for C1 at a concrete input: the tree built from the single
point `(0, 0)` queried at `(0, 0)` with radius `0`. -/
theorem claim_C1_witness :
    ((∀ q ∈ ([[0, 0]] : List Pt), q.length = 2) ∧ (0 : ℚ) ≤ 0) ∧
    ((∀ v, BVH.query id (BVH.buildT id false [[0, 0]]) [0, 0] 0 = some v →
        v ∈ BVH.storedO (BVH.buildT id false [[0, 0]]) ∧
          Point.dist [0, 0] v ≤ ((0 : ℚ) : ℝ)) ∧
      (BVH.query id (BVH.buildT id false [[0, 0]]) [0, 0] 0 = none →
        ∀ v ∈ BVH.storedO (BVH.buildT id false [[0, 0]]),
          ¬ Point.dist [0, 0] v ≤ ((0 : ℚ) : ℝ))) :=
  ⟨⟨by decide, by decide⟩,
    claim_C1 false 2 [[0, 0]] (by decide) [0, 0] (by decide) 0 (by decide)⟩

/-- C9 counterexample: an `AABB` constructed with no initial points does
NOT have `pmin = +inf` and `pmax = -inf`; the constructor leaves its
initial assignment `pmin = -inf`, `pmax = +inf` (the `±inf` reset of
`_set` only runs when points are supplied). -/
theorem claim_C9_cex :
    aabbInit 2 [] = AABBX.mk [⊥, ⊥] [⊤, ⊤] ∧
    ¬ ((aabbInit 2 []).pmin = [⊤, ⊤] ∧ (aabbInit 2 []).pmax = [⊥, ⊥]) := by
  constructor
  · rfl
  · intro h
    have h1 := h.1
    rw [show (aabbInit 2 []).pmin = [⊥, ⊥] from rfl] at h1
    have : (⊥ : XQ) = ⊤ := by
      have := List.head_eq_of_cons_eq h1
      exact this
    exact absurd this (by decide)

/-- C9 (amended): an `AABB` constructed with no initial points has
`pmin = -inf` and `pmax = +inf` in every dimension (the constructor's
initial assignment, which `_set` would overwrite only if points were
given), and every constructed `AABB` whose initial points all have the
declared dimension satisfies `pmin[d] ≤ pmax[d]` in every dimension —
the point-free box included, since `-inf ≤ +inf`. -/
theorem claim_C9 (ndim : ℕ) (pts : List (List XQ)) :
    (aabbInit ndim [] = AABBX.mk (List.replicate ndim ⊥) (List.replicate ndim ⊤)) ∧
    ((∀ p ∈ pts, p.length = ndim) →
      List.Forall₂ (· ≤ ·) (aabbInit ndim pts).pmin (aabbInit ndim pts).pmax) := by
  exact ⟨rfl, fun hpts => aabbInit_le hpts⟩

/-- Witness for C9 at a concrete input: two 2-dimensional points. -/
theorem claim_C9_witness :
    (∀ p ∈ [[(0 : XQ), 1], [2, 3]], p.length = 2) ∧
    (aabbInit 2 [] = AABBX.mk (List.replicate 2 ⊥) (List.replicate 2 ⊤)) ∧
    List.Forall₂ (· ≤ ·) (aabbInit 2 [[(0 : XQ), 1], [2, 3]]).pmin
      (aabbInit 2 [[(0 : XQ), 1], [2, 3]]).pmax := by
  have h := claim_C9 2 [[(0 : XQ), 1], [2, 3]]
  exact ⟨by decide, h.1, h.2 (by decide)⟩

/-- C10: `p < q` holds iff every coordinate of `p` is strictly below the
corresponding coordinate of `q`, and `p <= q` iff every coordinate is at
most the corresponding one; the order is partial, not total — for
`p = (0, 1)` and `q = (1, 0)` none of `p < q`, `q < p`, `p = q` holds —
and `AABB.contains`, `AABB.intersect` and the BVH node comparison are
built on this componentwise order. -/
theorem claim_C10 :
    (∀ p q : Pt, p.length = q.length →
      ((Point.ltB p q = true ↔ List.Forall₂ (· < ·) p q) ∧
        (Point.leB p q = true ↔ List.Forall₂ (· ≤ ·) p q))) ∧
    (Point.ltB [0, 1] [1, 0] = false ∧ Point.ltB [1, 0] [0, 1] = false ∧
      ([0, 1] : Pt) ≠ [1, 0] ∧ Point.eqB [0, 1] [1, 0] = false) ∧
    (∀ (b : Box) (p : Pt),
      Box.containsB b p = (Point.leB b.pmin p && Point.leB p b.pmax)) ∧
    (∀ a b : Box,
      Box.intersectB a b = (Point.leB a.pmin b.pmax && Point.leB b.pmin a.pmax)) ∧
    (∀ v w : Pt, BVH.nodeLt id (BVH.leaf v) (BVH.leaf w) = Point.ltB v w) := by
  refine ⟨fun p q h => ⟨ltB_iff_fa2 h, leB_iff_fa2 h⟩, by decide, fun b p => rfl,
    fun a b => rfl, fun v w => rfl⟩

/-- Witness for C10: the componentwise characterisation applied to the
concrete equal-length points `(0, 1)` and `(1, 2)`. -/
theorem claim_C10_witness :
    ([(0 : ℚ), 1] : Pt).length = ([(1 : ℚ), 2] : Pt).length ∧
    ((Point.ltB [0, 1] [1, 2] = true ↔ List.Forall₂ (· < ·) ([0, 1] : Pt) [1, 2]) ∧
      (Point.leB [0, 1] [1, 2] = true ↔ List.Forall₂ (· ≤ ·) ([0, 1] : Pt) [1, 2])) :=
  ⟨by decide, claim_C10.1 [0, 1] [1, 2] (by decide)⟩

namespace MathV

theorem quad_fact (A B C dm dp : ℝ) (hsum : A * (dm + dp) = -B)
    (hprod : A * (dm * dp) = C) (x : ℝ) :
    A * x ^ 2 + B * x + C = A * (x - dm) * (x - dp) := by
  linear_combination x * hsum - hprod

theorem coefA_ne_zero {f0 f1 : Point2D} {d : ℝ} (h : ¬ iscloseR (coefA f0 f1 d) 0) :
    coefA f0 f1 d ≠ 0 := by
  intro h0
  apply h
  rw [iscloseR, h0]
  norm_num

theorem discClamped_eq {f0 f1 : Point2D} {d : ℝ} (h : 0 ≤ discriminant f0 f1 d) :
    discClamped f0 f1 d = discriminant f0 f1 d := by
  rw [discClamped, if_neg (not_lt.mpr h)]

theorem roots_spec {f0 f1 : Point2D} {d : ℝ} (hA : coefA f0 f1 d ≠ 0)
    (hdisc : 0 ≤ discriminant f0 f1 d) (x : ℝ) :
    coefA f0 f1 d * x ^ 2 + coefB f0 f1 d * x + coefC f0 f1 d =
      coefA f0 f1 d * (x - dMinus f0 f1 d) * (x - dPlus f0 f1 d) := by
  have ht2 : Real.sqrt (discriminant f0 f1 d) ^ 2 = discriminant f0 f1 d :=
    Real.sq_sqrt hdisc
  have hT : Real.sqrt (discriminant f0 f1 d) ^ 2 =
      coefB f0 f1 d * coefB f0 f1 d - 4 * coefA f0 f1 d * coefC f0 f1 d := ht2
  have hsum : coefA f0 f1 d * (dMinus f0 f1 d + dPlus f0 f1 d) = -coefB f0 f1 d := by
    rw [dMinus, dPlus, discClamped_eq hdisc, div_div, div_div]
    field_simp
    ring
  have hprod : coefA f0 f1 d * (dMinus f0 f1 d * dPlus f0 f1 d) = coefC f0 f1 d := by
    rw [dMinus, dPlus, discClamped_eq hdisc, div_div, div_div]
    field_simp
    first
    | linear_combination (coefA f0 f1 d) * hT
    | linear_combination (-(coefA f0 f1 d)) * hT
    | linear_combination (4 * coefA f0 f1 d) * hT
    | linear_combination (-(4 * coefA f0 f1 d)) * hT
  exact quad_fact _ _ _ _ _ hsum hprod x

theorem root_mem {f0 f1 : Point2D} {d : ℝ} (hA : coefA f0 f1 d ≠ 0)
    (hdisc : 0 ≤ discriminant f0 f1 d) {x : ℝ}
    (hx : coefA f0 f1 d * x ^ 2 + coefB f0 f1 d * x + coefC f0 f1 d = 0) :
    x = dMinus f0 f1 d ∨ x = dPlus f0 f1 d := by
  have h := (roots_spec hA hdisc x).symm.trans hx
  rcases mul_eq_zero.mp h with h1 | h1
  · rcases mul_eq_zero.mp h1 with h2 | h2
    · exact absurd h2 hA
    · exact Or.inl (sub_eq_zero.mp h2)
  · exact Or.inr (sub_eq_zero.mp h1)

theorem extreme_is_root {f0 f1 : Point2D} {d : ℝ} (hA : coefA f0 f1 d ≠ 0)
    (hdisc : 0 ≤ discriminant f0 f1 d) :
    (coefA f0 f1 d * max (dMinus f0 f1 d) (dPlus f0 f1 d) ^ 2 +
      coefB f0 f1 d * max (dMinus f0 f1 d) (dPlus f0 f1 d) + coefC f0 f1 d = 0) ∧
    (coefA f0 f1 d * min (dMinus f0 f1 d) (dPlus f0 f1 d) ^ 2 +
      coefB f0 f1 d * min (dMinus f0 f1 d) (dPlus f0 f1 d) + coefC f0 f1 d = 0) := by
  constructor
  · rcases max_choice (dMinus f0 f1 d) (dPlus f0 f1 d) with h | h <;>
      rw [h, roots_spec hA hdisc] <;> ring
  · rcases min_choice (dMinus f0 f1 d) (dPlus f0 f1 d) with h | h <;>
      rw [h, roots_spec hA hdisc] <;> ring

theorem perp_det (p q r : Point2D) :
    (perpendicular_line_parameters p q).1 * (perpendicular_line_parameters p r).2.1 -
      (perpendicular_line_parameters p r).1 * (perpendicular_line_parameters p q).2.1 =
      -(det r q p) := by
  simp only [perpendicular_line_parameters, det]
  ring

theorem not_isclose_neg {a : ℝ} (h : ¬ iscloseR a 0) : ¬ iscloseR (-a) 0 := by
  intro hcl
  apply h
  simpa [iscloseR, abs_neg] using hcl

theorem circle_parameters_isSome (l c r : Point2D) (h : ¬ iscloseR (det r c l) 0) :
    (circle_parameters l c r).isSome = true := by
  simp only [circle_parameters]
  rw [perp_det l c r]
  rw [if_neg (not_isclose_neg h)]
  rfl

end MathV

/-- C3: for foci at or below the directrix, `get_parabola_intersection`
returns `(+inf, +inf)` when both foci are (within `isclose` tolerance) on
the directrix; when the leading coefficient `A` of the breakpoint
quadratic is (within tolerance) zero it returns the unique solution of
the remaining linear equation `B·x + C = 0` (the source notes `B` is
nonzero there); otherwise, provided the exact discriminant is
nonnegative (the source clamps a negative float discriminant to zero
after asserting it is `isclose` to zero), it returns the larger root of
the quadratic when `f0.y > f1.y` and the smaller root when
`f0.y < f1.y`. -/
theorem claim_C3 (f0 f1 : Point2D) (d : ℝ) (hf0 : f0.y ≤ d) (hf1 : f1.y ≤ d) :
    (MathV.iscloseR f0.y d ∧ MathV.iscloseR f1.y d →
      MathV.get_parabola_intersection f0 f1 d = (⊤, ⊤)) ∧
    (¬ (MathV.iscloseR f0.y d ∧ MathV.iscloseR f1.y d) →
      MathV.iscloseR (MathV.coefA f0 f1 d) 0 → MathV.coefB f0 f1 d ≠ 0 →
      ∃ x : ℝ, (MathV.get_parabola_intersection f0 f1 d).1 = ((x : ℝ) : WithTop ℝ) ∧
        MathV.coefB f0 f1 d * x + MathV.coefC f0 f1 d = 0 ∧
        ∀ x' : ℝ, MathV.coefB f0 f1 d * x' + MathV.coefC f0 f1 d = 0 → x' = x) ∧
    (¬ (MathV.iscloseR f0.y d ∧ MathV.iscloseR f1.y d) →
      ¬ MathV.iscloseR (MathV.coefA f0 f1 d) 0 →
      0 ≤ MathV.discriminant f0 f1 d →
      ((f1.y < f0.y →
        ∃ x : ℝ, (MathV.get_parabola_intersection f0 f1 d).1 = ((x : ℝ) : WithTop ℝ) ∧
          MathV.coefA f0 f1 d * x ^ 2 + MathV.coefB f0 f1 d * x + MathV.coefC f0 f1 d = 0 ∧
          ∀ x' : ℝ,
            MathV.coefA f0 f1 d * x' ^ 2 + MathV.coefB f0 f1 d * x' + MathV.coefC f0 f1 d = 0 →
            x' ≤ x) ∧
      (f0.y < f1.y →
        ∃ x : ℝ, (MathV.get_parabola_intersection f0 f1 d).1 = ((x : ℝ) : WithTop ℝ) ∧
          MathV.coefA f0 f1 d * x ^ 2 + MathV.coefB f0 f1 d * x + MathV.coefC f0 f1 d = 0 ∧
          ∀ x' : ℝ,
            MathV.coefA f0 f1 d * x' ^ 2 + MathV.coefB f0 f1 d * x' + MathV.coefC f0 f1 d = 0 →
            x ≤ x'))) := by
  refine ⟨?_, ?_, ?_⟩
  · intro hboth
    rw [MathV.get_parabola_intersection, if_pos hboth]
  · intro hboth hA hB
    refine ⟨-MathV.coefC f0 f1 d / MathV.coefB f0 f1 d, ?_, ?_, ?_⟩
    · rw [MathV.get_parabola_intersection, if_neg hboth, if_pos hA]
    · field_simp
      ring
    · intro x' hx'
      field_simp
      linarith [hx']
  · intro hboth hnA hdisc
    have hA := MathV.coefA_ne_zero hnA
    have hres : (MathV.get_parabola_intersection f0 f1 d).1 =
        ((MathV.xSel f0 f1 d : ℝ) : WithTop ℝ) := by
      rw [MathV.get_parabola_intersection, if_neg hboth, if_neg hnA]
    constructor
    · intro hgt
      refine ⟨MathV.xSel f0 f1 d, hres, ?_, ?_⟩
      · rw [MathV.xSel, if_pos hgt]
        exact (MathV.extreme_is_root hA hdisc).1
      · intro x' hx'
        rw [MathV.xSel, if_pos hgt]
        rcases MathV.root_mem hA hdisc hx' with h | h
        · rw [h]; exact le_max_left _ _
        · rw [h]; exact le_max_right _ _
    · intro hlt
      have hngt : ¬ (f0.y > f1.y) := not_lt.mpr (le_of_lt hlt)
      refine ⟨MathV.xSel f0 f1 d, hres, ?_, ?_⟩
      · rw [MathV.xSel, if_neg hngt]
        exact (MathV.extreme_is_root hA hdisc).2
      · intro x' hx'
        rw [MathV.xSel, if_neg hngt]
        rcases MathV.root_mem hA hdisc hx' with h | h
        · rw [h]; exact min_le_left _ _
        · rw [h]; exact min_le_right _ _

/-- Witness for C3 at a concrete input: `f0 = (0, 0)`, `f1 = (0, 3)`,
directrix `4` (the quadratic branch with discriminant `144`). -/
theorem claim_C3_witness :
    ((⟨0, 0⟩ : Point2D).y ≤ (4 : ℝ) ∧ (⟨0, 3⟩ : Point2D).y ≤ (4 : ℝ)) ∧
    ((MathV.iscloseR (⟨0, 0⟩ : Point2D).y 4 ∧ MathV.iscloseR (⟨0, 3⟩ : Point2D).y 4 →
      MathV.get_parabola_intersection ⟨0, 0⟩ ⟨0, 3⟩ 4 = (⊤, ⊤)) ∧
    (¬ (MathV.iscloseR (⟨0, 0⟩ : Point2D).y 4 ∧ MathV.iscloseR (⟨0, 3⟩ : Point2D).y 4) →
      MathV.iscloseR (MathV.coefA ⟨0, 0⟩ ⟨0, 3⟩ 4) 0 → MathV.coefB ⟨0, 0⟩ ⟨0, 3⟩ 4 ≠ 0 →
      ∃ x : ℝ,
        (MathV.get_parabola_intersection ⟨0, 0⟩ ⟨0, 3⟩ 4).1 = ((x : ℝ) : WithTop ℝ) ∧
        MathV.coefB ⟨0, 0⟩ ⟨0, 3⟩ 4 * x + MathV.coefC ⟨0, 0⟩ ⟨0, 3⟩ 4 = 0 ∧
        ∀ x' : ℝ, MathV.coefB ⟨0, 0⟩ ⟨0, 3⟩ 4 * x' + MathV.coefC ⟨0, 0⟩ ⟨0, 3⟩ 4 = 0 →
          x' = x) ∧
    (¬ (MathV.iscloseR (⟨0, 0⟩ : Point2D).y 4 ∧ MathV.iscloseR (⟨0, 3⟩ : Point2D).y 4) →
      ¬ MathV.iscloseR (MathV.coefA ⟨0, 0⟩ ⟨0, 3⟩ 4) 0 →
      0 ≤ MathV.discriminant ⟨0, 0⟩ ⟨0, 3⟩ 4 →
      (((⟨0, 3⟩ : Point2D).y < (⟨0, 0⟩ : Point2D).y →
        ∃ x : ℝ,
          (MathV.get_parabola_intersection ⟨0, 0⟩ ⟨0, 3⟩ 4).1 = ((x : ℝ) : WithTop ℝ) ∧
          MathV.coefA ⟨0, 0⟩ ⟨0, 3⟩ 4 * x ^ 2 + MathV.coefB ⟨0, 0⟩ ⟨0, 3⟩ 4 * x +
            MathV.coefC ⟨0, 0⟩ ⟨0, 3⟩ 4 = 0 ∧
          ∀ x' : ℝ,
            MathV.coefA ⟨0, 0⟩ ⟨0, 3⟩ 4 * x' ^ 2 + MathV.coefB ⟨0, 0⟩ ⟨0, 3⟩ 4 * x' +
              MathV.coefC ⟨0, 0⟩ ⟨0, 3⟩ 4 = 0 → x' ≤ x) ∧
      ((⟨0, 0⟩ : Point2D).y < (⟨0, 3⟩ : Point2D).y →
        ∃ x : ℝ,
          (MathV.get_parabola_intersection ⟨0, 0⟩ ⟨0, 3⟩ 4).1 = ((x : ℝ) : WithTop ℝ) ∧
          MathV.coefA ⟨0, 0⟩ ⟨0, 3⟩ 4 * x ^ 2 + MathV.coefB ⟨0, 0⟩ ⟨0, 3⟩ 4 * x +
            MathV.coefC ⟨0, 0⟩ ⟨0, 3⟩ 4 = 0 ∧
          ∀ x' : ℝ,
            MathV.coefA ⟨0, 0⟩ ⟨0, 3⟩ 4 * x' ^ 2 + MathV.coefB ⟨0, 0⟩ ⟨0, 3⟩ 4 * x' +
              MathV.coefC ⟨0, 0⟩ ⟨0, 3⟩ 4 = 0 → x ≤ x')))) :=
  ⟨⟨by norm_num, by norm_num⟩, claim_C3 ⟨0, 0⟩ ⟨0, 3⟩ 4 (by norm_num) (by norm_num)⟩

/-- C6: whenever `is_right(r, c, l)` holds (determinant strictly
negative and not within `isclose` tolerance of zero),
`circle_parameters(l, c, r)` does not return `None`: the determinant the
circumcircle computes from the two perpendicular bisectors is exactly
the negation of `det(r, c, l)`, so it cannot test as close to zero
either, and the collinear early return is not taken — hence in
`_add_circle_event` the circle built after the `is_right` gate always
exists and the assertion there never fails. -/
theorem claim_C6 (l c r : Point2D) (h : MathV.is_right r c l) :
    (MathV.circle_parameters l c r).isSome = true :=
  MathV.circle_parameters_isSome l c r h.2

/-- Witness for C6 at a concrete input: `l = (0, 0)`, `c = (1, -1)`,
`r = (2, 0)`, a clockwise (rightward-bending) triple. -/
theorem claim_C6_witness :
    MathV.is_right ⟨2, 0⟩ ⟨1, -1⟩ ⟨0, 0⟩ ∧
      (MathV.circle_parameters ⟨0, 0⟩ ⟨1, -1⟩ ⟨2, 0⟩).isSome = true := by
  have h : MathV.is_right ⟨2, 0⟩ ⟨1, -1⟩ ⟨0, 0⟩ := by
    constructor
    · norm_num [MathV.det]
    · norm_num [MathV.iscloseR, MathV.det]
  exact ⟨h, claim_C6 ⟨0, 0⟩ ⟨1, -1⟩ ⟨2, 0⟩ h⟩

/-- C4 counterexample: ties do NOT go to the node encountered first
(shallower preferred).  On the tree built from `(0, 0)` and `(1, 0)`,
searching the sibling for `(2, 0)` pops the root first, then the left
leaf, then the right leaf, all three with the same node cost
`2 + 8·10⁻¹²`; the chosen sibling is the *last*-processed entry, the
right leaf at depth 1 (`path [true]`), not the root processed first —
the source updates on `node_cost <= best_cost`, so later (deeper)
candidates replace earlier ones on ties. -/
theorem claim_C4_cex :
    BVH.buildT id false [([0, 0] : Pt), [1, 0]] =
      some (BVH.node ⟨[0, 0], [1, 0]⟩ 3 1 (BVH.leaf [0, 0]) (BVH.leaf [1, 0])) ∧
    (BVH.insertSearch id
        (BVH.node ⟨([0, 0] : Pt), [1, 0]⟩ 3 1 (BVH.leaf [0, 0]) (BVH.leaf [1, 0]))
        [2, 0]).2.1 =
      some ⟨2, [true], BVH.leaf [1, 0]⟩ ∧
    ((BVH.insertSearch id
        (BVH.node ⟨([0, 0] : Pt), [1, 0]⟩ 3 1 (BVH.leaf [0, 0]) (BVH.leaf [1, 0]))
        [2, 0]).2.2.map
        (fun e => (e.path, BVH.entryCost id e))) =
      [([], 250000000001 / 125000000000), ([false], 250000000001 / 125000000000),
        ([true], 250000000001 / 125000000000)] := by
  have h2 : (2 : WithTop ℚ) < ((250000000001 / 125000000000 : ℚ) : WithTop ℚ) := by
    rw [show (2 : WithTop ℚ) = ((2 : ℚ) : WithTop ℚ) by norm_cast, WithTop.coe_lt_coe]
    norm_num
  refine ⟨by decide, ?_, ?_⟩ <;>
    norm_num [BVH.insertSearch, BVH.searchGo, BVH.searchStep, PyHeap.heappop,
      PyHeap.heappush, PyHeap.siftdown, PyHeap.siftup, BVH.entryLt, BVH.nodeLt,
      Point.ltB, Box.sa, Box.saPair, Box.proposedSA, Box.upd, Box.ofPoint,
      BVH.boxOf, skin, BVH.size, BVH.entryCost, h2,
      WithTop.coe_lt_coe, WithTop.coe_le_coe, le_top]

/-- C4 (amended): in `TreeBVH._insert`'s best-first sibling search the
chosen sibling is a node minimizing the node cost
`surface_area(node) + inherited_cost` over all candidate nodes with
their path-inherited costs; a popped internal node's children are pushed
exactly when its lower bound `inherited_cost + (proposed_surface_area -
surface_area)` is strictly below the updated best node cost; and among
the processed candidates attaining the minimal node cost the node
processed LAST is chosen (the `node_cost <= best_cost` comparison keeps
replacing the running best on ties, preferring nodes deeper in the
tree), not the one encountered first. -/
theorem claim_C4 {α : Type} (pt : α → Pt) {n : ℕ} {t : BVH α} {point : Pt}
    (hwf : BVH.wfB pt n t) (hp : point.length = n) :
    (∃ e : BVH.SEntry α,
      (BVH.insertSearch pt t point).2.1 = some e ∧
      e ∈ BVH.nodesInh pt point 0 [] t ∧
      (∀ e' ∈ BVH.nodesInh pt point 0 [] t,
        BVH.entryCost pt e ≤ BVH.entryCost pt e') ∧
      (∃ tr1 tr2, (BVH.insertSearch pt t point).2.2 = tr1 ++ e :: tr2 ∧
        ∀ e' ∈ tr2, ¬ (BVH.entryCost pt e' ≤ BVH.entryCost pt e))) ∧
    (∀ (e : BVH.SEntry α) (best : WithTop ℚ) (bestN : Option (BVH.SEntry α))
        (q : List (BVH.SEntry α)) (b : Box) (c h : ℕ) (l r : BVH α),
      e.t = BVH.node b c h l r →
      (((BVH.lowOf pt point e : ℚ) : WithTop ℚ) <
          (BVH.searchStep pt point e best bestN q).1 →
        (BVH.searchStep pt point e best bestN q).2.2 =
          PyHeap.heappush (BVH.entryLt pt)
            (PyHeap.heappush (BVH.entryLt pt) q
              ⟨BVH.lowOf pt point e, e.path ++ [false], l⟩)
            ⟨BVH.lowOf pt point e, e.path ++ [true], r⟩) ∧
      (¬ ((BVH.lowOf pt point e : ℚ) : WithTop ℚ) <
          (BVH.searchStep pt point e best bestN q).1 →
        (BVH.searchStep pt point e best bestN q).2.2 = q)) := by
  constructor
  · obtain ⟨e, h1, h2, h3, _, h5⟩ := BVH.insertSearch_spec hwf hp
    exact ⟨e, h1, h2, h3, h5⟩
  · intro e best bestN q b c h l r het
    constructor
    · intro hlt
      rw [BVH.searchStep_queue, if_pos hlt, het]
    · intro hge
      rw [BVH.searchStep_queue, if_neg hge]

/-- Witness for C4 at a concrete input: the single-leaf tree `(5, 7)`
and the search point `(1, 2)`. -/
theorem claim_C4_witness :
    (BVH.wfB id 2 (BVH.leaf ([5, 7] : Pt)) ∧ ([1, 2] : Pt).length = 2) ∧
    ((∃ e : BVH.SEntry Pt,
      (BVH.insertSearch id (BVH.leaf ([5, 7] : Pt)) [1, 2]).2.1 = some e ∧
      e ∈ BVH.nodesInh id [1, 2] 0 [] (BVH.leaf ([5, 7] : Pt)) ∧
      (∀ e' ∈ BVH.nodesInh id [1, 2] 0 [] (BVH.leaf ([5, 7] : Pt)),
        BVH.entryCost id e ≤ BVH.entryCost id e') ∧
      (∃ tr1 tr2,
        (BVH.insertSearch id (BVH.leaf ([5, 7] : Pt)) [1, 2]).2.2 = tr1 ++ e :: tr2 ∧
        ∀ e' ∈ tr2, ¬ (BVH.entryCost id e' ≤ BVH.entryCost id e))) ∧
    (∀ (e : BVH.SEntry Pt) (best : WithTop ℚ) (bestN : Option (BVH.SEntry Pt))
        (q : List (BVH.SEntry Pt)) (b : Box) (c h : ℕ) (l r : BVH Pt),
      e.t = BVH.node b c h l r →
      (((BVH.lowOf id [1, 2] e : ℚ) : WithTop ℚ) <
          (BVH.searchStep id [1, 2] e best bestN q).1 →
        (BVH.searchStep id [1, 2] e best bestN q).2.2 =
          PyHeap.heappush (BVH.entryLt id)
            (PyHeap.heappush (BVH.entryLt id) q
              ⟨BVH.lowOf id [1, 2] e, e.path ++ [false], l⟩)
            ⟨BVH.lowOf id [1, 2] e, e.path ++ [true], r⟩) ∧
      (¬ ((BVH.lowOf id [1, 2] e : ℚ) : WithTop ℚ) <
          (BVH.searchStep id [1, 2] e best bestN q).1 →
        (BVH.searchStep id [1, 2] e best bestN q).2.2 = q))) :=
  ⟨⟨rfl, rfl⟩, @claim_C4 Pt id 2 (BVH.leaf [5, 7]) [1, 2] rfl rfl⟩

namespace Events

theorem deactivateAt_length : ∀ (es : List CircleEvent) (i : ℕ),
    (deactivateAt es i).length = es.length
  | [], _ => rfl
  | _ :: t, 0 => rfl
  | _ :: t, n + 1 => congrArg Nat.succ (deactivateAt_length t n)

theorem deactivateAt_get : ∀ (es : List CircleEvent) (i : ℕ) {old : CircleEvent},
    es.get? i = some old →
    (deactivateAt es i).get? i = some ⟨old.center, old.radius, false⟩
  | [], i, old, h => by simp at h
  | e :: t, 0, old, h => by
      have : e = old := by simpa using h
      subst this
      rfl
  | e :: t, n + 1, old, h => by
      simp only [List.get?] at h ⊢
      exact deactivateAt_get t n h

end Events

namespace AVL

variable {α : Type}

theorem height_node (a b : α) (h : ℕ) (l r : VDT α) :
    height (VDT.node a b h l r) = h := rfl

theorem realHeight_node (a b : α) (h : ℕ) (l r : VDT α) :
    realHeight (VDT.node a b h l r) = 1 + max (realHeight l) (realHeight r) := rfl

theorem height_eq_real : ∀ {t : VDT α}, wfH t → height t = realHeight t
  | .leaf _, _ => rfl
  | .node a b h l r, hw => by
      obtain ⟨hh, -, -⟩ := hw
      simpa [height, realHeight] using hh

theorem stepOnce_id {t : VDT α} (hw : wfH t) (hb : balanced t) :
    stepOnce t = (t, false) := by
  cases t with
  | leaf v => rfl
  | node a b h l r =>
      obtain ⟨hh, hwl, hwr⟩ := hw
      obtain ⟨hbal, hbl, hbr⟩ := hb
      have hbal' := abs_le.mp hbal
      have him : imbalance (VDT.node a b h l r) = (realHeight l : ℤ) - realHeight r := by
        simp only [imbalance, height_node]
        rw [height_eq_real hwl, height_eq_real hwr]
      rw [stepOnce, him]
      rw [if_neg (by omega), if_neg (by omega)]
      simp only [update_height, Prod.mk.injEq, and_true]
      rw [height_eq_real hwl, height_eq_real hwr, ← hh]

theorem stepFix_id {t : VDT α} (hw : wfH t) (hb : balanced t) : stepFix t = t := by
  simp [stepFix, stepOnce_id hw hb]

theorem rebalancePath_nil (t : VDT α) : rebalancePath t [] = stepFix t := by
  cases t <;> rfl

theorem rebalancePath_id {t : VDT α} (hw : wfH t) (hb : balanced t) :
    ∀ π : List Bool, rebalancePath t π = t := by
  intro π
  induction π generalizing t with
  | nil => rw [rebalancePath_nil]; exact stepFix_id hw hb
  | cons d π ih =>
      cases t with
      | leaf v => cases d <;> rfl
      | node a b h l r =>
          obtain ⟨hh, hwl, hwr⟩ := hw
          obtain ⟨hbal, hbl, hbr⟩ := hb
          cases d
          · rw [rebalancePath, ih hwl hbl]
            exact stepFix_id ⟨hh, hwl, hwr⟩ ⟨hbal, hbl, hbr⟩
          · rw [rebalancePath, ih hwr hbr]
            exact stepFix_id ⟨hh, hwl, hwr⟩ ⟨hbal, hbl, hbr⟩

theorem stepOnce_left2 {a b : α} {h : ℕ} {l r : VDT α}
    (hwl : wfH l) (hwr : wfH r) (hbl : balanced l) (hbr : balanced r)
    (hd : realHeight l = realHeight r + 2) :
    wfH (stepOnce (.node a b h l r)).1 ∧ balanced (stepOnce (.node a b h l r)).1 ∧
      (realHeight (stepOnce (.node a b h l r)).1 = realHeight l ∨
        realHeight (stepOnce (.node a b h l r)).1 = realHeight l + 1) := by
  cases l with
  | leaf v => simp [realHeight] at hd
  | node la lb lh ll lr =>
      obtain ⟨hlh, hwll, hwlr⟩ := hwl
      obtain ⟨hball, hbll, hblr⟩ := hbl
      have hball' := abs_le.mp hball
      have hsll := height_eq_real hwll
      have hslr := height_eq_real hwlr
      have hsr := height_eq_real hwr
      simp only [realHeight_node] at hd hball'
      have hcond : imbalance (VDT.node a b h (VDT.node la lb lh ll lr) r) = 2 := by
        simp only [imbalance, height_node]
        rw [hsr]
        omega
      rw [stepOnce, if_pos hcond]
      by_cases him : imbalance (VDT.node la lb lh ll lr) = -1
      · rw [if_pos him]
        simp only [imbalance] at him
        rw [hsll, hslr] at him
        cases lr with
        | leaf w =>
            exfalso
            simp only [realHeight] at him hd
            omega
        | node ra rb rh rl rr =>
            obtain ⟨hrh, hwrl, hwrr⟩ := hwlr
            obtain ⟨hbalr, hbrl, hbrr⟩ := hblr
            have hbalr' := abs_le.mp hbalr
            have hsrl := height_eq_real hwrl
            have hsrr := height_eq_real hwrr
            simp only [realHeight_node] at hd him hbalr' ⊢
            simp only [rotate_rr, rotate_ll, update_height, height_node]
            rw [hsll, hsrl, hsrr, hsr]
            refine ⟨?_, ?_, ?_⟩
            · refine ⟨?_, ⟨?_, hwll, hwrl⟩, ⟨?_, hwrr, hwr⟩⟩ <;>
                simp only [realHeight_node] <;> omega
            · simp only [balanced, realHeight_node, abs_le]
              refine ⟨⟨?_, ?_⟩, ⟨⟨?_, ?_⟩, hbll, hbrl⟩, ⟨⟨?_, ?_⟩, hbrr, hbr⟩⟩ <;> omega
            · simp only [realHeight_node]
              omega
      · rw [if_neg him]
        simp only [imbalance] at him
        rw [hsll, hslr] at him
        simp only [realHeight_node] at hd ⊢
        simp only [rotate_ll, update_height, height_node]
        rw [hsll, hslr, hsr]
        refine ⟨?_, ?_, ?_⟩
        · refine ⟨?_, hwll, ?_, hwlr, hwr⟩ <;>
            simp only [realHeight_node] <;> omega
        · simp only [balanced, realHeight_node, abs_le]
          refine ⟨⟨?_, ?_⟩, hbll, ⟨⟨?_, ?_⟩, hblr, hbr⟩⟩ <;> omega
        · simp only [realHeight_node]
          omega

theorem stepOnce_right2 {a b : α} {h : ℕ} {l r : VDT α}
    (hwl : wfH l) (hwr : wfH r) (hbl : balanced l) (hbr : balanced r)
    (hd : realHeight r = realHeight l + 2) :
    wfH (stepOnce (.node a b h l r)).1 ∧ balanced (stepOnce (.node a b h l r)).1 ∧
      (realHeight (stepOnce (.node a b h l r)).1 = realHeight r ∨
        realHeight (stepOnce (.node a b h l r)).1 = realHeight r + 1) := by
  cases r with
  | leaf v => simp [realHeight] at hd
  | node ra rb rh rl rr =>
      obtain ⟨hrh, hwrl, hwrr⟩ := hwr
      obtain ⟨hbalr, hbrl, hbrr⟩ := hbr
      have hbalr' := abs_le.mp hbalr
      have hsrl := height_eq_real hwrl
      have hsrr := height_eq_real hwrr
      have hsl := height_eq_real hwl
      simp only [realHeight_node] at hd hbalr'
      have hcond2 : imbalance (VDT.node a b h l (VDT.node ra rb rh rl rr)) = -2 := by
        simp only [imbalance, height_node]
        rw [hsl]
        omega
      have hcond1 : ¬ imbalance (VDT.node a b h l (VDT.node ra rb rh rl rr)) = 2 := by
        rw [hcond2]
        omega
      rw [stepOnce, if_neg hcond1, if_pos hcond2]
      by_cases him : imbalance (VDT.node ra rb rh rl rr) = 1
      · rw [if_pos him]
        simp only [imbalance] at him
        rw [hsrl, hsrr] at him
        cases rl with
        | leaf w =>
            exfalso
            simp only [realHeight] at him hd
            omega
        | node ca cb ch cl cr =>
            obtain ⟨hch, hwcl, hwcr⟩ := hwrl
            obtain ⟨hbalc, hbcl, hbcr⟩ := hbrl
            have hbalc' := abs_le.mp hbalc
            have hscl := height_eq_real hwcl
            have hscr := height_eq_real hwcr
            simp only [realHeight_node] at hd him hbalc' ⊢
            simp only [rotate_ll, rotate_rr, update_height, height_node]
            rw [hsrr, hscl, hscr, hsl]
            refine ⟨?_, ?_, ?_⟩
            · refine ⟨?_, ⟨?_, hwl, hwcl⟩, ⟨?_, hwcr, hwrr⟩⟩ <;>
                simp only [realHeight_node] <;> omega
            · simp only [balanced, realHeight_node, abs_le]
              refine ⟨⟨?_, ?_⟩, ⟨⟨?_, ?_⟩, hbl, hbcl⟩, ⟨⟨?_, ?_⟩, hbcr, hbrr⟩⟩ <;> omega
            · simp only [realHeight_node]
              omega
      · rw [if_neg him]
        simp only [imbalance] at him
        rw [hsrl, hsrr] at him
        simp only [realHeight_node] at hd ⊢
        simp only [rotate_rr, update_height, height_node]
        rw [hsrl, hsrr, hsl]
        refine ⟨?_, ?_, ?_⟩
        · refine ⟨?_, ⟨?_, hwl, hwrl⟩, hwrr⟩ <;>
            simp only [realHeight_node] <;> omega
        · simp only [balanced, realHeight_node, abs_le]
          refine ⟨⟨?_, ?_⟩, ⟨⟨?_, ?_⟩, hbl, hbrl⟩, hbrr⟩ <;> omega
        · simp only [realHeight_node]
          omega

theorem stepOnce_flat {a b : α} {h : ℕ} {l r : VDT α}
    (hwl : wfH l) (hwr : wfH r)
    (hd : |(realHeight l : ℤ) - realHeight r| ≤ 1) :
    stepOnce (.node a b h l r) =
      (.node a b (1 + max (realHeight l) (realHeight r)) l r, false) := by
  have hd' := abs_le.mp hd
  have hsl := height_eq_real hwl
  have hsr := height_eq_real hwr
  rw [stepOnce]
  rw [if_neg (by simp only [imbalance, height_node]; rw [hsl, hsr]; omega),
    if_neg (by simp only [imbalance, height_node]; rw [hsl, hsr]; omega)]
  simp only [update_height, height_node]
  rw [hsl, hsr]

theorem stepFix_flat {a b : α} {h : ℕ} {l r : VDT α}
    (hwl : wfH l) (hwr : wfH r)
    (hd : |(realHeight l : ℤ) - realHeight r| ≤ 1) :
    stepFix (.node a b h l r) =
      .node a b (1 + max (realHeight l) (realHeight r)) l r := by
  simp [stepFix, stepOnce_flat hwl hwr hd]

theorem stepFix_left2 {a b : α} {h : ℕ} {l r : VDT α}
    (hwl : wfH l) (hwr : wfH r) (hbl : balanced l) (hbr : balanced r)
    (hd : realHeight l = realHeight r + 2) :
    wfH (stepFix (.node a b h l r)) ∧ balanced (stepFix (.node a b h l r)) ∧
      (realHeight (stepFix (.node a b h l r)) = realHeight l ∨
        realHeight (stepFix (.node a b h l r)) = realHeight l + 1) := by
  obtain ⟨hw1, hb1, hh1⟩ := stepOnce_left2 (a := a) (b := b) (h := h) hwl hwr hbl hbr hd
  have hcond : imbalance (VDT.node a b h l r) = 2 := by
    simp only [imbalance, height_node]
    rw [height_eq_real hwl, height_eq_real hwr]
    omega
  have hflag : (stepOnce (VDT.node a b h l r)).2 = true := by
    rw [stepOnce, if_pos hcond]
  have hfix : stepFix (VDT.node a b h l r) =
      (stepOnce (stepOnce (VDT.node a b h l r)).1).1 := by
    simp [stepFix, hflag]
  rw [hfix, stepOnce_id hw1 hb1]
  exact ⟨hw1, hb1, hh1⟩

theorem stepFix_right2 {a b : α} {h : ℕ} {l r : VDT α}
    (hwl : wfH l) (hwr : wfH r) (hbl : balanced l) (hbr : balanced r)
    (hd : realHeight r = realHeight l + 2) :
    wfH (stepFix (.node a b h l r)) ∧ balanced (stepFix (.node a b h l r)) ∧
      (realHeight (stepFix (.node a b h l r)) = realHeight r ∨
        realHeight (stepFix (.node a b h l r)) = realHeight r + 1) := by
  obtain ⟨hw1, hb1, hh1⟩ := stepOnce_right2 (a := a) (b := b) (h := h) hwl hwr hbl hbr hd
  have hcond2 : imbalance (VDT.node a b h l r) = -2 := by
    simp only [imbalance, height_node]
    rw [height_eq_real hwl, height_eq_real hwr]
    omega
  have hflag : (stepOnce (VDT.node a b h l r)).2 = true := by
    rw [stepOnce, if_neg (by rw [hcond2]; omega), if_pos hcond2]
  have hfix : stepFix (VDT.node a b h l r) =
      (stepOnce (stepOnce (VDT.node a b h l r)).1).1 := by
    simp [stepFix, hflag]
  rw [hfix, stepOnce_id hw1 hb1]
  exact ⟨hw1, hb1, hh1⟩

end AVL

/-- C5: the key of a circle event is `(center.x, center.y + radius)`, and
in `_add_circle_event`, when the middle leaf already references an old
circle event, the new event is adopted — arena updated with the old event
deactivated, leaf reference moved to the new event, new event pushed onto
the queue — if and only if the new key's `y` is strictly below the old
key's `y`; otherwise the state is returned unchanged (the old event is
kept and the new one is discarded without being enqueued). -/
theorem claim_C5 (st : Events.EvState) (circle : Events.CircleEvent) (i : ℕ)
    (old : Events.CircleEvent) (href : st.nodeCircle = some i)
    (hold : st.events.get? i = some old) :
    (circle.point = ⟨circle.center.x, circle.center.y + circle.radius⟩) ∧
    (circle.point.y < old.point.y →
      (Events.add_circle_event st circle).events =
        Events.deactivateAt st.events i ++ [circle] ∧
      ((Events.add_circle_event st circle).events.get? i) =
        some ⟨old.center, old.radius, false⟩ ∧
      (Events.add_circle_event st circle).nodeCircle = some st.events.length ∧
      (Events.add_circle_event st circle).queue =
        PyHeap.heappush (Events.evLtB (Events.deactivateAt st.events i ++ [circle]))
          st.queue st.events.length) ∧
    (¬ circle.point.y < old.point.y → Events.add_circle_event st circle = st) := by
  obtain ⟨es, q, nc⟩ := st
  simp only at href hold
  subst href
  have hlen : i < es.length := (List.get?_eq_some.mp hold).1
  refine ⟨rfl, ?_, ?_⟩
  · intro hlt
    have hres : Events.add_circle_event ⟨es, q, some i⟩ circle =
        ⟨Events.deactivateAt es i ++ [circle],
          PyHeap.heappush (Events.evLtB (Events.deactivateAt es i ++ [circle])) q
            (Events.deactivateAt es i).length,
          some (Events.deactivateAt es i).length⟩ := by
      simp only [Events.add_circle_event, hold, Option.getD_some]
      rw [if_pos hlt]
    rw [hres, Events.deactivateAt_length]
    refine ⟨rfl, ?_, rfl, rfl⟩
    have hi : i < (Events.deactivateAt es i).length := by
      rw [Events.deactivateAt_length]; exact hlen
    rw [List.get?_append hi]
    exact Events.deactivateAt_get es i hold
  · intro hnlt
    simp only [Events.add_circle_event, hold, Option.getD_some]
    rw [if_neg hnlt]

/-- Witness for C5 at a concrete input: an arena with one old event of
key `y = 1` and a new event of key `y = -1`. -/
theorem claim_C5_witness :
    ((⟨[⟨⟨0, 0⟩, 1, true⟩], [0], some 0⟩ : Events.EvState).nodeCircle = some 0 ∧
      (⟨[⟨⟨0, 0⟩, 1, true⟩], [0], some 0⟩ : Events.EvState).events.get? 0 =
        some ⟨⟨0, 0⟩, 1, true⟩) ∧
    (((⟨⟨5, -2⟩, 1, true⟩ : Events.CircleEvent).point =
        ⟨(⟨⟨5, -2⟩, 1, true⟩ : Events.CircleEvent).center.x,
          (⟨⟨5, -2⟩, 1, true⟩ : Events.CircleEvent).center.y +
            (⟨⟨5, -2⟩, 1, true⟩ : Events.CircleEvent).radius⟩) ∧
    ((⟨⟨5, -2⟩, 1, true⟩ : Events.CircleEvent).point.y <
        (⟨⟨0, 0⟩, 1, true⟩ : Events.CircleEvent).point.y →
      (Events.add_circle_event ⟨[⟨⟨0, 0⟩, 1, true⟩], [0], some 0⟩
          ⟨⟨5, -2⟩, 1, true⟩).events =
        Events.deactivateAt [⟨⟨0, 0⟩, 1, true⟩] 0 ++ [⟨⟨5, -2⟩, 1, true⟩] ∧
      ((Events.add_circle_event ⟨[⟨⟨0, 0⟩, 1, true⟩], [0], some 0⟩
          ⟨⟨5, -2⟩, 1, true⟩).events.get? 0) =
        some ⟨(⟨⟨0, 0⟩, 1, true⟩ : Events.CircleEvent).center,
          (⟨⟨0, 0⟩, 1, true⟩ : Events.CircleEvent).radius, false⟩ ∧
      (Events.add_circle_event ⟨[⟨⟨0, 0⟩, 1, true⟩], [0], some 0⟩
          ⟨⟨5, -2⟩, 1, true⟩).nodeCircle = some 1 ∧
      (Events.add_circle_event ⟨[⟨⟨0, 0⟩, 1, true⟩], [0], some 0⟩
          ⟨⟨5, -2⟩, 1, true⟩).queue =
        PyHeap.heappush
          (Events.evLtB (Events.deactivateAt [⟨⟨0, 0⟩, 1, true⟩] 0 ++
            [⟨⟨5, -2⟩, 1, true⟩])) [0] 1) ∧
    (¬ (⟨⟨5, -2⟩, 1, true⟩ : Events.CircleEvent).point.y <
        (⟨⟨0, 0⟩, 1, true⟩ : Events.CircleEvent).point.y →
      Events.add_circle_event ⟨[⟨⟨0, 0⟩, 1, true⟩], [0], some 0⟩ ⟨⟨5, -2⟩, 1, true⟩ =
        ⟨[⟨⟨0, 0⟩, 1, true⟩], [0], some 0⟩)) :=
  ⟨⟨rfl, rfl⟩,
    claim_C5 ⟨[⟨⟨0, 0⟩, 1, true⟩], [0], some 0⟩ ⟨⟨5, -2⟩, 1, true⟩ 0
      ⟨⟨0, 0⟩, 1, true⟩ rfl rfl⟩

/-- C7: in the `run` loop, a popped site event whose point equals (both
coordinates exactly, `Point.__eq__`) the most recently handled site's
point is skipped — a duplicate warning is counted, the world (beachline
and DCEL) is untouched by the handler, `prev_site` keeps its value and
`_n_sites` is not incremented; any other popped site event is handled,
becomes the new `prev_site`, and increments `_n_sites` by one (also when
no site has been handled yet, `prev_site = None`). -/
theorem claim_C7 {σ : Type} (handler : Point2D → σ → σ) (st : Run.RunState σ)
    (p : Point2D) :
    (∀ q, st.prevSite = some q → q.x = p.x ∧ q.y = p.y →
      Run.runSiteStep handler st p = ⟨st.world, st.prevSite, st.nSites, st.warnings + 1⟩) ∧
    (∀ q, st.prevSite = some q → ¬ (q.x = p.x ∧ q.y = p.y) →
      Run.runSiteStep handler st p =
        ⟨handler p st.world, some p, st.nSites + 1, st.warnings⟩) ∧
    (st.prevSite = none →
      Run.runSiteStep handler st p =
        ⟨handler p st.world, some p, st.nSites + 1, st.warnings⟩) := by
  obtain ⟨w, ps, ns, wa⟩ := st
  refine ⟨?_, ?_, ?_⟩
  · intro q hq heq
    simp only at hq
    subst hq
    simp only [Run.runSiteStep]
    rw [if_pos heq]
  · intro q hq hne
    simp only at hq
    subst hq
    simp only [Run.runSiteStep]
    rw [if_neg hne]
  · intro hq
    simp only at hq
    subst hq
    rfl

/-- Witness for C7 at a concrete input: a state that has just handled the
site `(1, 2)` popping the same site again — skipped with one warning. -/
theorem claim_C7_witness :
    ((∀ q, (⟨0, some ⟨1, 2⟩, 5, 0⟩ : Run.RunState ℕ).prevSite = some q →
        q.x = (⟨1, 2⟩ : Point2D).x ∧ q.y = (⟨1, 2⟩ : Point2D).y →
      Run.runSiteStep (fun _ n => n + 1) ⟨0, some ⟨1, 2⟩, 5, 0⟩ ⟨1, 2⟩ =
        ⟨0, some ⟨1, 2⟩, 5, 0 + 1⟩) ∧
    (∀ q, (⟨0, some ⟨1, 2⟩, 5, 0⟩ : Run.RunState ℕ).prevSite = some q →
        ¬ (q.x = (⟨1, 2⟩ : Point2D).x ∧ q.y = (⟨1, 2⟩ : Point2D).y) →
      Run.runSiteStep (fun _ n => n + 1) ⟨0, some ⟨1, 2⟩, 5, 0⟩ ⟨1, 2⟩ =
        ⟨0 + 1, some ⟨1, 2⟩, 5 + 1, 0⟩) ∧
    ((⟨0, some ⟨1, 2⟩, 5, 0⟩ : Run.RunState ℕ).prevSite = none →
      Run.runSiteStep (fun _ n => n + 1) ⟨0, some ⟨1, 2⟩, 5, 0⟩ ⟨1, 2⟩ =
        ⟨0 + 1, some ⟨1, 2⟩, 5 + 1, 0⟩)) ∧
    Run.runSiteStep (fun _ n => n + 1) (⟨0, some ⟨1, 2⟩, 5, 0⟩ : Run.RunState ℕ) ⟨1, 2⟩ =
      ⟨0, some ⟨1, 2⟩, 5, 1⟩ :=
  ⟨claim_C7 (fun _ n => n + 1) ⟨0, some ⟨1, 2⟩, 5, 0⟩ ⟨1, 2⟩,
    (claim_C7 (fun _ n => n + 1) ⟨0, some ⟨1, 2⟩, 5, 0⟩ ⟨1, 2⟩).1 ⟨1, 2⟩ rfl ⟨rfl, rfl⟩⟩

/-- C8: `create_edge(src, dest)` with source and destination the
identical vertex (same arena index — Python `src is dest`) returns
`None` before any mutation: the half-edge list, the vertex arena (so no
`edge` back-pointer), and the shortest/longest edge-length statistics
are all unchanged.  The `contains(src)` assertion precondition is the
hypothesis. -/
theorem claim_C8 (st : DCEL.DCELState) (src : ℕ)
    (hc : BVH.containsT (DCEL.vertexPt st.vertices) st.tree src = true) :
    DCEL.create_edge st src src = (none, st) ∧
    (DCEL.create_edge st src src).2.edges = st.edges ∧
    (DCEL.create_edge st src src).2.vertices = st.vertices ∧
    (DCEL.create_edge st src src).2.shortest = st.shortest ∧
    (DCEL.create_edge st src src).2.longest = st.longest := by
  have h : DCEL.create_edge st src src = (none, st) := by
    rw [DCEL.create_edge, if_pos rfl]
  exact ⟨h, by rw [h], by rw [h], by rw [h], by rw [h]⟩

/-- Witness for C8 at a concrete input: a DCEL with one vertex `(0, 0)`
(in the vertex tree) and no edges, creating an edge from it to itself. -/
theorem claim_C8_witness :
    BVH.containsT
      (DCEL.vertexPt (⟨some (BVH.leaf 0), [⟨[0, 0], none⟩], [], ⊤, 0⟩ :
        DCEL.DCELState).vertices)
      (⟨some (BVH.leaf 0), [⟨[0, 0], none⟩], [], ⊤, 0⟩ : DCEL.DCELState).tree 0 = true ∧
    (DCEL.create_edge ⟨some (BVH.leaf 0), [⟨[0, 0], none⟩], [], ⊤, 0⟩ 0 0 =
      (none, ⟨some (BVH.leaf 0), [⟨[0, 0], none⟩], [], ⊤, 0⟩) ∧
    (DCEL.create_edge ⟨some (BVH.leaf 0), [⟨[0, 0], none⟩], [], ⊤, 0⟩ 0 0).2.edges =
      (⟨some (BVH.leaf 0), [⟨[0, 0], none⟩], [], ⊤, 0⟩ : DCEL.DCELState).edges ∧
    (DCEL.create_edge ⟨some (BVH.leaf 0), [⟨[0, 0], none⟩], [], ⊤, 0⟩ 0 0).2.vertices =
      (⟨some (BVH.leaf 0), [⟨[0, 0], none⟩], [], ⊤, 0⟩ : DCEL.DCELState).vertices ∧
    (DCEL.create_edge ⟨some (BVH.leaf 0), [⟨[0, 0], none⟩], [], ⊤, 0⟩ 0 0).2.shortest =
      (⟨some (BVH.leaf 0), [⟨[0, 0], none⟩], [], ⊤, 0⟩ : DCEL.DCELState).shortest ∧
    (DCEL.create_edge ⟨some (BVH.leaf 0), [⟨[0, 0], none⟩], [], ⊤, 0⟩ 0 0).2.longest =
      (⟨some (BVH.leaf 0), [⟨[0, 0], none⟩], [], ⊤, 0⟩ : DCEL.DCELState).longest) :=
  ⟨by decide, claim_C8 ⟨some (BVH.leaf 0), [⟨[0, 0], none⟩], [], ⊤, 0⟩ 0 (by decide)⟩

end VD

namespace VD
namespace AVL

variable {α : Type}

theorem rebalanceProper_nil (t : VDT α) : rebalanceProper t [] = t := by
  cases t <;> rfl

theorem upIns : ∀ {π : List Bool} {H : ℕ} {t : VDT α}, UI π H t →
    wfH (rebalanceProper t π) ∧ balanced (rebalanceProper t π) ∧
      (realHeight (rebalanceProper t π) = H ∨ realHeight (rebalanceProper t π) = H + 1) := by
  intro π H t hui
  induction hui with
  | nil hw hb hh => rw [rebalanceProper_nil]; exact ⟨hw, hb, hh⟩
  | @consF π Hl a b h tl r hui hwr hbr hub hlb ih =>
      obtain ⟨hw1, hb1, hh1⟩ := ih
      rw [show rebalanceProper (VDT.node a b h tl r) (false :: π) =
        stepFix (VDT.node a b h (rebalanceProper tl π) r) from rfl]
      by_cases h2 : realHeight (rebalanceProper tl π) = realHeight r + 2
      · obtain ⟨hw2, hb2, hh2⟩ := stepFix_left2 (a := a) (b := b) (h := h) hw1 hwr hb1 hbr h2
        refine ⟨hw2, hb2, ?_⟩
        omega
      · by_cases h3 : realHeight r = realHeight (rebalanceProper tl π) + 2
        · exfalso
          omega
        · have hflat : |(realHeight (rebalanceProper tl π) : ℤ) - realHeight r| ≤ 1 := by
            rw [abs_le]
            omega
          rw [stepFix_flat hw1 hwr hflat]
          refine ⟨⟨rfl, hw1, hwr⟩, ⟨hflat, hb1, hbr⟩, ?_⟩
          simp only [realHeight_node]
          omega
  | @consT π Hr a b h l tr hui hwl hbl hub hlb ih =>
      obtain ⟨hw1, hb1, hh1⟩ := ih
      rw [show rebalanceProper (VDT.node a b h l tr) (true :: π) =
        stepFix (VDT.node a b h l (rebalanceProper tr π)) from rfl]
      by_cases h2 : realHeight (rebalanceProper tr π) = realHeight l + 2
      · obtain ⟨hw2, hb2, hh2⟩ := stepFix_right2 (a := a) (b := b) (h := h) hwl hw1 hbl hb1 h2
        refine ⟨hw2, hb2, ?_⟩
        omega
      · by_cases h3 : realHeight l = realHeight (rebalanceProper tr π) + 2
        · exfalso
          omega
        · have hflat : |(realHeight l : ℤ) - realHeight (rebalanceProper tr π)| ≤ 1 := by
            rw [abs_le]
            omega
          rw [stepFix_flat hwl hw1 hflat]
          refine ⟨⟨rfl, hwl, hw1⟩, ⟨hflat, hbl, hb1⟩, ?_⟩
          simp only [realHeight_node]
          omega

theorem upDel : ∀ {π : List Bool} {H : ℕ} {t : VDT α}, DW π H t →
    wfH (rebalanceProper t π) ∧ balanced (rebalanceProper t π) ∧
      (realHeight (rebalanceProper t π) + 1 = H ∨ realHeight (rebalanceProper t π) = H) := by
  intro π H t hdw
  induction hdw with
  | nil hw hb hh => rw [rebalanceProper_nil]; exact ⟨hw, hb, hh⟩
  | @consF π Hl a b h tl r hdw hwr hbr hub hlb ih =>
      obtain ⟨hw1, hb1, hh1⟩ := ih
      rw [show rebalanceProper (VDT.node a b h tl r) (false :: π) =
        stepFix (VDT.node a b h (rebalanceProper tl π) r) from rfl]
      by_cases h2 : realHeight (rebalanceProper tl π) = realHeight r + 2
      · exfalso
        omega
      · by_cases h3 : realHeight r = realHeight (rebalanceProper tl π) + 2
        · obtain ⟨hw2, hb2, hh2⟩ := stepFix_right2 (a := a) (b := b) (h := h) hw1 hwr hb1 hbr h3
          refine ⟨hw2, hb2, ?_⟩
          omega
        · have hflat : |(realHeight (rebalanceProper tl π) : ℤ) - realHeight r| ≤ 1 := by
            rw [abs_le]
            omega
          rw [stepFix_flat hw1 hwr hflat]
          refine ⟨⟨rfl, hw1, hwr⟩, ⟨hflat, hb1, hbr⟩, ?_⟩
          simp only [realHeight_node]
          omega
  | @consT π Hr a b h l tr hdw hwl hbl hub hlb ih =>
      obtain ⟨hw1, hb1, hh1⟩ := ih
      rw [show rebalanceProper (VDT.node a b h l tr) (true :: π) =
        stepFix (VDT.node a b h l (rebalanceProper tr π)) from rfl]
      by_cases h2 : realHeight (rebalanceProper tr π) = realHeight l + 2
      · exfalso
        omega
      · by_cases h3 : realHeight l = realHeight (rebalanceProper tr π) + 2
        · obtain ⟨hw2, hb2, hh2⟩ := stepFix_left2 (a := a) (b := b) (h := h) hwl hw1 hbl hb1 h3
          refine ⟨hw2, hb2, ?_⟩
          omega
        · have hflat : |(realHeight l : ℤ) - realHeight (rebalanceProper tr π)| ≤ 1 := by
            rw [abs_le]
            omega
          rw [stepFix_flat hwl hw1 hflat]
          refine ⟨⟨rfl, hwl, hw1⟩, ⟨hflat, hbl, hb1⟩, ?_⟩
          simp only [realHeight_node]
          omega

end AVL

namespace AVL

theorem wfH_getAt : ∀ {t : VDT α} {π : List Bool} {u : VDT α},
    wfH t → getAt t π = some u → wfH u
  | t, [], u, hw, hg => by
      have : t = u := by simpa [getAt] using hg
      subst this
      exact hw
  | .node a b h l r, false :: π, u, hw, hg => wfH_getAt hw.2.1 (by simpa [getAt] using hg)
  | .node a b h l r, true :: π, u, hw, hg => wfH_getAt hw.2.2 (by simpa [getAt] using hg)
  | .leaf v, _ :: _, u, hw, hg => by simp [getAt] at hg

theorem balanced_getAt : ∀ {t : VDT α} {π : List Bool} {u : VDT α},
    balanced t → getAt t π = some u → balanced u
  | t, [], u, hb, hg => by
      have : t = u := by simpa [getAt] using hg
      subst this
      exact hb
  | .node a b h l r, false :: π, u, hb, hg =>
      balanced_getAt hb.2.1 (by simpa [getAt] using hg)
  | .node a b h l r, true :: π, u, hb, hg =>
      balanced_getAt hb.2.2 (by simpa [getAt] using hg)
  | .leaf v, _ :: _, u, hb, hg => by simp [getAt] at hg

theorem getAt_nil (t : VDT α) : getAt t [] = some t := by cases t <;> rfl

theorem replaceAt_nil (t S : VDT α) : replaceAt t [] S = S := by cases t <;> rfl

theorem getAt_replaceAt : ∀ (π : List Bool) {t : VDT α} {u : VDT α} (S : VDT α),
    getAt t π = some u → getAt (replaceAt t π S) π = some S
  | [], t, u, S, hg => by rw [replaceAt_nil, getAt_nil]
  | false :: π, .node a b h l r, u, S, hg =>
      getAt_replaceAt π S (by simpa [getAt] using hg)
  | true :: π, .node a b h l r, u, S, hg =>
      getAt_replaceAt π S (by simpa [getAt] using hg)
  | _ :: _, .leaf v, u, S, hg => by simp [getAt] at hg

theorem replaceAt_replaceAt : ∀ (π : List Bool) {t : VDT α} (S1 S2 : VDT α),
    replaceAt (replaceAt t π S1) π S2 = replaceAt t π S2
  | [], t, S1, S2 => by rw [replaceAt_nil, replaceAt_nil]
  | false :: π, .node a b h l r, S1, S2 => by
      rw [show replaceAt (VDT.node a b h l r) (false :: π) S1 =
        VDT.node a b h (replaceAt l π S1) r from rfl]
      rw [show replaceAt (VDT.node a b h (replaceAt l π S1) r) (false :: π) S2 =
        VDT.node a b h (replaceAt (replaceAt l π S1) π S2) r from rfl]
      rw [show replaceAt (VDT.node a b h l r) (false :: π) S2 =
        VDT.node a b h (replaceAt l π S2) r from rfl]
      rw [replaceAt_replaceAt π S1 S2]
  | true :: π, .node a b h l r, S1, S2 => by
      rw [show replaceAt (VDT.node a b h l r) (true :: π) S1 =
        VDT.node a b h l (replaceAt r π S1) from rfl]
      rw [show replaceAt (VDT.node a b h l (replaceAt r π S1)) (true :: π) S2 =
        VDT.node a b h l (replaceAt (replaceAt r π S1) π S2) from rfl]
      rw [show replaceAt (VDT.node a b h l r) (true :: π) S2 =
        VDT.node a b h l (replaceAt r π S2) from rfl]
      rw [replaceAt_replaceAt π S1 S2]
  | _ :: _, .leaf v, S1, S2 => rfl

theorem replaceAt_self : ∀ (π : List Bool) {t : VDT α} {u : VDT α},
    getAt t π = some u → replaceAt t π u = t
  | [], t, u, hg => by
      have : t = u := by rw [getAt_nil] at hg; exact (Option.some.inj hg)
      rw [replaceAt_nil, this]
  | false :: π, .node a b h l r, u, hg => by
      rw [show replaceAt (VDT.node a b h l r) (false :: π) u =
        VDT.node a b h (replaceAt l π u) r from rfl]
      rw [replaceAt_self π (by simpa [getAt] using hg)]
  | true :: π, .node a b h l r, u, hg => by
      rw [show replaceAt (VDT.node a b h l r) (true :: π) u =
        VDT.node a b h l (replaceAt r π u) from rfl]
      rw [replaceAt_self π (by simpa [getAt] using hg)]
  | _ :: _, .leaf v, u, hg => by simp [getAt] at hg

theorem replaceAt_append : ∀ (π1 : List Bool) {π2 : List Bool} {t : VDT α} {u : VDT α}
    (S : VDT α), getAt t π1 = some u →
    replaceAt t (π1 ++ π2) S = replaceAt t π1 (replaceAt u π2 S)
  | [], π2, t, u, S, hg => by
      have : t = u := by rw [getAt_nil] at hg; exact (Option.some.inj hg)
      subst this
      rw [List.nil_append, replaceAt_nil]
  | false :: π1, π2, .node a b h l r, u, S, hg => by
      rw [List.cons_append]
      rw [show replaceAt (VDT.node a b h l r) (false :: (π1 ++ π2)) S =
        VDT.node a b h (replaceAt l (π1 ++ π2) S) r from rfl]
      rw [show replaceAt (VDT.node a b h l r) (false :: π1) (replaceAt u π2 S) =
        VDT.node a b h (replaceAt l π1 (replaceAt u π2 S)) r from rfl]
      rw [replaceAt_append π1 S (by simpa [getAt] using hg)]
  | true :: π1, π2, .node a b h l r, u, S, hg => by
      rw [List.cons_append]
      rw [show replaceAt (VDT.node a b h l r) (true :: (π1 ++ π2)) S =
        VDT.node a b h l (replaceAt r (π1 ++ π2) S) from rfl]
      rw [show replaceAt (VDT.node a b h l r) (true :: π1) (replaceAt u π2 S) =
        VDT.node a b h l (replaceAt r π1 (replaceAt u π2 S)) from rfl]
      rw [replaceAt_append π1 S (by simpa [getAt] using hg)]
  | _ :: _, π2, .leaf v, u, S, hg => by simp [getAt] at hg

theorem rebalancePath_append : ∀ (π1 : List Bool) {π2 : List Bool} {t : VDT α} {s : VDT α},
    getAt t π1 = some s →
    rebalancePath t (π1 ++ π2) =
      rebalanceProper (replaceAt t π1 (rebalancePath s π2)) π1
  | [], π2, t, s, hg => by
      have : t = s := by rw [getAt_nil] at hg; exact (Option.some.inj hg)
      subst this
      rw [List.nil_append, replaceAt_nil, rebalanceProper_nil]
  | false :: π1, π2, .node a b h l r, s, hg => by
      rw [List.cons_append]
      rw [show rebalancePath (VDT.node a b h l r) (false :: (π1 ++ π2)) =
        stepFix (VDT.node a b h (rebalancePath l (π1 ++ π2)) r) from rfl]
      rw [show replaceAt (VDT.node a b h l r) (false :: π1) (rebalancePath s π2) =
        VDT.node a b h (replaceAt l π1 (rebalancePath s π2)) r from rfl]
      rw [show rebalanceProper
          (VDT.node a b h (replaceAt l π1 (rebalancePath s π2)) r) (false :: π1) =
        stepFix (VDT.node a b h
          (rebalanceProper (replaceAt l π1 (rebalancePath s π2)) π1) r) from rfl]
      rw [rebalancePath_append π1 (by simpa [getAt] using hg)]
  | true :: π1, π2, .node a b h l r, s, hg => by
      rw [List.cons_append]
      rw [show rebalancePath (VDT.node a b h l r) (true :: (π1 ++ π2)) =
        stepFix (VDT.node a b h l (rebalancePath r (π1 ++ π2))) from rfl]
      rw [show replaceAt (VDT.node a b h l r) (true :: π1) (rebalancePath s π2) =
        VDT.node a b h l (replaceAt r π1 (rebalancePath s π2)) from rfl]
      rw [show rebalanceProper
          (VDT.node a b h l (replaceAt r π1 (rebalancePath s π2))) (true :: π1) =
        stepFix (VDT.node a b h l
          (rebalanceProper (replaceAt r π1 (rebalancePath s π2)) π1)) from rfl]
      rw [rebalancePath_append π1 (by simpa [getAt] using hg)]
  | _ :: _, π2, .leaf v, s, hg => by simp [getAt] at hg

theorem rebalanceProper_eq_dropLast : ∀ (d : Bool) (π : List Bool) (t : VDT α),
    rebalanceProper t (d :: π) = rebalancePath t ((d :: π).dropLast)
  | d, [], t => by
      cases t <;> cases d <;>
        simp [rebalanceProper, rebalancePath, rebalanceProper_nil,
          rebalancePath_nil, stepFix, stepOnce]
  | d, d2 :: π, .leaf v => by cases d <;> rfl
  | false, d2 :: π, .node a b h l r => by
      rw [show (false :: d2 :: π).dropLast = false :: (d2 :: π).dropLast by simp]
      rw [show rebalanceProper (VDT.node a b h l r) (false :: d2 :: π) =
        stepFix (VDT.node a b h (rebalanceProper l (d2 :: π)) r) from rfl]
      rw [show rebalancePath (VDT.node a b h l r) (false :: (d2 :: π).dropLast) =
        stepFix (VDT.node a b h (rebalancePath l ((d2 :: π).dropLast)) r) from rfl]
      rw [rebalanceProper_eq_dropLast d2 π l]
  | true, d2 :: π, .node a b h l r => by
      rw [show (true :: d2 :: π).dropLast = true :: (d2 :: π).dropLast by simp]
      rw [show rebalanceProper (VDT.node a b h l r) (true :: d2 :: π) =
        stepFix (VDT.node a b h l (rebalanceProper r (d2 :: π))) from rfl]
      rw [show rebalancePath (VDT.node a b h l r) (true :: (d2 :: π).dropLast) =
        stepFix (VDT.node a b h l (rebalancePath r ((d2 :: π).dropLast))) from rfl]
      rw [rebalanceProper_eq_dropLast d2 π r]

theorem UI_of_replace : ∀ (p : List Bool) {T : VDT α} (S : VDT α) {u : VDT α},
    wfH T → balanced T → getAt T p = some u →
    wfH S → balanced S →
    (realHeight S = realHeight u ∨ realHeight S = realHeight u + 1) →
    UI p (realHeight T) (replaceAt T p S)
  | [], T, S, u, hwT, hbT, hg, hwS, hbS, hh => by
      have : T = u := by rw [getAt_nil] at hg; exact (Option.some.inj hg)
      subst this
      rw [replaceAt_nil]
      exact UI.nil hwS hbS hh
  | false :: p, .node a b h l r, S, u, hwT, hbT, hg, hwS, hbS, hh => by
      have hui := UI_of_replace p S (u := u) hwT.2.1 hbT.2.1
        (by simpa [getAt] using hg) hwS hbS hh
      have hbal := abs_le.mp hbT.1
      rw [show replaceAt (VDT.node a b h l r) (false :: p) S =
        VDT.node a b h (replaceAt l p S) r from rfl]
      rw [show realHeight (VDT.node a b h l r) =
        1 + max (realHeight l) (realHeight r) from rfl]
      exact UI.consF hui hwT.2.2 hbT.2.2 (by omega) (by omega)
  | true :: p, .node a b h l r, S, u, hwT, hbT, hg, hwS, hbS, hh => by
      have hui := UI_of_replace p S (u := u) hwT.2.2 hbT.2.2
        (by simpa [getAt] using hg) hwS hbS hh
      have hbal := abs_le.mp hbT.1
      rw [show replaceAt (VDT.node a b h l r) (true :: p) S =
        VDT.node a b h l (replaceAt r p S) from rfl]
      rw [show realHeight (VDT.node a b h l r) =
        1 + max (realHeight l) (realHeight r) from rfl]
      exact UI.consT hui hwT.2.1 hbT.2.1 (by omega) (by omega)
  | _ :: _, .leaf v, S, u, _, _, hg, _, _, _ => by simp [getAt] at hg

theorem DW_of_replace : ∀ (p : List Bool) {T : VDT α} (S : VDT α) {u : VDT α},
    wfH T → balanced T → getAt T p = some u →
    wfH S → balanced S →
    (realHeight S + 1 = realHeight u ∨ realHeight S = realHeight u) →
    DW p (realHeight T) (replaceAt T p S)
  | [], T, S, u, hwT, hbT, hg, hwS, hbS, hh => by
      have : T = u := by rw [getAt_nil] at hg; exact (Option.some.inj hg)
      subst this
      rw [replaceAt_nil]
      exact DW.nil hwS hbS hh
  | false :: p, .node a b h l r, S, u, hwT, hbT, hg, hwS, hbS, hh => by
      have hdw := DW_of_replace p S (u := u) hwT.2.1 hbT.2.1
        (by simpa [getAt] using hg) hwS hbS hh
      have hbal := abs_le.mp hbT.1
      rw [show replaceAt (VDT.node a b h l r) (false :: p) S =
        VDT.node a b h (replaceAt l p S) r from rfl]
      rw [show realHeight (VDT.node a b h l r) =
        1 + max (realHeight l) (realHeight r) from rfl]
      exact DW.consF hdw hwT.2.2 hbT.2.2 (by omega) (by omega)
  | true :: p, .node a b h l r, S, u, hwT, hbT, hg, hwS, hbS, hh => by
      have hdw := DW_of_replace p S (u := u) hwT.2.2 hbT.2.2
        (by simpa [getAt] using hg) hwS hbS hh
      have hbal := abs_le.mp hbT.1
      rw [show replaceAt (VDT.node a b h l r) (true :: p) S =
        VDT.node a b h l (replaceAt r p S) from rfl]
      rw [show realHeight (VDT.node a b h l r) =
        1 + max (realHeight l) (realHeight r) from rfl]
      exact DW.consT hdw hwT.2.1 hbT.2.1 (by omega) (by omega)
  | _ :: _, .leaf v, S, u, _, _, hg, _, _, _ => by simp [getAt] at hg

end AVL

namespace AVL

theorem DW_setNode : ∀ {π : List Bool} {H : ℕ} {t : VDT α} (ρ : List Bool)
    (v1 v2 : α) (h' : ℕ), DW π H t → ρ <+: π → ρ ≠ π →
    DW π H (setNodeAt t ρ v1 v2 h') := by
  intro π H t ρ v1 v2 h' hdw
  induction hdw generalizing ρ with
  | nil hw hb hh =>
      intro hpre hne
      exact absurd (List.prefix_nil.mp hpre) hne
  | @consF π Hl a b h tl r hdw hwr hbr hub hlb ih =>
      intro hpre hne
      cases ρ with
      | nil =>
          rw [show setNodeAt (VDT.node a b h tl r) [] v1 v2 h' =
            VDT.node v1 v2 h' tl r from rfl]
          exact DW.consF hdw hwr hbr hub hlb
      | cons d ρ' =>
          obtain ⟨hd, hpre'⟩ := List.cons_prefix_cons.mp hpre
          subst hd
          rw [show setNodeAt (VDT.node a b h tl r) (false :: ρ') v1 v2 h' =
            VDT.node a b h (setNodeAt tl ρ' v1 v2 h') r from rfl]
          exact DW.consF (ih ρ' hpre' (by intro he; exact hne (by rw [he])))
            hwr hbr hub hlb
  | @consT π Hr a b h l tr hdw hwl hbl hub hlb ih =>
      intro hpre hne
      cases ρ with
      | nil =>
          rw [show setNodeAt (VDT.node a b h l tr) [] v1 v2 h' =
            VDT.node v1 v2 h' l tr from rfl]
          exact DW.consT hdw hwl hbl hub hlb
      | cons d ρ' =>
          obtain ⟨hd, hpre'⟩ := List.cons_prefix_cons.mp hpre
          subst hd
          rw [show setNodeAt (VDT.node a b h l tr) (true :: ρ') v1 v2 h' =
            VDT.node a b h l (setNodeAt tr ρ' v1 v2 h') from rfl]
          exact DW.consT (ih ρ' hpre' (by intro he; exact hne (by rw [he])))
            hwl hbl hub hlb

theorem getAt_setNodeAt : ∀ (ρ : List Bool) (d : Bool) (σ : List Bool) {t : VDT α}
    (v1 v2 : α) (h' : ℕ),
    getAt (setNodeAt t ρ v1 v2 h') (ρ ++ d :: σ) = getAt t (ρ ++ d :: σ)
  | [], d, σ, t, v1, v2, h' => by
      cases t with
      | leaf v => rfl
      | node a b h l r => cases d <;> rfl
  | d0 :: ρ, d, σ, t, v1, v2, h' => by
      cases t with
      | leaf v => cases d0 <;> rfl
      | node a b h l r =>
          cases d0
          · rw [show setNodeAt (VDT.node a b h l r) (false :: ρ) v1 v2 h' =
              VDT.node a b h (setNodeAt l ρ v1 v2 h') r from rfl]
            rw [show ((false :: ρ) ++ d :: σ) = false :: (ρ ++ d :: σ) from rfl]
            rw [show getAt (VDT.node a b h (setNodeAt l ρ v1 v2 h') r)
              (false :: (ρ ++ d :: σ)) = getAt (setNodeAt l ρ v1 v2 h')
              (ρ ++ d :: σ) from rfl]
            rw [show getAt (VDT.node a b h l r) (false :: (ρ ++ d :: σ)) =
              getAt l (ρ ++ d :: σ) from rfl]
            exact getAt_setNodeAt ρ d σ v1 v2 h'
          · rw [show setNodeAt (VDT.node a b h l r) (true :: ρ) v1 v2 h' =
              VDT.node a b h l (setNodeAt r ρ v1 v2 h') from rfl]
            rw [show ((true :: ρ) ++ d :: σ) = true :: (ρ ++ d :: σ) from rfl]
            rw [show getAt (VDT.node a b h l (setNodeAt r ρ v1 v2 h'))
              (true :: (ρ ++ d :: σ)) = getAt (setNodeAt r ρ v1 v2 h')
              (ρ ++ d :: σ) from rfl]
            rw [show getAt (VDT.node a b h l r) (true :: (ρ ++ d :: σ)) =
              getAt r (ρ ++ d :: σ) from rfl]
            exact getAt_setNodeAt ρ d σ v1 v2 h'

end AVL

namespace AVL

theorem realHeight_eq_zero : ∀ {t : VDT α}, realHeight t = 0 → ∃ v, t = VDT.leaf v
  | .leaf v, _ => ⟨v, rfl⟩
  | .node a b h l r, hr => by simp [realHeight] at hr

theorem stepFix_colGadget (pj x : α) :
    stepFix (VDT.node pj x 0 (VDT.leaf pj) (VDT.leaf x)) =
      VDT.node pj x 1 (VDT.leaf pj) (VDT.leaf x) := rfl

theorem stepFix_gadgetL {pi pj a2 b2 : α} {h2 : ℕ} {r2 : VDT α}
    (hwr : wfH r2) (hbr : balanced r2) (hr2 : realHeight r2 ≤ 1) :
    wfH (stepFix (VDT.node a2 b2 h2
        (VDT.node pi pj 2 (VDT.node pj pi 1 (VDT.leaf pj) (VDT.leaf pi)) (VDT.leaf pj))
        r2)) ∧
    balanced (stepFix (VDT.node a2 b2 h2
        (VDT.node pi pj 2 (VDT.node pj pi 1 (VDT.leaf pj) (VDT.leaf pi)) (VDT.leaf pj))
        r2)) ∧
    realHeight (stepFix (VDT.node a2 b2 h2
        (VDT.node pi pj 2 (VDT.node pj pi 1 (VDT.leaf pj) (VDT.leaf pi)) (VDT.leaf pj))
        r2)) = realHeight r2 + 2 := by
  interval_cases hr : realHeight r2
  · obtain ⟨w, rfl⟩ := realHeight_eq_zero hr
    refine ⟨?_, ?_, ?_⟩ <;>
      simp [stepFix, stepOnce, imbalance, height, rotate_ll, update_height, wfH,
        balanced, realHeight]
  · cases r2 with
    | leaf w => simp [realHeight] at hr
    | node rc rd rh2 rl2 rr2 =>
        simp only [realHeight_node] at hr
        have hl0 : realHeight rl2 = 0 := by omega
        have hr0 : realHeight rr2 = 0 := by omega
        obtain ⟨w1, rfl⟩ := realHeight_eq_zero hl0
        obtain ⟨w2, rfl⟩ := realHeight_eq_zero hr0
        obtain ⟨hrh2, -, -⟩ := hwr
        simp only [realHeight] at hrh2
        subst hrh2
        refine ⟨?_, ?_, ?_⟩ <;>
          simp [stepFix, stepOnce, imbalance, height, rotate_ll, update_height, wfH,
            balanced, realHeight]

theorem stepFix_gadgetR {pi pj a2 b2 : α} {h2 : ℕ} {l2 : VDT α}
    (hwl : wfH l2) (hbl : balanced l2) (hl2 : realHeight l2 ≤ 1) :
    wfH (stepFix (VDT.node a2 b2 h2 l2
        (VDT.node pi pj 2 (VDT.node pj pi 1 (VDT.leaf pj) (VDT.leaf pi)) (VDT.leaf pj)))) ∧
    balanced (stepFix (VDT.node a2 b2 h2 l2
        (VDT.node pi pj 2 (VDT.node pj pi 1 (VDT.leaf pj) (VDT.leaf pi)) (VDT.leaf pj)))) ∧
    realHeight (stepFix (VDT.node a2 b2 h2 l2
        (VDT.node pi pj 2 (VDT.node pj pi 1 (VDT.leaf pj) (VDT.leaf pi)) (VDT.leaf pj)))) =
      realHeight l2 + 2 := by
  interval_cases hl : realHeight l2
  · obtain ⟨w, rfl⟩ := realHeight_eq_zero hl
    refine ⟨?_, ?_, ?_⟩ <;>
      simp [stepFix, stepOnce, imbalance, height, rotate_rr, rotate_ll, update_height,
        wfH, balanced, realHeight]
  · cases l2 with
    | leaf w => simp [realHeight] at hl
    | node rc rd rh2 rl2 rr2 =>
        simp only [realHeight_node] at hl
        have h10 : realHeight rl2 = 0 := by omega
        have h20 : realHeight rr2 = 0 := by omega
        obtain ⟨w1, rfl⟩ := realHeight_eq_zero h10
        obtain ⟨w2, rfl⟩ := realHeight_eq_zero h20
        obtain ⟨hrh2, -, -⟩ := hwl
        simp only [realHeight] at hrh2
        subst hrh2
        refine ⟨?_, ?_, ?_⟩ <;>
          simp [stepFix, stepOnce, imbalance, height, rotate_rr, rotate_ll, update_height,
            wfH, balanced, realHeight]

end AVL

namespace AVL

theorem getAt_leaf_cons (v : α) (d : Bool) (π : List Bool) :
    getAt (VDT.leaf v : VDT α) (d :: π) = none := by cases d <;> rfl

theorem getAt_append : ∀ (π1 : List Bool) {π2 : List Bool} (t : VDT α),
    getAt t (π1 ++ π2) = (getAt t π1).bind (fun u => getAt u π2)
  | [], π2, t => by rw [getAt_nil, List.nil_append, Option.some_bind]
  | false :: π1, π2, .node a b h l r => by
      rw [show ((false :: π1) ++ π2) = false :: (π1 ++ π2) from rfl]
      rw [show getAt (VDT.node a b h l r) (false :: (π1 ++ π2)) =
        getAt l (π1 ++ π2) from rfl]
      rw [show getAt (VDT.node a b h l r) (false :: π1) = getAt l π1 from rfl]
      exact getAt_append π1 l
  | true :: π1, π2, .node a b h l r => by
      rw [show ((true :: π1) ++ π2) = true :: (π1 ++ π2) from rfl]
      rw [show getAt (VDT.node a b h l r) (true :: (π1 ++ π2)) =
        getAt r (π1 ++ π2) from rfl]
      rw [show getAt (VDT.node a b h l r) (true :: π1) = getAt r π1 from rfl]
      exact getAt_append π1 r
  | d :: π1, π2, .leaf v => by
      rw [show ((d :: π1) ++ π2) = d :: (π1 ++ π2) from rfl]
      rw [getAt_leaf_cons, getAt_leaf_cons, Option.none_bind]

theorem insert_colinear_spec {T : VDT α} (hw : wfH T) (hb : balanced T)
    (p : List Bool) (x : α) :
    wfH (insert_colinear T p x) ∧ balanced (insert_colinear T p x) := by
  cases hg : getAt T p with
  | none => simp only [insert_colinear, hg]; exact ⟨hw, hb⟩
  | some u =>
      cases u with
      | node a b h l r => simp only [insert_colinear, hg]; exact ⟨hw, hb⟩
      | leaf pj =>
          simp only [insert_colinear, hg]
          rw [rebalance, show (p ++ [true]).dropLast = p by simp]
          have hg' : getAt (replaceAt T p
              (VDT.node pj x 0 (VDT.leaf pj) (VDT.leaf x))) p =
              some (VDT.node pj x 0 (VDT.leaf pj) (VDT.leaf x)) :=
            getAt_replaceAt p _ hg
          have happ := @rebalancePath_append α p [] _ _ hg'
          rw [List.append_nil] at happ
          rw [happ, rebalancePath_nil, stepFix_colGadget,
            replaceAt_replaceAt]
          have hui := UI_of_replace p
            (VDT.node pj x 1 (VDT.leaf pj) (VDT.leaf x)) hw hb hg
            ⟨rfl, trivial, trivial⟩ ⟨by norm_num [realHeight], trivial, trivial⟩
            (Or.inr (by simp [realHeight]))
          obtain ⟨hw2, hb2, -⟩ := upIns hui
          exact ⟨hw2, hb2⟩

end AVL

namespace AVL

theorem rebalanceFive (pj x : α) :
    rebalancePath
      (VDT.node x pj 0 (VDT.node pj x 0 (VDT.leaf pj) (VDT.leaf x)) (VDT.leaf pj))
      [false] =
      VDT.node x pj 2 (VDT.node pj x 1 (VDT.leaf pj) (VDT.leaf x)) (VDT.leaf pj) := rfl

theorem insert_normal_spec {T : VDT α} (hw : wfH T) (hb : balanced T)
    (p : List Bool) (x : α) :
    wfH (insert_normal T p x) ∧ balanced (insert_normal T p x) := by
  cases hg : getAt T p with
  | none => simp only [insert_normal, hg]; exact ⟨hw, hb⟩
  | some u =>
      cases u with
      | node a b h l r => simp only [insert_normal, hg]; exact ⟨hw, hb⟩
      | leaf pj =>
          simp only [insert_normal, hg]
          rw [rebalance, show (p ++ [false, true]).dropLast = p ++ [false] by simp]
          rcases List.eq_nil_or_concat' p with rfl | ⟨p', d, rfl⟩
          · rw [getAt_nil] at hg
            obtain rfl := Option.some.inj hg
            rw [replaceAt_nil, List.nil_append, rebalanceFive]
            refine ⟨?_, ?_⟩ <;> norm_num [wfH, balanced, realHeight]
          · rw [getAt_append] at hg
            rw [show (p' ++ [d]) ++ [false] = p' ++ [d, false] by simp]
            cases hpar : getAt T p' with
            | none => rw [hpar, Option.none_bind] at hg; exact absurd hg (by simp)
            | some par =>
                rw [hpar, Option.some_bind] at hg
                cases par with
                | leaf w => rw [getAt_leaf_cons] at hg; exact absurd hg (by simp)
                | node a2 b2 h2 l2 r2 =>
                    have hwpar := wfH_getAt hw hpar
                    have hbpar := balanced_getAt hb hpar
                    cases d with
                    | false =>
                        rw [show getAt (VDT.node a2 b2 h2 l2 r2) [false] =
                          getAt l2 [] from rfl, getAt_nil] at hg
                        obtain rfl := Option.some.inj hg
                        rw [replaceAt_append p'
                          (VDT.node x pj 0
                            (VDT.node pj x 0 (VDT.leaf pj) (VDT.leaf x)) (VDT.leaf pj))
                          hpar]
                        rw [show replaceAt (VDT.node a2 b2 h2 (VDT.leaf pj) r2) [false]
                            (VDT.node x pj 0
                              (VDT.node pj x 0 (VDT.leaf pj) (VDT.leaf x)) (VDT.leaf pj)) =
                          VDT.node a2 b2 h2
                            (VDT.node x pj 0
                              (VDT.node pj x 0 (VDT.leaf pj) (VDT.leaf x)) (VDT.leaf pj)) r2
                          from rfl]
                        have hg2 : getAt (replaceAt T p'
                            (VDT.node a2 b2 h2
                              (VDT.node x pj 0
                                (VDT.node pj x 0 (VDT.leaf pj) (VDT.leaf x)) (VDT.leaf pj))
                              r2)) p' =
                            some (VDT.node a2 b2 h2
                              (VDT.node x pj 0
                                (VDT.node pj x 0 (VDT.leaf pj) (VDT.leaf x)) (VDT.leaf pj))
                              r2) :=
                          getAt_replaceAt p' _ hpar
                        have happ := @rebalancePath_append α p' [false, false] _ _ hg2
                        rw [happ, replaceAt_replaceAt]
                        rw [show rebalancePath
                            (VDT.node a2 b2 h2
                              (VDT.node x pj 0
                                (VDT.node pj x 0 (VDT.leaf pj) (VDT.leaf x)) (VDT.leaf pj))
                              r2) [false, false] =
                          stepFix (VDT.node a2 b2 h2
                            (rebalancePath
                              (VDT.node x pj 0
                                (VDT.node pj x 0 (VDT.leaf pj) (VDT.leaf x)) (VDT.leaf pj))
                              [false]) r2) from rfl]
                        rw [rebalanceFive]
                        have hr2le : realHeight r2 ≤ 1 := by
                          have := abs_le.mp hbpar.1
                          simp only [realHeight] at this
                          omega
                        obtain ⟨hwS, hbS, hhS⟩ :=
                          @stepFix_gadgetL α x pj a2 b2 h2 r2 hwpar.2.2 hbpar.2.2 hr2le
                        have hhpar : realHeight (stepFix (VDT.node a2 b2 h2
                            (VDT.node x pj 2
                              (VDT.node pj x 1 (VDT.leaf pj) (VDT.leaf x)) (VDT.leaf pj))
                            r2)) =
                            realHeight (VDT.node a2 b2 h2 (VDT.leaf pj) r2) + 1 := by
                          rw [realHeight_node]
                          simp only [realHeight]
                          omega
                        have hui := UI_of_replace p' _ hw hb hpar hwS hbS (Or.inr hhpar)
                        obtain ⟨hw2, hb2, -⟩ := upIns hui
                        exact ⟨hw2, hb2⟩
                    | true =>
                        rw [show getAt (VDT.node a2 b2 h2 l2 r2) [true] =
                          getAt r2 [] from rfl, getAt_nil] at hg
                        obtain rfl := Option.some.inj hg
                        rw [replaceAt_append p'
                          (VDT.node x pj 0
                            (VDT.node pj x 0 (VDT.leaf pj) (VDT.leaf x)) (VDT.leaf pj))
                          hpar]
                        rw [show replaceAt (VDT.node a2 b2 h2 l2 (VDT.leaf pj)) [true]
                            (VDT.node x pj 0
                              (VDT.node pj x 0 (VDT.leaf pj) (VDT.leaf x)) (VDT.leaf pj)) =
                          VDT.node a2 b2 h2 l2
                            (VDT.node x pj 0
                              (VDT.node pj x 0 (VDT.leaf pj) (VDT.leaf x)) (VDT.leaf pj))
                          from rfl]
                        have hg2 : getAt (replaceAt T p'
                            (VDT.node a2 b2 h2 l2
                              (VDT.node x pj 0
                                (VDT.node pj x 0 (VDT.leaf pj) (VDT.leaf x))
                                (VDT.leaf pj)))) p' =
                            some (VDT.node a2 b2 h2 l2
                              (VDT.node x pj 0
                                (VDT.node pj x 0 (VDT.leaf pj) (VDT.leaf x))
                                (VDT.leaf pj))) :=
                          getAt_replaceAt p' _ hpar
                        have happ := @rebalancePath_append α p' [true, false] _ _ hg2
                        rw [happ, replaceAt_replaceAt]
                        rw [show rebalancePath
                            (VDT.node a2 b2 h2 l2
                              (VDT.node x pj 0
                                (VDT.node pj x 0 (VDT.leaf pj) (VDT.leaf x))
                                (VDT.leaf pj))) [true, false] =
                          stepFix (VDT.node a2 b2 h2 l2
                            (rebalancePath
                              (VDT.node x pj 0
                                (VDT.node pj x 0 (VDT.leaf pj) (VDT.leaf x)) (VDT.leaf pj))
                              [false])) from rfl]
                        rw [rebalanceFive]
                        have hl2le : realHeight l2 ≤ 1 := by
                          have := abs_le.mp hbpar.1
                          simp only [realHeight] at this
                          omega
                        obtain ⟨hwS, hbS, hhS⟩ :=
                          @stepFix_gadgetR α x pj a2 b2 h2 l2 hwpar.2.1 hbpar.2.1 hl2le
                        have hhpar : realHeight (stepFix (VDT.node a2 b2 h2 l2
                            (VDT.node x pj 2
                              (VDT.node pj x 1 (VDT.leaf pj) (VDT.leaf x)) (VDT.leaf pj)))) =
                            realHeight (VDT.node a2 b2 h2 l2 (VDT.leaf pj)) + 1 := by
                          rw [realHeight_node]
                          simp only [realHeight]
                          omega
                        have hui := UI_of_replace p' _ hw hb hpar hwS hbS (Or.inr hhpar)
                        obtain ⟨hw2, hb2, -⟩ := upIns hui
                        exact ⟨hw2, hb2⟩

end AVL

namespace AVL

theorem stripF_pref (q : List Bool) : stripF q <+: q := by
  have h1 : q.reverse.dropWhile (fun b => !b) <:+ q.reverse := List.dropWhile_suffix _
  have h2 := List.reverse_prefix.mpr h1
  rwa [List.reverse_reverse] at h2

theorem stripT_pref (q : List Bool) : stripT q <+: q := by
  have h1 : q.reverse.dropWhile (fun b => b) <:+ q.reverse := List.dropWhile_suffix _
  have h2 := List.reverse_prefix.mpr h1
  rwa [List.reverse_reverse] at h2

theorem dropLast_strict_prefix {s q : List Bool} (hs : s ≠ []) (hpre : s <+: q) :
    s.dropLast <+: q ∧ s.dropLast ≠ q := by
  refine ⟨(List.dropLast_prefix s).trans hpre, ?_⟩
  intro he
  have h1 : s.dropLast.length = s.length - 1 := List.length_dropLast s
  have hlen : 0 < s.length := List.length_pos.mpr hs
  have h2 : s.length ≤ q.length := hpre.length_le
  rw [he] at h1
  omega

theorem getAt_setNodeAt_of_strict {t : VDT α} {ρ q : List Bool}
    (hpre : ρ <+: q) (hne : ρ ≠ q) (v1 v2 : α) (h' : ℕ) :
    getAt (setNodeAt t ρ v1 v2 h') q = getAt t q := by
  obtain ⟨rest, rfl⟩ := hpre
  cases rest with
  | nil => exact absurd (by simp) hne
  | cons d σ => exact getAt_setNodeAt ρ d σ v1 v2 h'

end AVL

namespace AVL


theorem delete_node_spec {T : VDT α} (hw : wfH T) (hb : balanced T)
    (p : List Bool) (v : α) (hp : getAt T p = some (VDT.leaf v)) :
    wfH (delete_node T p) ∧ balanced (delete_node T p) := by
  rcases List.eq_nil_or_concat' p with rfl | ⟨q, d, rfl⟩
  · have h0 : ([] : List Bool).getLast? = none := rfl
    simp only [delete_node, h0]
    exact ⟨hw, hb⟩
  · have hlast : (q ++ [d]).getLast? = some d := by simp
    have hdrop : (q ++ [d]).dropLast = q := by simp
    cases d with
    | false =>
        simp only [delete_node, hlast, hdrop]
        split
        · exact ⟨hw, hb⟩
        · rename_i hq
          split
          · rename_i R hR
            split
            · exact ⟨hw, hb⟩
            · rename_i hs0
              split
              · rename_i aL x1 x2 x3 x4 hA
                rw [getAt_append] at hp hR
                cases hpar : getAt T q with
                | none =>
                    rw [hpar, Option.none_bind] at hR
                    exact absurd hR (by simp)
                | some par =>
                    rw [hpar, Option.some_bind] at hp hR
                    cases par with
                    | leaf pw =>
                        rw [getAt_leaf_cons] at hR
                        exact absurd hR (by simp)
                    | node aq bq hq2 lq rq =>
                        rw [show getAt (VDT.node aq bq hq2 lq rq) [true] =
                          getAt rq [] from rfl, getAt_nil] at hR
                        obtain rfl := Option.some.inj hR
                        rw [show getAt (VDT.node aq bq hq2 lq rq) [false] =
                          getAt lq [] from rfl, getAt_nil] at hp
                        obtain rfl := Option.some.inj hp
                        have hwpar := wfH_getAt hw hpar
                        have hbpar := balanced_getAt hb hpar
                        have hwR : wfH rq := hwpar.2.2
                        have hbR : balanced rq := hbpar.2.2
                        have hdw0 : DW q (realHeight T) (replaceAt T q rq) :=
                          DW_of_replace q rq hw hb hpar hwR hbR
                            (Or.inl (by simp only [realHeight]; omega))
                        obtain ⟨hpre2, hne2⟩ :=
                          dropLast_strict_prefix hs0 (stripF_pref q)
                        have hdw : DW q (realHeight T)
                            (setNodeAt (replaceAt T q rq) (stripF q).dropLast
                              aL (leftmostVal rq) 0) :=
                          DW_setNode (stripF q).dropLast aL (leftmostVal rq) 0
                            hdw0 hpre2 hne2
                        have hget2 : getAt (setNodeAt (replaceAt T q rq)
                            (stripF q).dropLast aL (leftmostVal rq) 0) q =
                            some rq := by
                          rw [getAt_setNodeAt_of_strict hpre2 hne2]
                          exact getAt_replaceAt q rq hpar
                        rw [rebalance]
                        cases hm : leftDepth rq with
                        | zero =>
                            rw [List.replicate_zero, List.append_nil]
                            cases q with
                            | nil => exact absurd rfl hq
                            | cons d0 q0 =>
                                rw [← rebalanceProper_eq_dropLast d0 q0]
                                obtain ⟨hw2, hb2, -⟩ := upDel hdw
                                exact ⟨hw2, hb2⟩
                        | succ k =>
                            rw [List.replicate_succ', ← List.append_assoc,
                              List.dropLast_concat]
                            have happ := @rebalancePath_append α q
                              (List.replicate k false) _ _ hget2
                            rw [happ, rebalancePath_id hwR hbR,
                              replaceAt_self q hget2]
                            obtain ⟨hw2, hb2, -⟩ := upDel hdw
                            exact ⟨hw2, hb2⟩
              · exact ⟨hw, hb⟩
          · exact ⟨hw, hb⟩
    | true =>
        simp only [delete_node, hlast, hdrop]
        split
        · exact ⟨hw, hb⟩
        · rename_i hq
          split
          · rename_i L hL2
            split
            · exact ⟨hw, hb⟩
            · rename_i hs0
              split
              · rename_i x0 bL x2 x3 x4 hA
                rw [getAt_append] at hp hL2
                cases hpar : getAt T q with
                | none =>
                    rw [hpar, Option.none_bind] at hL2
                    exact absurd hL2 (by simp)
                | some par =>
                    rw [hpar, Option.some_bind] at hp hL2
                    cases par with
                    | leaf pw =>
                        rw [getAt_leaf_cons] at hL2
                        exact absurd hL2 (by simp)
                    | node aq bq hq2 lq rq =>
                        rw [show getAt (VDT.node aq bq hq2 lq rq) [false] =
                          getAt lq [] from rfl, getAt_nil] at hL2
                        obtain rfl := Option.some.inj hL2
                        rw [show getAt (VDT.node aq bq hq2 lq rq) [true] =
                          getAt rq [] from rfl, getAt_nil] at hp
                        obtain rfl := Option.some.inj hp
                        have hwpar := wfH_getAt hw hpar
                        have hbpar := balanced_getAt hb hpar
                        have hwL : wfH lq := hwpar.2.1
                        have hbL : balanced lq := hbpar.2.1
                        have hdw0 : DW q (realHeight T) (replaceAt T q lq) :=
                          DW_of_replace q lq hw hb hpar hwL hbL
                            (Or.inl (by simp only [realHeight]; omega))
                        obtain ⟨hpre2, hne2⟩ :=
                          dropLast_strict_prefix hs0 (stripT_pref q)
                        have hdw : DW q (realHeight T)
                            (setNodeAt (replaceAt T q lq) (stripT q).dropLast
                              (rightmostVal lq) bL 0) :=
                          DW_setNode (stripT q).dropLast (rightmostVal lq) bL 0
                            hdw0 hpre2 hne2
                        have hget2 : getAt (setNodeAt (replaceAt T q lq)
                            (stripT q).dropLast (rightmostVal lq) bL 0) q =
                            some lq := by
                          rw [getAt_setNodeAt_of_strict hpre2 hne2]
                          exact getAt_replaceAt q lq hpar
                        rw [rebalance]
                        cases hm : rightDepth lq with
                        | zero =>
                            rw [List.replicate_zero, List.append_nil]
                            cases q with
                            | nil => exact absurd rfl hq
                            | cons d0 q0 =>
                                rw [← rebalanceProper_eq_dropLast d0 q0]
                                obtain ⟨hw2, hb2, -⟩ := upDel hdw
                                exact ⟨hw2, hb2⟩
                        | succ k =>
                            rw [List.replicate_succ', ← List.append_assoc,
                              List.dropLast_concat]
                            have happ := @rebalancePath_append α q
                              (List.replicate k true) _ _ hget2
                            rw [happ, rebalancePath_id hwL hbL,
                              replaceAt_self q hget2]
                            obtain ⟨hw2, hb2, -⟩ := upDel hdw
                            exact ⟨hw2, hb2⟩
              · exact ⟨hw, hb⟩
          · exact ⟨hw, hb⟩

end AVL

/-- C2: After every insertion into the beachline (`TreeVD.insert`, both the
degenerate equal-`y` regime and the normal five-node split regime) and after
every deletion of a beachline leaf (`TreeVD.delete_node`) performed from a
beachline state satisfying the invariants the event loop maintains (stored
`_height` attributes up to date and every internal node AVL-balanced), the
`_rebalance` walk restores both invariants: in the resulting beachline every
internal node again satisfies `|height(left) - height(right)| <= 1` (and the
stored heights are again exact). -/
theorem claim_C2 {α : Type} (t : AVL.VDT α) (hw : AVL.wfH t) (hb : AVL.balanced t) :
    (∀ p x, AVL.wfH (AVL.insert_colinear t p x) ∧
      AVL.balanced (AVL.insert_colinear t p x)) ∧
    (∀ p x, AVL.wfH (AVL.insert_normal t p x) ∧
      AVL.balanced (AVL.insert_normal t p x)) ∧
    (∀ p v, AVL.getAt t p = some (AVL.VDT.leaf v) →
      AVL.wfH (AVL.delete_node t p) ∧ AVL.balanced (AVL.delete_node t p)) :=
  ⟨fun p x => AVL.insert_colinear_spec hw hb p x,
   fun p x => AVL.insert_normal_spec hw hb p x,
   fun p v hp => AVL.delete_node_spec hw hb p v hp⟩

theorem claim_C2_witness :
    AVL.wfH (AVL.VDT.leaf (0 : ℕ)) ∧ AVL.balanced (AVL.VDT.leaf (0 : ℕ)) ∧
    AVL.wfH (AVL.insert_normal (AVL.VDT.leaf (0 : ℕ)) [] 1) ∧
    AVL.balanced (AVL.insert_normal (AVL.VDT.leaf (0 : ℕ)) [] 1) :=
  ⟨True.intro, True.intro,
    (claim_C2 (AVL.VDT.leaf 0) True.intro True.intro).2.1 [] 1⟩

end VD
